import Mathlib

/-! # cpp-ipc: fragmenting message queue and circular element array

A shallow embedding of `src/ipc.cpp` (the fragmenting `send` / `recv` pair and the
per-receiver reassembly cache), of `include/circ_elem_array.h` (the
single-producer broadcast ring and the layout of its object), of the `test_cq` harness of
`test/test_circ.cpp` (one producer and several consumers, run as an interleaving of atomic
steps), of `commit` in `src/circ_elem_array.h` (the ring with several producers) and of
`include/rw_lock.h`, followed by the properties proved about them.

Machine integers are `Nat` / `Int` with explicit reduction: `int` is 32 bits wide,
`std::size_t` is 64 bits wide. The calls of `send` and `recv` whose behaviour C++ leaves
undefined (signed overflow, a copy that leaves its source or its destination) are told apart
by `send_defined` and `recv_defined`.
-/

namespace ipc

/-! ## Definitions: `def.h` -/

/-- One byte, `byte_t = std::uint8_t`. -/
abbrev byte_t := Fin 256

/-- The constant `data_length = 16` of `def.h`: payload bytes per fragment. -/
def data_length : Nat := 16

/-- Largest value of the 32-bit `int`. -/
def INT_MAX : Nat := 2147483647

/-- The conversion `static_cast<int>(x)`, and the result of 32-bit `int` arithmetic:
the value is reduced modulo `2^32` into `[-2^31, 2^31)`. -/
def to_int (x : Int) : Int := (x + 2147483648) % 4294967296 - 2147483648

/-- The conversion `static_cast<std::size_t>(x)` of an `int` to the 64-bit `size_t`. -/
def to_size (x : Int) : Nat := (x % 18446744073709551616).toNat

/-! ## Definitions: `src/ipc.cpp` -/

/-- The fragment record `msg_t` (packed): the address of the emitting queue object,
the message id, the signed `remain` field and the `data_length`-byte data area. -/
structure msg_t where
  que_ : Nat
  id_ : Nat
  remain_ : Int
  data_ : List byte_t
deriving DecidableEq, Repr

/-- A buffer `buff_t`: the bytes at its pointer and its `size`. The empty buffer
`{}` has no bytes and size 0. -/
structure buff_t where
  data : List byte_t
  size : Nat
deriving DecidableEq, Repr

/-- What `std::memcpy(dst, src, n)` reads when `src` is the data area of a fragment:
byte `i` of the area while `i` is inside it. A copy of more bytes than the area holds reads
past the end of `msg.data_`, which C++ leaves undefined; `oob` (indexed from the end of the
area) stands for whatever such a read delivers, so that the over-read can be stated. A
property of the program may only rest on runs that make no such read: `recv_defined` tells
which runs these are. -/
def mem_read (src : List byte_t) (oob : Nat → byte_t) (n : Nat) : List byte_t :=
  (List.range n).map (fun i => if h : i < src.length then src.get ⟨i, h⟩ else oob (i - src.length))

/-- What `std::memcpy(mem + pos, src, src.length)` leaves at `mem`: the bytes before
`pos` stay, `src` follows, and the bytes behind the copied range stay. A copy that
runs past the end of `mem` makes the list longer than the buffer it belongs to. -/
def mem_write (mem : List byte_t) (pos : Nat) (src : List byte_t) : List byte_t :=
  mem.take pos ++ src ++ mem.drop (pos + src.length)

/-- The data area of a fragment built by `send`: `msg_t msg { que, msg_id, remain, {} }`
zeroes the `data_length` bytes, then `std::memcpy(msg.data_, data + offset, n)` sets
the first `n` of them from the payload. The area keeps its `data_length` bytes: a copy of
more than that runs past the record, which the list does not follow. The offset is negative
only after 32-bit wrap-around, for sizes above `INT_MAX`; the code then reads before `data`,
which C++ leaves undefined and for which index 0 stands in here. `send_defined` tells the
calls in which neither happens. -/
def fill_data (data : Nat → byte_t) (offset : Int) (n : Nat) : List byte_t :=
  (List.range data_length).map (fun i => if i < n then data (offset + (i : Int)).toNat else 0)

/-- Modelled from the spec: `ipc::queue` (its `push`, `pop` and `connect`) is declared in a
header that is not under src/. An endpoint is known by the address of its queue object
(the value of the handle, never null). `out` holds the fragments published through this
endpoint, oldest first; `inbox` holds the published fragments this endpoint has still
to pop, oldest first; `connected` records the consumer-side connect. -/
structure queue_t where
  addr : Nat
  connected : Bool
  out : List msg_t
  inbox : List msg_t
deriving DecidableEq, Repr

/-- Modelled from the spec: `queue::push` is not under src/. It publishes one fragment
through the ring (acquire, write, commit, which the spec has infallible) and reports
success. -/
def queue_t.push (que : queue_t) (msg : msg_t) : Bool × queue_t :=
  (true, { que with out := que.out ++ [msg] })

/-- Modelled from the spec: `queue::connect` is not under src/. It connects the
endpoint as a consumer, once (`wouldn't connect twice`). -/
def queue_t.connect (que : queue_t) : queue_t :=
  { que with connected := true }

/-- Modelled from the spec: `queue::pop` is not under src/. It hands out the oldest
published fragment this endpoint has not popped yet; with none pending it does not
return (the consumer keeps polling), which is `none` here. -/
def queue_t.pop (que : queue_t) : Option (msg_t × queue_t) :=
  match que.inbox with
  | [] => none
  | msg :: rest => some (msg, { que with inbox := rest })

/-- The `for` loop of `detail::send`, with `n` iterations to go at `offset`: each
iteration builds the full fragment at `offset` with
`remain_ = static_cast<int>(size) - offset - static_cast<int>(data_length)`, pushes it
and advances `offset` by `data_length`. A failed push ends `send` with `false`. -/
def send_loop (msg_id : Nat) (data : Nat → byte_t) (size : Nat) :
    Nat → Int → queue_t → Bool × Int × queue_t
  | 0, offset, que => (true, offset, que)
  | n + 1, offset, que =>
    let msg : msg_t :=
      { que_ := que.addr, id_ := msg_id,
        remain_ := to_int (to_int (to_int size - offset) - to_int data_length),
        data_ := fill_data data offset data_length }
    match que.push msg with
    | (false, que1) => (false, offset, que1)
    | (true, que1) => send_loop msg_id data size n (to_int (offset + data_length)) que1

/-- The function `detail::send(h, data, size)`. The state is the global message counter
`acc` (a 64-bit atomic in shared memory) and the queue behind the handle; the result
is the returned flag with the new counter and queue. A null `data`, a zero `size` and
a null handle return `false` before anything is touched. -/
def send (acc : Nat) (h : Option queue_t) (data : Option (Nat → byte_t)) (size : Nat) :
    Bool × Nat × Option queue_t :=
  match data with
  | none => (false, acc, h)
  | some d =>
    if size = 0 then (false, acc, h)
    else
      match h with
      | none => (false, acc, none)
      | some que =>
        let msg_id := (acc + 1) % 18446744073709551616
        match send_loop msg_id d size (to_int ((size / data_length : Nat) : Int)).toNat 0 que with
        | (false, _, que1) => (false, msg_id, some que1)
        | (true, offset, que1) =>
          let remain := to_int (to_int size - offset)
          if 0 < remain then
            let msg : msg_t :=
              { que_ := que1.addr, id_ := msg_id,
                remain_ := to_int (remain - to_int data_length),
                data_ := fill_data d offset (to_size remain) }
            match que1.push msg with
            | (false, que2) => (false, msg_id, some que2)
            | (true, que2) => (true, msg_id, some que2)
          else (true, msg_id, some que1)

/-- The fragments a call of `send` published: what it added to the queue's `out`. -/
def emitted (h : Option queue_t) (r : Bool × Nat × Option queue_t) : List msg_t :=
  match h, r.2.2 with
  | some que, some que1 => que1.out.drop que.out.length
  | _, _ => []

/-- A reassembly cache entry `cache_t`: the fill level and the buffer. -/
structure cache_t where
  fill_ : Nat
  buff_ : buff_t
deriving DecidableEq, Repr

/-- The function `make_cache(data, size)`: allocate `size` bytes and copy `size` bytes
from `data` into them. The allocation is taken to succeed whatever the size; for a `size`
above `data_length` the copy reads past the data area (see `mem_read`). -/
def make_cache (data : List byte_t) (oob : Nat → byte_t) (size : Nat) : buff_t :=
  { data := mem_read data oob size, size := size }

/-- The method `cache_t::append(data, size)`: copy `size` bytes from `data` to
`buff_.data() + fill_`, then `fill_ += size`. -/
def cache_t.append (cac : cache_t) (data : List byte_t) (oob : Nat → byte_t) (size : Nat) :
    cache_t :=
  { fill_ := (cac.fill_ + size) % 18446744073709551616,
    buff_ := { cac.buff_ with data := mem_write cac.buff_.data cac.fill_ (mem_read data oob size) } }

/-- The per-receiver map `recv_cache()` from message id to cache entry, as an
association list with at most one entry per id. -/
abbrev recv_cache_t := List (Nat × cache_t)

/-- The lookup `rc.find(id)`. -/
def rc_find (rc : recv_cache_t) (id : Nat) : Option cache_t :=
  match rc with
  | [] => none
  | (k, c) :: rest => if k = id then some c else rc_find rest id

/-- The insertion `rc.try_emplace(id, fill, buff)`: nothing happens when the id has
an entry. -/
def rc_try_emplace (rc : recv_cache_t) (id : Nat) (cac : cache_t) : recv_cache_t :=
  match rc_find rc id with
  | some _ => rc
  | none => rc ++ [(id, cac)]

/-- The removal `rc.erase(it)` of the entry of `id`. -/
def rc_erase (rc : recv_cache_t) (id : Nat) : recv_cache_t :=
  match rc with
  | [] => []
  | (k, c) :: rest => if k = id then rc_erase rest id else (k, c) :: rc_erase rest id

/-- The write through the reference `cac_it->second`: the entry of `id` is replaced
in place. -/
def rc_set (rc : recv_cache_t) (id : Nat) (cac : cache_t) : recv_cache_t :=
  match rc with
  | [] => []
  | (k, c) :: rest =>
    if k = id then (k, cac) :: rc_set rest id cac else (k, c) :: rc_set rest id cac

/-- The `while (1)` loop of `detail::recv` for the queue at address `que`, run on the
fragments `pop` will hand out. The result is the returned buffer (`none` when `pop`
has nothing left to hand out, so that `recv` does not return), the cache and the
fragments not popped yet. -/
def recv_loop (que : Nat) (oob : Nat → byte_t) :
    recv_cache_t → List msg_t → Option buff_t × recv_cache_t × List msg_t
  | rc, [] => (none, rc, [])
  | rc, msg :: rest =>
    if msg.id_ = 0 then (some { data := [], size := 0 }, rc, rest)
    else if msg.que_ = que then recv_loop que oob rc rest
    else
      let remain := to_size (to_int (to_int data_length + msg.remain_))
      match rc_find rc msg.id_ with
      | none =>
        if remain ≤ data_length then (some (make_cache msg.data_ oob remain), rc, rest)
        else
          recv_loop que oob
            (rc_try_emplace rc msg.id_
              { fill_ := data_length, buff_ := make_cache msg.data_ oob remain }) rest
      | some cac =>
        if msg.remain_ ≤ 0 then
          ((cac.append msg.data_ oob remain).buff_, rc_erase rc msg.id_, rest)
        else
          recv_loop que oob (rc_set rc msg.id_ (cac.append msg.data_ oob data_length)) rest

/-- The function `detail::recv(h)`: a null handle returns the empty buffer; otherwise
the queue is connected and the loop runs on its pending fragments. The state is the
queue behind the handle and the reassembly cache of the calling thread. -/
def recv (h : Option queue_t) (oob : Nat → byte_t) (rc : recv_cache_t) :
    Option buff_t × Option queue_t × recv_cache_t :=
  match h with
  | none => (some { data := [], size := 0 }, none, rc)
  | some que =>
    let que1 := que.connect
    let r := recv_loop que1.addr oob rc que1.inbox
    (r.1, some { que1 with inbox := r.2.2 }, r.2.1)

/-- The payload behind the pointer `data` when the caller passes the byte string `B`. -/
def bytes_at (B : List byte_t) : Nat → byte_t := fun i => B.getD i 0

/-! ## Definitions used to state the properties of `send` and `recv` -/


/-- The fragment `send` emits at offset `16 * k` of a payload of `size` bytes, in closed form:
`remain_ = size - offset - data_length`, and the data area holds the payload bytes from the
offset on, `data_length` of them or as many as are left. -/
def fragment_at (addr id : Nat) (d : Nat → byte_t) (size k : Nat) : msg_t :=
  { que_ := addr, id_ := id, remain_ := (size : Int) - 16 * (k : Int) - 16,
    data_ := fill_data d (16 * (k : Int)) (min 16 (size - 16 * k)) }

/-- The fragment sequence of a payload of `size` bytes in closed form: the fragments at
offsets 0, 16, 32, ... below `size`. `send` is proved to emit exactly this sequence for
`1 ≤ size ≤ INT_MAX` (theorem `emitted_send`). -/
def fragments (addr id : Nat) (d : Nat → byte_t) (size : Nat) : List msg_t :=
  (List.range ((size + 15) / 16)).map (fragment_at addr id d size)


/-- The cache entry of a message with payload `B` after its first `k` fragments: the fill
level is `16 * k`, the buffer has the size of the whole message, and its first `16 * k`
bytes are those of `B`. -/
def entry_ok (B : List byte_t) (k : Nat) (cac : cache_t) : Prop :=
  cac.fill_ = 16 * k ∧ cac.buff_.size = B.length ∧ cac.buff_.data.length = B.length ∧
    cac.buff_.data.take (16 * k) = B.take (16 * k)


/-- The 65 bytes of scenario S3: `hello, world!!!` followed by fifty `x`. -/
def S3_payload : List byte_t :=
  [104, 101, 108, 108, 111, 44, 32, 119, 111, 114, 108, 100, 33, 33, 33] ++ List.replicate 50 120

/-- A sender endpoint for the concrete runs: queue object at address 4096, nothing published. -/
def que_a : queue_t := { addr := 4096, connected := false, out := [], inbox := [] }

/-- A receiver endpoint for the concrete runs: queue object at address 8192. -/
def que_b : queue_t := { addr := 8192, connected := false, out := [], inbox := [] }

/-- The order-preserving interleavings of two sequences: `Interleaving l1 l2 l` holds when
`l` is a merge of `l1` and `l2` that keeps the order inside each of them. -/
inductive Interleaving {α : Type} : List α → List α → List α → Prop
  | nil : Interleaving [] [] []
  | left (a : α) {l1 l2 l : List α} : Interleaving l1 l2 l → Interleaving (a :: l1) l2 (a :: l)
  | right (b : α) {l1 l2 l : List α} : Interleaving l1 l2 l → Interleaving l1 (b :: l2) (b :: l)

/-- A receiver that calls `recv` again and again, at most `n` times, and stops at the call
that does not return: the buffers obtained, in order, with the queue and the cache it ends
with. -/
def recv_all (oob : Nat → byte_t) :
    Nat → Option queue_t → recv_cache_t → List buff_t × Option queue_t × recv_cache_t
  | 0, h, rc => ([], h, rc)
  | n + 1, h, rc =>
    match recv h oob rc with
    | (none, h1, rc1) => ([], h1, rc1)
    | (some b, h1, rc1) => ((b :: (recv_all oob n h1 rc1).1), (recv_all oob n h1 rc1).2)

/-- The state of the cache for a message with payload `B` and id `id` of which the receiver
has consumed the first `k` fragments: no entry before the first and after the last fragment,
and in between an entry holding the first `16 * k` bytes. -/
def progress_ok (B : List byte_t) (id k : Nat) (rc : recv_cache_t) : Prop :=
  if k = 0 ∨ B.length ≤ 16 * k then rc_find rc id = none
  else ∃ cac, rc_find rc id = some cac ∧ entry_ok B k cac

/-- The buffers a receiver is due for the terminators in `L`, in the order they arrive, when
fragments with id `id1` belong to the message `B1` and all others to `B2`. -/
def due_buffers (id1 : Nat) (B1 B2 : List byte_t) (L : List msg_t) : List buff_t :=
  L.filterMap (fun m =>
    if m.remain_ ≤ 0 then
      some (if m.id_ = id1 then { data := B1, size := B1.length }
            else { data := B2, size := B2.length })
    else none)

/-- The interleaving of `l1` and `l2` picked by a schedule: `true` takes the next element of
`l1`, `false` the next of `l2`; when one side or the schedule is exhausted the rest follows
in order. -/
def merge_by {α : Type} : List Bool → List α → List α → List α
  | _, [], l2 => l2
  | _, a :: l1, [] => a :: l1
  | [], a :: l1, b :: l2 => a :: l1 ++ b :: l2
  | true :: s, a :: l1, b :: l2 => a :: merge_by s l1 (b :: l2)
  | false :: s, a :: l1, b :: l2 => b :: merge_by s (a :: l1) l2

/-- The fragments that are not tagged with the receiver's own queue address `que`. -/
def without_own (que : Nat) (feed : List msg_t) : List msg_t :=
  feed.filter (fun m => decide (m.que_ ≠ que))

/-- A 20-byte payload for the concrete runs. -/
def short_payload : List byte_t := List.replicate 20 7

/-- A second sender endpoint for the concrete runs: queue object at address 12288. -/
def que_c : queue_t := { addr := 12288, connected := false, out := [], inbox := [] }

/-! ## Definitions: `include/circ_elem_array.h` (the single-producer ring) -/

namespace circ

/-- One slot `elem_t`: the header with the read counter `rc_` (an atomic 32-bit unsigned)
and the payload area `data_`, whose content is kept as a value of type `α`. -/
structure elem_t (α : Type) where
  rc_ : Nat
  data_ : α

/-- The ring `elem_array` with its header `elem_array_head<8>`: the connection counter `cc_`
and the write cursor `wt_` (atomic 16-bit unsigned), and the slots `block_[elem_max]`,
looked up by index. -/
structure elem_array (α : Type) where
  cc_ : Nat
  wt_ : Nat
  block_ : Nat → elem_t α

/-- A pointer into `block_`: the slot it points into and the byte offset inside that slot. -/
structure ptr_t where
  slot : Nat
  off : Nat
deriving DecidableEq, Repr

/-- The number of slots, `elem_max = numeric_limits<uint8_t>::max() + 1`. -/
def elem_max : Nat := 256

/-- The size of the slot header `elem_head`: one 32-bit counter. -/
def sizeof_head_t : Nat := 4

/-- The function `index_of(c)`: `static_cast<u1_t>(c)` keeps the low 8 bits. -/
def index_of (c : Nat) : Nat := c % 256

/-- The slot `i` with its read counter replaced. -/
def set_rc {α : Type} (ca : elem_array α) (i : Nat) (rc : Nat) : elem_array α :=
  { ca with block_ := fun j => if j = i then { ca.block_ i with rc_ := rc } else ca.block_ j }

/-- The method `connect()`: `cc_.fetch_add(1)`, returning the previous value. -/
def elem_array.connect {α : Type} (ca : elem_array α) : Nat × elem_array α :=
  (ca.cc_, { ca with cc_ := (ca.cc_ + 1) % 65536 })

/-- The method `disconnect()`: `cc_.fetch_sub(1)`, returning the previous value. -/
def elem_array.disconnect {α : Type} (ca : elem_array α) : Nat × elem_array α :=
  (ca.cc_, { ca with cc_ := (ca.cc_ + 65535) % 65536 })

/-- The method `conn_count()`. -/
def elem_array.conn_count {α : Type} (ca : elem_array α) : Nat := ca.cc_

/-- The method `cursor()`. -/
def elem_array.cursor {α : Type} (ca : elem_array α) : Nat := ca.wt_

/-- The address `elem(i)->data_`: the data area of slot `i` starts behind the header. -/
def data_of (i : Nat) : ptr_t := { slot := i, off := sizeof_head_t }

/-- The function `elem(void* ptr)`: step back over the header to the slot the data pointer
belongs to. -/
def elem_of (p : ptr_t) : ptr_t := { slot := p.slot, off := p.off - sizeof_head_t }

/-- The `while (1)` loop of `acquire()` on slot `i`, run for at most `n` rounds with no other
thread in between: a round is `compare_exchange` of the read counter from 0 to
`static_cast<uint32_t>(conn_count())`; a failed round yields and tries again. `none` means
that no round has succeeded. -/
def acquire_loop {α : Type} (ca : elem_array α) (i : Nat) : Nat → Option (elem_array α)
  | 0 => none
  | n + 1 =>
    if (ca.block_ i).rc_ = 0 then some (set_rc ca i (ca.conn_count % 4294967296))
    else acquire_loop ca i n

/-- The method `acquire()`: the slot is the one `base_t::acquire()` names,
`index_of(wt_)`; once the loop has stamped it the data pointer of the slot is returned. -/
def elem_array.acquire {α : Type} (fuel : Nat) (ca : elem_array α) :
    Option (ptr_t × elem_array α) :=
  match acquire_loop ca (index_of ca.wt_) fuel with
  | none => none
  | some ca1 => some (data_of (index_of ca.wt_), ca1)

/-- The method `commit(ptr)`: `wt_.fetch_add(1)`; the pointer is not looked at. -/
def elem_array.commit {α : Type} (ca : elem_array α) (_p : ptr_t) : elem_array α :=
  { ca with wt_ := (ca.wt_ + 1) % 65536 }

/-- The method `take(cursor)`: the data pointer of slot `index_of(cursor)`. -/
def elem_array.take {α : Type} (_ca : elem_array α) (cursor : Nat) : ptr_t :=
  data_of (index_of cursor)

/-- The method `put(ptr)`: `rc_.fetch_sub(1)` on the slot the pointer belongs to. -/
def elem_array.put {α : Type} (ca : elem_array α) (p : ptr_t) : elem_array α :=
  set_rc ca (elem_of p).slot (((ca.block_ (elem_of p).slot).rc_ + 4294967295) % 4294967296)

/-- A read of the payload through a data pointer, `*pmsg`. -/
def elem_array.load {α : Type} (ca : elem_array α) (p : ptr_t) : α :=
  (ca.block_ p.slot).data_

/-- A write of the payload through a data pointer, `(*pmsg) = msg`. -/
def elem_array.store {α : Type} (ca : elem_array α) (p : ptr_t) (v : α) : elem_array α :=
  { ca with
    block_ := fun j => if j = p.slot then { ca.block_ p.slot with data_ := v } else ca.block_ j }

end circ

/-! ## Definitions: `test/test_circ.cpp` (the harness `test_cq<elem_array<D>>`) -/

namespace test_cq

/-- The payload `msg_t` of the ring test: producer id and datum. -/
structure msg_t where
  pid_ : Int
  dat_ : Int
deriving DecidableEq, Repr

/-- The method `test_cq::connect()`: snapshot the cursor, then connect; the snapshot is
returned. -/
def connect (ca : circ.elem_array msg_t) : Nat × circ.elem_array msg_t :=
  (ca.cursor, ca.connect.2)

/-- The method `test_cq::send(ca, msg)`: acquire, write the payload, commit. It returns
nothing before `acquire` does. -/
def send (fuel : Nat) (ca : circ.elem_array msg_t) (msg : msg_t) :
    Option (circ.elem_array msg_t) :=
  match ca.acquire fuel with
  | none => none
  | some (pmsg, ca1) => some ((ca1.store pmsg msg).commit pmsg)

/-- The inner loop of `test_cq::recv(cur, proc)`, run with no other thread in between for at
most `n` rounds: while `cur != cursor()` take the slot, copy the payload, put the slot; a
negative `pid_` ends `recv`, otherwise `++cur` and the payload goes to `proc`, which appends
it to the received list. The result is the ring, the cursor, the received list and whether
`recv` has returned; it is `none` when `n` rounds were not enough to catch up. -/
def recv (ca : circ.elem_array msg_t) (cur : Nat) (got : List msg_t) :
    Nat → Option (circ.elem_array msg_t × Nat × List msg_t × Bool)
  | 0 => if cur ≠ ca.cursor then none else some (ca, cur, got, false)
  | n + 1 =>
    if cur ≠ ca.cursor then
      if (ca.load (ca.take cur)).pid_ < 0 then
        some (ca.put (ca.take cur), cur, got, true)
      else
        recv (ca.put (ca.take cur)) ((cur + 1) % 65536) (got ++ [ca.load (ca.take cur)]) n
    else some (ca, cur, got, false)

/-- A zeroed ring, as `::new (ca) ca_t` leaves it: nobody connected, cursor 0, every read
counter 0, payload areas zeroed. -/
def fresh : circ.elem_array msg_t :=
  { cc_ := 0, wt_ := 0, block_ := fun _ => { rc_ := 0, data_ := { pid_ := 0, dat_ := 0 } } }

end test_cq

/-! ## Definitions: the ring test as interleaved atomic steps

One producer thread runs `test_cq::send` on the payloads `msgs` in turn, and the consumer
threads run `test_cq::recv`. Every access to the shared ring is one atomic step, taken in
the order a schedule dictates (sequentially consistent interleaving). -/

namespace test_cq

/-- A consumer thread inside `test_cq::recv`: where it stands (`pc` 0: at the test
`cur != cursor()`; 1: before the copy `msg = *pmsg`; 2: before `put(pmsg)`; 3: returned),
its cursor `cur`, its copy `msg` and the list `proc` has received. -/
structure consumer where
  pc : Nat
  cur : Nat
  msg : msg_t
  got : List msg_t
deriving DecidableEq, Repr

/-- The ring with the threads working on it: the producer's place in `test_cq::send`
(`pc` 0: before `acquire`; 1: before the payload write; 2: before `commit`), the pointer
`pmsg` it holds, the number `sent` of payloads it has committed, and the consumers. -/
structure system where
  ca : circ.elem_array msg_t
  pc : Nat
  pmsg : circ.ptr_t
  sent : Nat
  cons : List consumer

/-- The next atomic step of the producer: one round of the compare-exchange in `acquire`
(a failed round changes nothing), the payload write, or the commit. With every payload
committed the producer does nothing. -/
def prod_step (msgs : List msg_t) (s : system) : system :=
  match msgs[s.sent]? with
  | none => s
  | some m =>
    match s.pc with
    | 0 =>
      match s.ca.acquire 1 with
      | none => s
      | some (p, ca1) => { s with ca := ca1, pc := 1, pmsg := p }
    | 1 => { s with ca := s.ca.store s.pmsg m, pc := 2 }
    | _ => { s with ca := s.ca.commit s.pmsg, pc := 0, sent := s.sent + 1 }

/-- The consumer after `put`: a negative `pid_` ends `recv`; otherwise `++cur` and `proc`
appends the copy to the received list. -/
def after_put (c : consumer) : consumer :=
  if c.msg.pid_ < 0 then { c with pc := 3 }
  else { pc := 0, cur := (c.cur + 1) % 65536, msg := c.msg, got := c.got ++ [c.msg] }

/-- The next atomic step of consumer `j`: the test `cur != cursor()` (when the cursors are
equal the consumer yields and nothing changes), the copy of the payload, or the `put`. -/
def cons_step (s : system) (j : Nat) : system :=
  match s.cons[j]? with
  | none => s
  | some c =>
    match c.pc with
    | 0 => if c.cur ≠ s.ca.cursor then { s with cons := s.cons.set j { c with pc := 1 } } else s
    | 1 => { s with cons := s.cons.set j { c with pc := 2, msg := s.ca.load (s.ca.take c.cur) } }
    | 2 => { s with ca := s.ca.put (s.ca.take c.cur), cons := s.cons.set j (after_put c) }
    | _ => s

/-- One step of the thread the scheduler picks: 0 is the producer, `j + 1` is consumer `j`. -/
def step (msgs : List msg_t) (s : system) (tid : Nat) : system :=
  match tid with
  | 0 => prod_step msgs s
  | j + 1 => cons_step s j

/-- The run of a schedule, a list of thread ids. -/
def run (msgs : List msg_t) : List Nat → system → system
  | [], s => s
  | tid :: rest, s => run msgs rest (step msgs s tid)

/-- The consumers connect one after the other with `test_cq::connect`, each keeping the cursor
snapshot as its `cur`. -/
def connect_all : Nat → circ.elem_array msg_t → List consumer →
    circ.elem_array msg_t × List consumer
  | 0, ca, cs => (ca, cs)
  | n + 1, ca, cs =>
    connect_all n (connect ca).2
      (cs ++ [{ pc := 0, cur := (connect ca).1, msg := { pid_ := 0, dat_ := 0 }, got := [] }])

/-- The system before the first publication: `C` consumers have connected to the ring `ca0`. -/
def start (ca0 : circ.elem_array msg_t) (C : Nat) : system :=
  { ca := (connect_all C ca0 []).1, pc := 0, pmsg := circ.data_of 0, sent := 0,
    cons := (connect_all C ca0 []).2 }

/-- No thread can change the state: the producer has nothing to do or spins, every consumer
yields or has returned. -/
def quiescent (msgs : List msg_t) (s : system) : Prop :=
  prod_step msgs s = s ∧ ∀ j, cons_step s j = s

/-- The number of consumers that still owe a `put` for publication number `k`: those that
have received `k` payloads or fewer. -/
def owed (k : Nat) (cons : List consumer) : Nat :=
  cons.countP (fun c => decide (c.got.length ≤ k))

/-- The number of slots the producer has stamped: one per committed payload, and one more
while a publication is under way. -/
def stamps (s : system) : Nat := s.sent + (if s.pc = 0 then 0 else 1)

/-- The invariant of the run, for the payloads `msgs`, `C` consumers and the cursor value `w0`
at which the consumers connected. -/
structure inv (msgs : List msg_t) (C w0 : Nat) (s : system) : Prop where
  h_sent : s.sent ≤ msgs.length
  h_pc : s.pc ≤ 2
  h_busy : s.pc ≠ 0 → s.sent < msgs.length
  h_cc : s.ca.cc_ = C
  h_wt : s.ca.wt_ = (w0 + s.sent) % 65536
  h_len : s.cons.length = C
  h_pmsg : s.pc ≠ 0 → s.pmsg = circ.data_of ((w0 + s.sent) % 256)
  h_cons : ∀ c ∈ s.cons, c.pc ≤ 2 ∧ c.got = msgs.take c.got.length ∧ c.got.length ≤ s.sent ∧
    c.cur = (w0 + c.got.length) % 65536 ∧ (c.pc ≠ 0 → c.got.length < s.sent) ∧
    (c.pc = 2 → msgs[c.got.length]? = some c.msg) ∧ stamps s ≤ c.got.length + 256
  h_data : ∀ k, k < s.sent + (if s.pc = 2 then 1 else 0) → stamps s ≤ k + 256 →
    msgs[k]? = some (s.ca.block_ ((w0 + k) % 256)).data_
  h_rc : ∀ k, k < stamps s → stamps s ≤ k + 256 →
    (s.ca.block_ ((w0 + k) % 256)).rc_ = owed k s.cons
  h_free : ∀ i, i < 256 → (∀ k, k < stamps s → stamps s ≤ k + 256 → (w0 + k) % 256 ≠ i) →
    (s.ca.block_ i).rc_ = 0

/-- The atomic steps still to be taken: three per payload the producer has not committed and
three per payload a consumer has not received, less the steps under way. -/
def work (msgs : List msg_t) (s : system) : Nat :=
  (3 * (msgs.length - s.sent) - s.pc) +
    (s.cons.map (fun c => 3 * (msgs.length - c.got.length) - c.pc)).sum

end test_cq

/-! ## Definitions used to state the properties of the single-producer ring -/

namespace test_cq

/-- The number of `put` calls consumer `j` makes during the run of a schedule: the steps of
thread `j + 1` taken while the consumer stands before `put(pmsg)`. -/
def puts_of (msgs : List msg_t) (j : Nat) : List Nat → system → Nat
  | [], _ => 0
  | tid :: rest, s =>
    (if tid = j + 1 ∧ (s.cons[j]?).map (fun c => c.pc) = some 2 then 1 else 0) +
      puts_of msgs j rest (step msgs s tid)

/-- The payloads of the back-pressure run: 257 of them, one more than the ring has slots. -/
def lag_payloads : List msg_t := List.replicate 257 { pid_ := 1, dat_ := 0 }

end test_cq

namespace circ

/-- One call of a ring operation, with its argument: `connect()`, `disconnect()`, `acquire()`,
`commit(ptr)`, `take(cursor)` or `put(ptr)`. -/
inductive op_t where
  | connect
  | disconnect
  | acquire
  | commit (p : ptr_t)
  | take (cursor : Nat)
  | put (p : ptr_t)
deriving DecidableEq, Repr

/-- The ring after one call. The value a call returns is dropped; `take` only computes a
pointer; an `acquire` whose loop does not succeed within `fuel` rounds is still spinning and
has changed nothing. -/
def elem_array.apply {α : Type} (fuel : Nat) (ca : elem_array α) : op_t → elem_array α
  | .connect => ca.connect.2
  | .disconnect => ca.disconnect.2
  | .acquire =>
    match ca.acquire fuel with
    | none => ca
    | some (_, ca1) => ca1
  | .commit p => ca.commit p
  | .take _ => ca
  | .put p => ca.put p

/-- The ring after a sequence of calls. -/
def run_ops {α : Type} (fuel : Nat) : List op_t → elem_array α → elem_array α
  | [], ca => ca
  | op :: rest, ca => run_ops fuel rest (ca.apply fuel op)

/-- The values `cursor()` returns when it is read before the first call and after every call
of the sequence. -/
def cursor_trace {α : Type} (fuel : Nat) : List op_t → elem_array α → List Nat
  | [], ca => [ca.cursor]
  | op :: rest, ca => ca.cursor :: cursor_trace fuel rest (ca.apply fuel op)

/-- Whether a call is a `commit`. -/
def op_t.is_commit : op_t → Bool
  | .commit _ => true
  | _ => false

/-- The number of `commit` calls in a sequence. -/
def commits (ops : List op_t) : Nat := ops.countP op_t.is_commit

/-- The ring after `n` calls of `put(ptr)`, one after the other. -/
def put_n {α : Type} (ca : elem_array α) (p : ptr_t) : Nat → elem_array α
  | 0 => ca
  | n + 1 => put_n (ca.put p) p n

end circ

/-! ## Definitions: the layout of the ring object of `include/circ_elem_array.h` -/

namespace circ

/-- The C++ rule that the size of an object is a multiple of its alignment: `n` rounded up to
the next multiple of `a`. -/
def align_up (n a : Nat) : Nat := (n + a - 1) / a * a

/-- What the target ABI fixes and the source does not: `alignof(std::max_align_t)`, and
whether a member of a derived class may be placed in the tail padding of its base class (the
Itanium C++ ABI does so for a base that is not a POD, the Microsoft ABI does not). -/
structure abi_t where
  max_align : Nat
  tail_reuse : Bool
deriving DecidableEq, Repr

/-- The size `sizeof(elem_array_head<8>)`: the two atomic 16-bit counters `cc_` and `wt_` at
offsets 0 and 2, rounded up to the alignment given by `alignas(std::max_align_t)`. -/
def sizeof_elem_array_head (abi : abi_t) : Nat := align_up (2 + 2) abi.max_align

/-- The expression that defines `elem_array_head_size<N>`, for a header of `n` bytes and
`alignof(std::max_align_t) = a`: `(n % a) ? ((n / a) + 1) * a : n`. -/
def round_to_max_align (n a : Nat) : Nat := if n % a ≠ 0 then (n / a + 1) * a else n

/-- The constant `elem_array_head_size<8>`. -/
def elem_array_head_size (abi : abi_t) : Nat :=
  round_to_max_align (sizeof_elem_array_head abi) abi.max_align

/-- The alignment of the slot header `elem_head`, that of its atomic 32-bit counter. -/
def alignof_head_t : Nat := 4

/-- The size `sizeof(elem_t)` of a slot with `D` payload bytes: the header, then
`byte_t data_[D]`, rounded up to the alignment of the header. -/
def sizeof_elem_t (D : Nat) : Nat := align_up (sizeof_head_t + D) alignof_head_t

/-- The enumerator `head_size = elem_array_head_size<BaseIntSize>`. -/
def head_size (abi : abi_t) : Nat := elem_array_head_size abi

/-- The enumerator `elem_size = sizeof(head_t) + DataSize`. -/
def elem_size (D : Nat) : Nat := sizeof_head_t + D

/-- The enumerator `block_size = elem_size * elem_max`. -/
def block_size (D : Nat) : Nat := elem_size D * elem_max

/-- The offset of the member `block_` in the ring object: behind the base class
`elem_array_head`, or, where the ABI reuses tail padding, behind the two counters of the
base, at the next multiple of the slot alignment. -/
def offsetof_block (abi : abi_t) : Nat :=
  if abi.tail_reuse = true then align_up (2 + 2) alignof_head_t else sizeof_elem_array_head abi

/-- The size `sizeof(elem_array<D>)`: the slots `block_[elem_max]` behind their offset, rounded
up to the alignment of the class, which is that of its base. -/
def sizeof_elem_array (abi : abi_t) (D : Nat) : Nat :=
  align_up (offsetof_block abi + elem_max * sizeof_elem_t D) abi.max_align

/-- The address a pointer into `block_` stands for, in a ring object `elem_array<D>` that
lies at address `base`. -/
def address (abi : abi_t) (D base : Nat) (p : ptr_t) : Nat :=
  base + offsetof_block abi + p.slot * sizeof_elem_t D + p.off

/-- The ABI of the common 64-bit targets: `alignof(std::max_align_t) = 16`, tail padding of
the base reused. -/
def abi_lp64 : abi_t := { max_align := 16, tail_reuse := true }

end circ

/-! ## Definitions: `src/circ_elem_array.h` (the ring with several producers) -/

namespace circ_multi

/-- The slot header `head_t`: the read flag `rf_` (an atomic 16-bit counter), the write flag
`wf_` and the acquire flag `acq_`. -/
structure head_t where
  rf_ : Nat
  wf_ : Bool
  acq_ : Bool
deriving DecidableEq, Repr

/-- One slot `elem_t`: the header and the payload area, whose content is a value of type `α`. -/
structure elem_t (α : Type) where
  head_ : head_t
  data_ : α

/-- The ring `elem_array` with its header `elem_array_head`: the connection counter `cc_` and
the commit cursor `cr_` (atomic 16-bit), the write index `wt_` (atomic 8-bit), and the slots
`block_[elem_max]`, looked up by index. -/
structure elem_array (α : Type) where
  cc_ : Nat
  cr_ : Nat
  wt_ : Nat
  block_ : Nat → elem_t α

/-- The size of the slot header `head_t`: two bytes of counter and one byte for each flag. -/
def sizeof_head_t : Nat := 4

/-- The function `elem(void* ptr)`: step back over the header to the slot the data pointer
belongs to. -/
def elem_of (p : circ.ptr_t) : circ.ptr_t := { slot := p.slot, off := p.off - sizeof_head_t }

/-- The function `index_of(uc_t c)`: `c & numeric_limits<ui_t>::max()`, the low 8 bits. -/
def index_of (c : Nat) : Nat := c % 256

/-- The function `index_of(elem_t* el)`: `static_cast<ui_t>(el - elem_start())`. -/
def index_of_elem (el : circ.ptr_t) : Nat := el.slot % 256

/-- The ring with the write flag of slot `i` replaced. -/
def set_wf {α : Type} (ca : elem_array α) (i : Nat) (v : Bool) : elem_array α :=
  { ca with
    block_ := fun j =>
      if j = i then { ca.block_ i with head_ := { (ca.block_ i).head_ with wf_ := v } }
      else ca.block_ j }

/-- The call `cr_.compare_exchange_weak(expected, desired)`: it succeeds when `cr_` holds the
expected value, unless this call is one that fails spuriously; the result is the flag and the
ring. -/
def elem_array.cas_cr {α : Type} (ca : elem_array α) (spurious : Bool) (expected desired : Nat) :
    Bool × elem_array α :=
  if ca.cr_ = expected ∧ spurious = false then (true, { ca with cr_ := desired })
  else (false, ca)

/-- The inner `do ... while` of `commit` for the slot `el` with write index `wi`, run with no
other thread in between, so that `curr`, loaded from `cr_` or reloaded by a failed
compare-exchange, is the value of `cr_`. A pass sets `no_next`, stores the write flag and
tries the compare-exchange; the list says which of the successive tries fail spuriously (none
once it is used up). The pass is repeated while the compare-exchange failed and `no_next`
holds. The result is `no_next`, `cas`, the rest of the list and the ring. -/
def commit_try {α : Type} (wi el : Nat) :
    List Bool → elem_array α → Bool × Bool × List Bool × elem_array α
  | [], ca =>
    let no_next := decide (index_of ca.cr_ ≠ wi)
    let next := if no_next = true then ca.cr_ else (ca.cr_ + 1) % 65536
    (no_next, ((set_wf ca el no_next).cas_cr false ca.cr_ next).1, [],
      ((set_wf ca el no_next).cas_cr false ca.cr_ next).2)
  | spurious :: rest, ca =>
    let no_next := decide (index_of ca.cr_ ≠ wi)
    let next := if no_next = true then ca.cr_ else (ca.cr_ + 1) % 65536
    match (set_wf ca el no_next).cas_cr spurious ca.cr_ next with
    | (true, ca1) => (no_next, true, rest, ca1)
    | (false, ca1) =>
      if no_next = true then commit_try wi el rest ca1 else (no_next, false, rest, ca1)

/-- The outer `do ... while` of `commit`, for at most `n` rounds: after the inner loop the call
returns when `no_next || !cas`; otherwise `el = elem(++wi)` and the round is repeated when
`wf_.exchange(false)` finds the write flag of that slot set. -/
def commit_walk {α : Type} :
    Nat → Nat → Nat → List Bool → elem_array α → Option (elem_array α)
  | 0, _, _, _, _ => none
  | n + 1, wi, el, fails, ca =>
    match commit_try wi el fails ca with
    | (no_next, cas, fails1, ca1) =>
      if no_next = true ∨ cas = false then some ca1
      else if (ca1.block_ ((wi + 1) % 256)).head_.wf_ = true then
        commit_walk n ((wi + 1) % 256) ((wi + 1) % 256) fails1 (set_wf ca1 ((wi + 1) % 256) false)
      else some (set_wf ca1 ((wi + 1) % 256) false)

/-- The method `commit(ptr)`: `el = elem(ptr)`, `wi = index_of(el)`, then the loops. -/
def elem_array.commit {α : Type} (fuel : Nat) (fails : List Bool) (ca : elem_array α)
    (p : circ.ptr_t) : Option (elem_array α) :=
  commit_walk fuel (index_of_elem (elem_of p)) (elem_of p).slot fails ca

/-- The address `elem(i)->data_`: the data area of slot `i` starts behind the header. -/
def data_of (i : Nat) : circ.ptr_t := { slot := i, off := sizeof_head_t }

/-- The ring as the constructor leaves it, `memset(block_, 0, sizeof(block_))` with the header
counters at 0; `d` is the payload value that all-zero bytes stand for. -/
def zeroed {α : Type} (d : α) : elem_array α :=
  { cc_ := 0, cr_ := 0, wt_ := 0,
    block_ := fun _ => { head_ := { rf_ := 0, wf_ := false, acq_ := false }, data_ := d } }

/-- The write flag of slot `j`. -/
def elem_array.wf {α : Type} (ca : elem_array α) (j : Nat) : Bool := (ca.block_ j).head_.wf_

/-- The number of consecutive slots behind slot `wi`, cyclically and looking at most `n` slots
ahead, whose write flag is set. -/
def run_len (wf : Nat → Bool) : Nat → Nat → Nat
  | _, 0 => 0
  | wi, n + 1 => if wf ((wi + 1) % 256) = true then 1 + run_len wf ((wi + 1) % 256) n else 0

/-- Everything in the ring but the commit cursor and the write flags: what `commit` must not
touch. -/
def same_but_commit {α : Type} (ca ca1 : elem_array α) : Prop :=
  ca1.cc_ = ca.cc_ ∧ ca1.wt_ = ca.wt_ ∧
    ∀ j, (ca1.block_ j).data_ = (ca.block_ j).data_ ∧
      (ca1.block_ j).head_.rf_ = (ca.block_ j).head_.rf_ ∧
      (ca1.block_ j).head_.acq_ = (ca.block_ j).head_.acq_

/-- The commits of the slots `ws` one after the other, each run to its end with no spurious
failure. -/
def commit_all {α : Type} : List Nat → elem_array α → Option (elem_array α)
  | [], ca => some ca
  | w :: ws, ca =>
    match ca.commit 256 [] (data_of w) with
    | none => none
    | some ca1 => commit_all ws ca1

end circ_multi

/-! ## Definitions used to state the properties of the reassembly -/

/-- The first fragment of the 65-byte message of scenario S3, as `send` emits it from the
queue at address 4096 with message id 1: `remain = 49` and the first 16 bytes. -/
def S3_first : msg_t :=
  { que_ := 4096, id_ := 1, remain_ := 49,
    data_ := [104, 101, 108, 108, 111, 44, 32, 119, 111, 114, 108, 100, 33, 33, 33, 120] }

/-- A fragment with `remain = -17`, below `-data_length`, from the queue at address 4096. -/
def low_remain : msg_t :=
  { que_ := 4096, id_ := 1, remain_ := -17, data_ := List.replicate 16 0 }

/-- A terminator fragment with `remain = -11`: 5 valid bytes. -/
def short_last : msg_t :=
  { que_ := 4096, id_ := 1, remain_ := -11,
    data_ := [1, 2, 3, 4, 5, 0, 0, 0, 0, 0, 0, 0, 0, 0, 0, 0] }

/-- A 40-byte payload for the concrete runs: the bytes 0, 1, ..., 39. -/
def count_payload : List byte_t := (List.range 40).map (fun i => (i : byte_t))

/-! ## Definitions: `include/rw_lock.h` -/

/-- The class `rw_lock`: its one member, the counter `lc_` (an atomic `std::size_t`, 64 bits
wide), 0 in the unlocked state. -/
structure rw_lock where
  lc_ : Nat
deriving DecidableEq, Repr

namespace rw_lock

/-- The enumerator `w_flag = numeric_limits<std::size_t>::max()`: all 64 bits set. -/
def w_flag : Nat := 18446744073709551615

/-- The call `lc_.compare_exchange_weak(expected, desired)`: it succeeds when `lc_` holds the
expected value, unless this call is one that fails spuriously; the result is the flag and the
lock. -/
def cas (l : rw_lock) (spurious : Bool) (expected desired : Nat) : Bool × rw_lock :=
  if l.lc_ = expected ∧ spurious = false then (true, { lc_ := desired }) else (false, l)

/-- One pass of the `for` loop of `lock()`: the compare-exchange of `lc_` from 0 to `w_flag`.
The flag says whether the loop is left (`break`); otherwise the thread yields and comes
back. -/
def lock_round (l : rw_lock) (spurious : Bool) : Bool × rw_lock :=
  l.cas spurious 0 w_flag

/-- The method `lock()` run with no other thread in between, for at most `n` passes of its
loop; the list says which of the successive compare-exchanges fail spuriously. `none` means
that no pass has succeeded. -/
def lock (spur : List Bool) : Nat → rw_lock → Option rw_lock
  | 0, _ => none
  | n + 1, l =>
    match l.lock_round (spur.headD false) with
    | (true, l1) => some l1
    | (false, l1) => lock spur.tail n l1

/-- The method `unlock()`: `lc_.store(0)`. -/
def unlock (_l : rw_lock) : rw_lock := { lc_ := 0 }

/-- The first statement of a pass of the loop of `lock_shared()`: `old = lc_.load()`. -/
def load (l : rw_lock) : Nat := l.lc_

/-- The rest of a pass of the loop of `lock_shared()`, with the value `old` loaded before:
`unlocked = old + 1` in 64 bits, and the loop is left when `unlocked` is not 0 and the
compare-exchange of `lc_` from `old` to `unlocked` succeeds. -/
def lock_shared_cas (l : rw_lock) (old : Nat) (spurious : Bool) : Bool × rw_lock :=
  if (old + 1) % 18446744073709551616 ≠ 0 then
    l.cas spurious old ((old + 1) % 18446744073709551616)
  else (false, l)

/-- The method `lock_shared()` run with no other thread in between, for at most `n` passes
of its loop. -/
def lock_shared (spur : List Bool) : Nat → rw_lock → Option rw_lock
  | 0, _ => none
  | n + 1, l =>
    match l.lock_shared_cas l.load (spur.headD false) with
    | (true, l1) => some l1
    | (false, l1) => lock_shared spur.tail n l1

/-- The method `unlock_shared()`: `lc_.fetch_sub(1)` in 64 bits. -/
def unlock_shared (l : rw_lock) : rw_lock :=
  { lc_ := (l.lc_ + 18446744073709551615) % 18446744073709551616 }

/-- Where a thread stands: outside the lock (`idle`), inside the loop of `lock()`
(`in_lock`), holding the lock as the writer (`writing`), inside the loop of `lock_shared()`
before the load (`in_lock_shared`) or behind it with the loaded value (`in_cas old`), or
holding the lock as a reader (`reading`). -/
inductive pc_t where
  | idle
  | in_lock
  | writing
  | in_lock_shared
  | in_cas (old : Nat)
  | reading
deriving DecidableEq, Repr

/-- Whether the thread holds the lock as the writer. -/
def pc_t.is_writing : pc_t → Bool
  | .writing => true
  | _ => false

/-- Whether the thread holds the lock as a reader. -/
def pc_t.is_reading : pc_t → Bool
  | .reading => true
  | _ => false

/-- The lock with the threads that use it. -/
structure system where
  lk : rw_lock
  threads : List pc_t
deriving DecidableEq, Repr

/-- One atomic step of thread `tid`. An idle thread calls `lock()` or `lock_shared()`, as
`want_write` says; a thread inside `lock()` makes one pass of its loop; a thread inside
`lock_shared()` loads the counter or makes the rest of the pass with the loaded value; the
writer calls `unlock()` and a reader `unlock_shared()`, so that every unlock is paired with the
lock the thread holds. `spurious` says whether a compare-exchange made in this step fails
spuriously. -/
def step (s : system) (tid : Nat) (want_write spurious : Bool) : system :=
  match s.threads[tid]? with
  | none => s
  | some .idle =>
    { s with threads := s.threads.set tid (if want_write = true then .in_lock else .in_lock_shared) }
  | some .in_lock =>
    match s.lk.lock_round spurious with
    | (true, l1) => { lk := l1, threads := s.threads.set tid .writing }
    | (false, l1) => { s with lk := l1 }
  | some .writing => { lk := s.lk.unlock, threads := s.threads.set tid .idle }
  | some .in_lock_shared => { s with threads := s.threads.set tid (.in_cas s.lk.load) }
  | some (.in_cas old) =>
    match s.lk.lock_shared_cas old spurious with
    | (true, l1) => { lk := l1, threads := s.threads.set tid .reading }
    | (false, l1) => { lk := l1, threads := s.threads.set tid .in_lock_shared }
  | some .reading => { lk := s.lk.unlock_shared, threads := s.threads.set tid .idle }

/-- The run of a schedule: each entry names the thread that takes the next step, what an idle
thread calls, and whether a compare-exchange fails spuriously. -/
def run : List (Nat × Bool × Bool) → system → system
  | [], s => s
  | e :: rest, s => run rest (step s e.1 e.2.1 e.2.2)

/-- The unlocked state with `n` idle threads. -/
def start (n : Nat) : system := { lk := { lc_ := 0 }, threads := List.replicate n .idle }

/-- The number of threads that hold the lock as the writer. -/
def writers (s : system) : Nat := s.threads.countP pc_t.is_writing

/-- The number of threads that hold the lock as a reader. -/
def readers (s : system) : Nat := s.threads.countP pc_t.is_reading

/-- The invariant of the runs: at most one writer; with a writer there is no reader and the
counter is `w_flag`; without one the counter is the number of readers. -/
def inv (s : system) : Prop :=
  s.lk.lc_ < 18446744073709551616 ∧ writers s ≤ 1 ∧
    (writers s = 1 → readers s = 0 ∧ s.lk.lc_ = w_flag) ∧
    (writers s = 0 → s.lk.lc_ = readers s)

/-- A schedule for three threads: thread 0 takes and releases the lock as a reader, thread 1
asks for the write lock meanwhile and gets it afterwards, one of its tries failing
spuriously, and thread 2 then asks for the lock as a reader. -/
def demo_sched : List (Nat × Bool × Bool) :=
  [(0, false, false), (0, false, false), (0, false, false), (1, true, false), (1, true, false),
    (0, false, false), (1, true, true), (1, true, false), (2, false, false), (2, false, false),
    (2, false, false)]

end rw_lock

/-! ## Definitions: the calls of `send` and `recv` that C++ defines -/

/-- Whether `x` is a value of the 32-bit `int`. A signed addition or subtraction whose exact
result is no such value is undefined in C++. -/
def int_ok (x : Int) : Bool := decide (-2147483648 ≤ x ∧ x ≤ 2147483647)

/-- The `while (1)` loop of `detail::recv`, branch for branch as in `recv_loop`, followed for
what C++ defines instead of for its result: whether the sum
`static_cast<int>(data_length) + msg.remain_` is a value of `int`, every `std::memcpy` of
`make_cache` and of `cache_t::append` reads no byte behind the data area `msg.data_`, and
every `std::memcpy` of `cache_t::append` writes no byte behind the buffer of the entry. Where
the result is `false` the call of `recv` is undefined in C++. -/
def recv_defined (que : Nat) (oob : Nat → byte_t) : recv_cache_t → List msg_t → Bool
  | _, [] => true
  | rc, msg :: rest =>
    if msg.id_ = 0 then true
    else if msg.que_ = que then recv_defined que oob rc rest
    else
      let remain := to_size (to_int (to_int data_length + msg.remain_))
      int_ok (to_int data_length + msg.remain_) &&
        (match rc_find rc msg.id_ with
        | none =>
          if remain ≤ data_length then decide (remain ≤ msg.data_.length)
          else
            decide (remain ≤ msg.data_.length) &&
              recv_defined que oob
                (rc_try_emplace rc msg.id_
                  { fill_ := data_length, buff_ := make_cache msg.data_ oob remain }) rest
        | some cac =>
          if msg.remain_ ≤ 0 then
            decide (remain ≤ msg.data_.length ∧ cac.fill_ + remain ≤ cac.buff_.size)
          else
            decide (data_length ≤ msg.data_.length ∧ cac.fill_ + data_length ≤ cac.buff_.size) &&
              recv_defined que oob (rc_set rc msg.id_ (cac.append msg.data_ oob data_length))
                rest)

/-- The receiver of `recv_all`, call for call, followed for what C++ defines: whether every
call of `recv` it makes is one that `recv_defined` accepts. -/
def recv_all_defined (oob : Nat → byte_t) : Nat → Option queue_t → recv_cache_t → Bool
  | 0, _, _ => true
  | n + 1, h, rc =>
    (match h with
      | none => true
      | some que => recv_defined que.addr oob rc que.inbox) &&
      (match recv h oob rc with
      | (none, _, _) => true
      | (some _, h1, rc1) => recv_all_defined oob n h1 rc1)

/-- The 15 bytes `hello, world!!!`: a payload of one fragment for the concrete runs. -/
def hello_payload : List byte_t :=
  [104, 101, 108, 108, 111, 44, 32, 119, 111, 114, 108, 100, 33, 33, 33]

/-- A 5-byte payload for the concrete runs. -/
def five_payload : List byte_t := [1, 2, 3, 4, 5]

/-- The `for` loop of `detail::send` with `n` iterations to go at `offset`, followed for what
C++ defines instead of for its fragments. An iteration is defined when the two subtractions of
`static_cast<int>(size) - offset - static_cast<int>(data_length)` give values of `int` and
`std::memcpy(msg.data_, data + offset, data_length)` reads inside the `size` bytes of the
payload. The result is the offset the loop ends with, `none` when an iteration is undefined. -/
def send_loop_defined (size : Nat) : Nat → Int → Option Int
  | 0, offset => some offset
  | n + 1, offset =>
    if int_ok (to_int size - offset) = true ∧
        int_ok (to_int size - offset - to_int data_length) = true ∧
        0 ≤ offset ∧ offset + data_length ≤ size then
      send_loop_defined size n (to_int (offset + data_length))
    else none

/-- The end of `detail::send` behind the loop, reached with `offset`, followed for what C++
defines: the subtraction `static_cast<int>(size) - offset` gives a value of `int`, and the copy
of the tail, when there is one, writes inside the `data_length` bytes of `msg.data_` and reads
inside the payload. An undefined loop (`none`) leaves the call undefined. -/
def send_tail_defined (size : Nat) : Option Int → Bool
  | none => false
  | some offset =>
    int_ok (to_int size - offset) &&
      decide (0 < to_int (to_int size - offset) →
        to_int (to_int size - offset) ≤ data_length ∧ 0 ≤ offset ∧
          offset + to_int (to_int size - offset) ≤ size)

/-- Whether the call `detail::send(h, data, size)` on a payload of `size` bytes is defined in
C++: every iteration of the loop is, and so is the end of the function behind it. The
narrowing conversions `static_cast<int>(...)` are defined for every value (they keep the low
32 bits). -/
def send_defined (size : Nat) : Bool :=
  send_tail_defined size
    (send_loop_defined size (to_int ((size / data_length : Nat) : Int)).toNat 0)

/-! ## Properties of `send` and `recv` -/

theorem to_int_eq (x : Int) (h1 : -2147483648 ≤ x) (h2 : x < 2147483648) : to_int x = x := by
  unfold to_int; omega

theorem to_size_eq (x : Int) (h1 : 0 ≤ x) (h2 : x < 18446744073709551616) :
    to_size x = x.toNat := by
  unfold to_size; congr 1; omega

theorem push_eq (que : queue_t) (msg : msg_t) :
    que.push msg = (true, { que with out := que.out ++ [msg] }) := rfl

theorem send_loop_eq (id : Nat) (d : Nat → byte_t) (size : Nat) (hs : size ≤ INT_MAX) :
    ∀ (n k : Nat) (que : queue_t), 16 * (k + n) ≤ size →
      send_loop id d size n (16 * (k : Int)) que =
        (true, 16 * ((k + n : Nat) : Int),
          { que with out := que.out ++ (List.range' k n).map (fragment_at que.addr id d size) }) := by
  intro n
  induction n with
  | zero => intro k que _; simp [send_loop]
  | succ n ih =>
    intro k que hk
    unfold INT_MAX at hs
    have h1 : to_int (size : Int) = size := to_int_eq _ (by omega) (by omega)
    have h2 : to_int (data_length : Int) = 16 := by decide
    have h3 : to_int ((size : Int) - 16 * (k : Int)) = (size : Int) - 16 * (k : Int) :=
      to_int_eq _ (by omega) (by omega)
    have h4 : to_int ((size : Int) - 16 * (k : Int) - 16) = (size : Int) - 16 * (k : Int) - 16 :=
      to_int_eq _ (by omega) (by omega)
    have h5 : to_int (16 * (k : Int) + (data_length : Nat)) = 16 * ((k + 1 : Nat) : Int) := by
      rw [to_int_eq _ (by simp [data_length]; omega) (by simp [data_length]; omega)]
      simp [data_length]; omega
    have h6 : min 16 (size - 16 * k) = 16 := by omega
    rw [send_loop]
    simp only [push_eq, h1, h2, h3, h4, h5]
    rw [ih (k + 1) _ (by omega)]
    simp only [List.range'_succ, List.map_cons, fragment_at, h6, data_length, List.append_assoc,
      List.singleton_append]
    refine Prod.ext rfl (Prod.ext ?_ rfl)
    simp; omega


theorem send_eq (acc : Nat) (que : queue_t) (d : Nat → byte_t) (size : Nat)
    (h1 : 1 ≤ size) (hs : size ≤ INT_MAX) :
    send acc (some que) (some d) size =
      (true, (acc + 1) % 18446744073709551616,
        some { que with
          out := que.out ++ fragments que.addr ((acc + 1) % 18446744073709551616) d size }) := by
  have hs0 := hs
  unfold INT_MAX at hs
  have hne : size ≠ 0 := by omega
  generalize hid : (acc + 1) % 18446744073709551616 = id
  have hcnt : (to_int ((size / data_length : Nat) : Int)).toNat = size / 16 := by
    have e : ((size / data_length : Nat) : Int) = ((size / 16 : Nat) : Int) := rfl
    rw [e, to_int_eq _ (by omega) (by omega)]
    exact Int.toNat_ofNat _
  have hloop := send_loop_eq id d size hs0 (size / 16) 0 que (by omega)
  simp only [Nat.zero_add, Nat.cast_zero, mul_zero] at hloop
  have hrem : to_int (to_int (size : Int) - 16 * ((size / 16 : Nat) : Int)) = ((size % 16 : Nat) : Int) := by
    rw [to_int_eq (size : Int) (by omega) (by omega), to_int_eq _ (by omega) (by omega)]
    omega
  unfold send
  generalize hn : (to_int ((size / data_length : Nat) : Int)).toNat = n
  rw [hcnt] at hn
  subst hn
  simp only [hne, if_false, hid, hloop, hrem]
  by_cases hz : size % 16 = 0
  · have hn : (size + 15) / 16 = size / 16 := by omega
    simp [hz, fragments, hn, List.range_eq_range']
  · have hn : (size + 15) / 16 = size / 16 + 1 := by omega
    have hpos : (0 : Int) < ((size % 16 : Nat) : Int) := by omega
    have h2 : to_int (data_length : Int) = 16 := by decide
    have h3 : to_int (((size % 16 : Nat) : Int) - 16) = (size : Int) - 16 * ((size / 16 : Nat) : Int) - 16 := by
      rw [to_int_eq _ (by omega) (by omega)]; omega
    have h4 : to_size ((size % 16 : Nat) : Int) = size % 16 := by
      rw [to_size_eq _ (by omega) (by omega)]; exact Int.toNat_ofNat _
    have h5 : min 16 (size - 16 * (size / 16)) = size % 16 := by omega
    have hfr : fragments que.addr id d size =
        List.map (fragment_at que.addr id d size) (List.range' 0 (size / 16)) ++
          [fragment_at que.addr id d size (size / 16)] := by
      rw [fragments, hn, List.range_succ, List.map_append, List.range_eq_range']
      rfl
    rw [if_pos hpos, push_eq, h2, h3, h4, hfr]
    simp only [fragment_at, h5, List.append_assoc]

theorem mem_read_length (src : List byte_t) (oob : Nat → byte_t) (n : Nat) :
    (mem_read src oob n).length = n := by
  simp [mem_read]

theorem mem_read_take (src : List byte_t) (oob : Nat → byte_t) (n m : Nat) (h : m ≤ n) :
    (mem_read src oob n).take m = mem_read src oob m := by
  unfold mem_read
  rw [← List.map_take]
  congr 1
  rw [List.take_range, Nat.min_eq_left h]

theorem fill_data_length (d : Nat → byte_t) (off : Int) (c : Nat) :
    (fill_data d off c).length = 16 := by
  simp [fill_data, data_length]

theorem mem_read_fill_data (d : Nat → byte_t) (oob : Nat → byte_t) (k c m : Nat)
    (hm : m ≤ c) (hc : c ≤ 16) :
    mem_read (fill_data d (16 * (k : Int)) c) oob m = (List.range m).map (fun i => d (16 * k + i)) := by
  unfold mem_read
  apply List.map_congr_left
  intro i hi
  rw [List.mem_range] at hi
  have hlen : i < (fill_data d (16 * (k : Int)) c).length := by
    rw [fill_data_length]; omega
  rw [dif_pos hlen]
  simp only [fill_data, List.get_eq_getElem, List.getElem_map, List.getElem_range]
  rw [if_pos (by omega)]
  congr 1

theorem range_map_bytes_at (B : List byte_t) (o m : Nat) (h : o + m ≤ B.length) :
    (List.range m).map (fun i => bytes_at B (o + i)) = (B.drop o).take m := by
  apply List.ext_getElem
  · simp; omega
  · intro i h1 h2
    simp only [List.getElem_map, List.getElem_range, bytes_at, List.getElem_take, List.getElem_drop]
    rw [List.getD_eq_getElem _ _ (by simp at h1; omega)]


theorem read_fragment (s id : Nat) (B : List byte_t) (oob : Nat → byte_t) (k m : Nat)
    (hm : m ≤ 16) (hb : 16 * k + m ≤ B.length) :
    mem_read (fragment_at s id (bytes_at B) B.length k).data_ oob m = (B.drop (16 * k)).take m := by
  simp only [fragment_at]
  rw [mem_read_fill_data _ _ _ _ _ (by omega) (by omega), range_map_bytes_at _ _ _ hb]

theorem recv_remain (size k : Nat) (hs : size ≤ INT_MAX) (hk : 16 * k < size) :
    to_size (to_int (to_int (data_length : Int) + ((size : Int) - 16 * (k : Int) - 16))) =
      size - 16 * k := by
  unfold INT_MAX at hs
  have h2 : to_int (data_length : Int) = 16 := by decide
  rw [h2, to_int_eq _ (by omega) (by omega), to_size_eq _ (by omega) (by omega)]
  omega

theorem entry_ok_first (s id : Nat) (B : List byte_t) (oob : Nat → byte_t)
    (h : 16 < B.length) :
    entry_ok B 1 { fill_ := data_length,
                   buff_ := make_cache (fragment_at s id (bytes_at B) B.length 0).data_ oob B.length } := by
  refine ⟨rfl, rfl, mem_read_length _ _ _, ?_⟩
  simp only [make_cache]
  rw [mem_read_take _ _ _ _ (by omega)]
  have := read_fragment s id B oob 0 16 (by omega) (by omega)
  simpa using this

theorem entry_ok_append (s id : Nat) (B : List byte_t) (oob : Nat → byte_t) (k : Nat)
    (cac : cache_t) (hB : B.length ≤ INT_MAX) (hk : 16 * (k + 1) < B.length)
    (h : entry_ok B k cac) :
    entry_ok B (k + 1)
      (cac.append (fragment_at s id (bytes_at B) B.length k).data_ oob data_length) := by
  obtain ⟨h1, h2, h3, h4⟩ := h
  unfold INT_MAX at hB
  have hr := read_fragment s id B oob k 16 (by omega) (by omega)
  refine ⟨?_, h2, ?_, ?_⟩
  · simp only [cache_t.append, h1, data_length]; omega
  · simp only [cache_t.append, mem_write, h1, data_length, hr]
    simp only [List.length_append, List.length_take, List.length_drop]
    omega
  · simp only [cache_t.append, mem_write, h1, data_length, hr, h4]
    rw [← List.take_add]
    have hl : (List.take (16 * k + 16) B).length = 16 * (k + 1) := by
      rw [List.length_take]; omega
    rw [List.take_append_of_le_length (by omega)]
    rw [List.take_take]
    congr 1
    omega

theorem entry_ok_last (s id : Nat) (B : List byte_t) (oob : Nat → byte_t) (k : Nat)
    (cac : cache_t) (hk1 : 16 * k < B.length) (hk2 : B.length ≤ 16 * (k + 1))
    (h : entry_ok B k cac) :
    (cac.append (fragment_at s id (bytes_at B) B.length k).data_ oob (B.length - 16 * k)).buff_ =
      { data := B, size := B.length } := by
  obtain ⟨h1, h2, h3, h4⟩ := h
  have hr := read_fragment s id B oob k (B.length - 16 * k) (by omega) (by omega)
  have hd : cac.buff_.data.drop (16 * k + (B.length - 16 * k)) = [] := by
    apply List.drop_eq_nil_of_le; omega
  have ht : (B.drop (16 * k)).take (B.length - 16 * k) = B.drop (16 * k) := by
    apply List.take_of_length_le; simp
  simp only [cache_t.append, mem_write, h1, hr, h4, ht, List.length_drop, hd, List.append_nil,
    List.take_append_drop, h2]


theorem rc_find_eq_none (rc : recv_cache_t) (id : Nat) :
    rc_find rc id = none ↔ ∀ e ∈ rc, e.1 ≠ id := by
  induction rc with
  | nil => simp [rc_find]
  | cons e rest ih =>
    obtain ⟨k, c⟩ := e
    by_cases hk : k = id
    · simp [rc_find, hk]
    · simp [rc_find, hk, ih]

theorem rc_erase_of_find_none (rc : recv_cache_t) (id : Nat) (h : rc_find rc id = none) :
    rc_erase rc id = rc := by
  induction rc with
  | nil => rfl
  | cons e rest ih =>
    obtain ⟨k, c⟩ := e
    by_cases hk : k = id
    · simp [rc_find, hk] at h
    · simp only [rc_find, if_neg hk] at h
      simp [rc_erase, hk, ih h]

theorem rc_find_append (rc1 rc2 : recv_cache_t) (id : Nat) :
    rc_find (rc1 ++ rc2) id = (rc_find rc1 id).orElse (fun _ => rc_find rc2 id) := by
  induction rc1 with
  | nil => simp [rc_find]
  | cons e rest ih =>
    obtain ⟨k, c⟩ := e
    by_cases hk : k = id
    · simp [rc_find, hk]
    · simp [rc_find, hk, ih]

theorem rc_find_try_emplace_self (rc : recv_cache_t) (id : Nat) (cac : cache_t)
    (h : rc_find rc id = none) : rc_find (rc_try_emplace rc id cac) id = some cac := by
  simp [rc_try_emplace, h, rc_find_append, rc_find]

theorem rc_find_try_emplace_ne (rc : recv_cache_t) (id id2 : Nat) (cac : cache_t)
    (hne : id2 ≠ id) : rc_find (rc_try_emplace rc id cac) id2 = rc_find rc id2 := by
  unfold rc_try_emplace
  cases h : rc_find rc id with
  | some c => rfl
  | none =>
    simp only [rc_find_append, rc_find, if_neg (Ne.symm hne)]
    cases rc_find rc id2 <;> rfl

theorem rc_find_set_self (rc : recv_cache_t) (id : Nat) (c0 cac : cache_t)
    (h : rc_find rc id = some c0) : rc_find (rc_set rc id cac) id = some cac := by
  induction rc with
  | nil => simp [rc_find] at h
  | cons e rest ih =>
    obtain ⟨k, c⟩ := e
    by_cases hk : k = id
    · simp [rc_find, rc_set, hk]
    · simp only [rc_find, if_neg hk] at h
      simp [rc_find, rc_set, hk, ih h]

theorem rc_find_set_ne (rc : recv_cache_t) (id id2 : Nat) (cac : cache_t)
    (hne : id2 ≠ id) : rc_find (rc_set rc id cac) id2 = rc_find rc id2 := by
  induction rc with
  | nil => simp [rc_find, rc_set]
  | cons e rest ih =>
    obtain ⟨k, c⟩ := e
    by_cases hk : k = id
    · have hk2 : ¬ id = id2 := Ne.symm hne
      simp [rc_find, rc_set, hk, ih, hk2]
    · simp [rc_find, rc_set, hk, ih]

theorem rc_find_erase_self (rc : recv_cache_t) (id : Nat) : rc_find (rc_erase rc id) id = none := by
  induction rc with
  | nil => rfl
  | cons e rest ih =>
    obtain ⟨k, c⟩ := e
    by_cases hk : k = id
    · simp [rc_erase, hk, ih]
    · simp [rc_find, rc_erase, hk, ih]

theorem rc_find_erase_ne (rc : recv_cache_t) (id id2 : Nat) (hne : id2 ≠ id) :
    rc_find (rc_erase rc id) id2 = rc_find rc id2 := by
  induction rc with
  | nil => rfl
  | cons e rest ih =>
    obtain ⟨k, c⟩ := e
    by_cases hk : k = id
    · have hk2 : ¬ id = id2 := Ne.symm hne
      simp [rc_find, rc_erase, hk, ih, hk2]
    · simp [rc_find, rc_erase, hk, ih]

theorem rc_erase_set (rc : recv_cache_t) (id : Nat) (cac : cache_t) :
    rc_erase (rc_set rc id cac) id = rc_erase rc id := by
  induction rc with
  | nil => rfl
  | cons e rest ih =>
    obtain ⟨k, c⟩ := e
    by_cases hk : k = id
    · simp [rc_erase, rc_set, hk, ih]
    · simp [rc_erase, rc_set, hk, ih]

theorem rc_erase_append (rc1 rc2 : recv_cache_t) (id : Nat) :
    rc_erase (rc1 ++ rc2) id = rc_erase rc1 id ++ rc_erase rc2 id := by
  induction rc1 with
  | nil => rfl
  | cons e rest ih =>
    obtain ⟨k, c⟩ := e
    by_cases hk : k = id
    · simp [rc_erase, hk, ih]
    · simp [rc_erase, hk, ih]

theorem rc_erase_try_emplace (rc : recv_cache_t) (id : Nat) (cac : cache_t)
    (h : rc_find rc id = none) : rc_erase (rc_try_emplace rc id cac) id = rc := by
  simp only [rc_try_emplace, h, rc_erase_append, rc_erase_of_find_none rc id h]
  simp [rc_erase]


theorem recv_step_miss_last (r s id : Nat) (d : Nat → byte_t) (size k : Nat) (oob : Nat → byte_t)
    (rc : recv_cache_t) (rest : List msg_t) (hid : id ≠ 0) (hsr : s ≠ r) (hs : size ≤ INT_MAX)
    (hk : 16 * k < size) (hlast : size ≤ 16 * (k + 1)) (hrc : rc_find rc id = none) :
    recv_loop r oob rc (fragment_at s id d size k :: rest) =
      (some (make_cache (fragment_at s id d size k).data_ oob (size - 16 * k)), rc, rest) := by
  have hrem := recv_remain size k hs hk
  simp only [data_length] at hrem
  rw [recv_loop]
  simp only [fragment_at, hid, hsr, if_false, hrc, hrem, data_length]
  rw [if_pos (by omega)]

theorem recv_step_miss_more (r s id : Nat) (d : Nat → byte_t) (size k : Nat) (oob : Nat → byte_t)
    (rc : recv_cache_t) (rest : List msg_t) (hid : id ≠ 0) (hsr : s ≠ r) (hs : size ≤ INT_MAX)
    (hmore : 16 * (k + 1) < size) (hrc : rc_find rc id = none) :
    recv_loop r oob rc (fragment_at s id d size k :: rest) =
      recv_loop r oob
        (rc_try_emplace rc id
          { fill_ := data_length,
            buff_ := make_cache (fragment_at s id d size k).data_ oob (size - 16 * k) }) rest := by
  have hrem := recv_remain size k hs (by omega)
  simp only [data_length] at hrem
  rw [recv_loop]
  simp only [fragment_at, hid, hsr, if_false, hrc, hrem, data_length]
  rw [if_neg (by omega)]

theorem recv_step_hit_last (r s id : Nat) (d : Nat → byte_t) (size k : Nat) (oob : Nat → byte_t)
    (rc : recv_cache_t) (rest : List msg_t) (cac : cache_t) (hid : id ≠ 0) (hsr : s ≠ r)
    (hs : size ≤ INT_MAX) (hk : 16 * k < size) (hlast : size ≤ 16 * (k + 1))
    (hrc : rc_find rc id = some cac) :
    recv_loop r oob rc (fragment_at s id d size k :: rest) =
      (some (cac.append (fragment_at s id d size k).data_ oob (size - 16 * k)).buff_,
        rc_erase rc id, rest) := by
  have hrem := recv_remain size k hs hk
  simp only [data_length] at hrem
  rw [recv_loop]
  simp only [fragment_at, hid, hsr, if_false, hrc, hrem, data_length]
  rw [if_pos (by omega)]

theorem recv_step_hit_more (r s id : Nat) (d : Nat → byte_t) (size k : Nat) (oob : Nat → byte_t)
    (rc : recv_cache_t) (rest : List msg_t) (cac : cache_t) (hid : id ≠ 0) (hsr : s ≠ r)
    (hmore : 16 * (k + 1) < size) (hrc : rc_find rc id = some cac) :
    recv_loop r oob rc (fragment_at s id d size k :: rest) =
      recv_loop r oob
        (rc_set rc id (cac.append (fragment_at s id d size k).data_ oob data_length)) rest := by
  rw [recv_loop]
  simp only [fragment_at, hid, hsr, if_false, hrc, data_length]
  rw [if_neg (by omega)]

/-- Once the first fragments of a message are cached, the rest of its fragments, fed in
order, complete it. -/
theorem recv_loop_rest (r s id : Nat) (B : List byte_t) (oob : Nat → byte_t) (hid : id ≠ 0)
    (hsr : s ≠ r) (hB : B.length ≤ INT_MAX) :
    ∀ (n k : Nat) (rc : recv_cache_t) (cac : cache_t),
      k + (n + 1) = (B.length + 15) / 16 → rc_find rc id = some cac → entry_ok B k cac →
      recv_loop r oob rc
          ((List.range' k (n + 1)).map (fragment_at s id (bytes_at B) B.length)) =
        (some { data := B, size := B.length }, rc_erase rc id, []) := by
  intro n
  induction n with
  | zero =>
    intro k rc cac hk hrc hok
    simp only [List.range'_one, List.map_cons, List.map_nil, Nat.zero_add]
    rw [recv_step_hit_last r s id _ _ k oob rc [] cac hid hsr hB (by omega) (by omega) hrc,
      entry_ok_last s id B oob k cac (by omega) (by omega) hok]
  | succ n ih =>
    intro k rc cac hk hrc hok
    rw [List.range'_succ, List.map_cons,
      recv_step_hit_more r s id _ _ k oob rc _ cac hid hsr (by omega) hrc,
      ih (k + 1) _ _ (by omega) (rc_find_set_self rc id cac _ hrc)
        (entry_ok_append s id B oob k cac hB (by omega) hok),
      rc_erase_set]

/-- All fragments of one message, fed in order to a receiver without an entry for its
id, make `recv` return the payload and leave the cache as it was. -/
theorem recv_loop_fragments (r s id : Nat) (B : List byte_t) (oob : Nat → byte_t)
    (rc : recv_cache_t) (hid : id ≠ 0) (hsr : s ≠ r) (h1 : 1 ≤ B.length)
    (hB : B.length ≤ INT_MAX) (hrc : rc_find rc id = none) :
    recv_loop r oob rc (fragments s id (bytes_at B) B.length) =
      (some { data := B, size := B.length }, rc, []) := by
  unfold fragments
  obtain ⟨n, hn⟩ : ∃ n, (B.length + 15) / 16 = n + 1 := ⟨(B.length + 15) / 16 - 1, by omega⟩
  rw [hn, List.range_eq_range', List.range'_succ, List.map_cons]
  by_cases hsmall : B.length ≤ 16
  · have hn0 : n = 0 := by omega
    subst hn0
    rw [List.range'_zero, List.map_nil,
      recv_step_miss_last r s id _ _ 0 oob rc [] hid hsr hB (by omega) (by omega) hrc]
    have hr := read_fragment s id B oob 0 B.length (by omega) (by omega)
    simp only [make_cache, Nat.mul_zero, Nat.sub_zero, hr, List.drop_zero, List.take_length]
  · obtain ⟨m, hm⟩ : ∃ m, n = m + 1 := ⟨n - 1, by omega⟩
    subst hm
    rw [recv_step_miss_more r s id _ _ 0 oob rc _ hid hsr hB (by omega) hrc,
      recv_loop_rest r s id B oob hid hsr hB m 1 _ _ (by omega)
        (rc_find_try_emplace_self rc id _ hrc)
        (by simpa using entry_ok_first s id B oob (by omega)),
      rc_erase_try_emplace rc id _ hrc]


theorem emitted_send (acc : Nat) (que : queue_t) (d : Nat → byte_t) (size : Nat)
    (h1 : 1 ≤ size) (hs : size ≤ INT_MAX) :
    emitted (some que) (send acc (some que) (some d) size) =
      fragments que.addr ((acc + 1) % 18446744073709551616) d size := by
  rw [send_eq acc que d size h1 hs]
  simp [emitted]

theorem fragments_length (s id : Nat) (d : Nat → byte_t) (size : Nat) :
    (fragments s id d size).length = (size + 15) / 16 := by
  simp [fragments]

theorem fragments_getElem? (s id : Nat) (d : Nat → byte_t) (size k : Nat) (m : msg_t) :
    (fragments s id d size)[k]? = some m ↔
      k < (size + 15) / 16 ∧ m = fragment_at s id d size k := by
  unfold fragments
  rw [List.getElem?_map]
  by_cases hk : k < (size + 15) / 16
  · rw [List.getElem?_range hk]
    simp [hk, eq_comm]
  · rw [List.getElem?_eq_none (by simpa using hk)]
    simp [hk]

/-- C2, as amended. For every payload of size `1 ≤ size ≤ INT_MAX`, `send` succeeds and emits
exactly `ceil(size / data_length)` fragments, every one stamped with the same `msg_id`,
which is the global message counter before the call plus one in 64-bit arithmetic; that value
is also the counter after the call. -/
theorem send_fragment_count (acc : Nat) (que : queue_t) (d : Nat → byte_t) (size : Nat)
    (h1 : 1 ≤ size) (hs : size ≤ INT_MAX) :
    (send acc (some que) (some d) size).1 = true ∧
      (emitted (some que) (send acc (some que) (some d) size)).length =
        (size + data_length - 1) / data_length ∧
      (∀ m ∈ emitted (some que) (send acc (some que) (some d) size),
        m.id_ = (acc + 1) % 18446744073709551616) ∧
      (send acc (some que) (some d) size).2.1 = (acc + 1) % 18446744073709551616 ∧
      (acc + 1 < 18446744073709551616 →
        (send acc (some que) (some d) size).2.1 = acc + 1 ∧
        ∀ m ∈ emitted (some que) (send acc (some que) (some d) size), m.id_ = acc + 1) := by
  have hids : ∀ m ∈ fragments que.addr ((acc + 1) % 18446744073709551616) d size,
      m.id_ = (acc + 1) % 18446744073709551616 := by
    intro m hm
    simp only [fragments, List.mem_map] at hm
    obtain ⟨k, _, rfl⟩ := hm
    rfl
  rw [emitted_send acc que d size h1 hs, send_eq acc que d size h1 hs]
  refine ⟨rfl, ?_, hids, rfl, ?_⟩
  · rw [fragments_length]; rfl
  · intro hlt
    rw [Nat.mod_eq_of_lt hlt] at hids ⊢
    exact ⟨rfl, hids⟩

/-- C2, as amended, on the 65-byte payload with the counter at 0: five fragments with id 1. -/
theorem send_fragment_count_witness :
    (send 0 (some que_a) (some (bytes_at S3_payload)) 65).1 = true ∧
      (emitted (some que_a) (send 0 (some que_a) (some (bytes_at S3_payload)) 65)).length =
        (65 + data_length - 1) / data_length ∧
      (∀ m ∈ emitted (some que_a) (send 0 (some que_a) (some (bytes_at S3_payload)) 65),
        m.id_ = (0 + 1) % 18446744073709551616) ∧
      (send 0 (some que_a) (some (bytes_at S3_payload)) 65).2.1 = (0 + 1) % 18446744073709551616 ∧
      (0 + 1 < 18446744073709551616 →
        (send 0 (some que_a) (some (bytes_at S3_payload)) 65).2.1 = 0 + 1 ∧
        ∀ m ∈ emitted (some que_a) (send 0 (some que_a) (some (bytes_at S3_payload)) 65),
          m.id_ = 0 + 1) :=
  send_fragment_count 0 que_a (bytes_at S3_payload) 65 (by decide) (by decide)

/-- C2 fails as stated: for a payload of `2^35 + 1` bytes `send` returns `true` after a single
fragment, where `ceil(size / data_length)` is `2^31 + 1`. The narrowing
`static_cast<int>(size / data_length)` is negative there, so the loop body never runs. -/
theorem send_fragment_count_counterexample :
    (send 0 (some que_a) (some (fun _ => 0)) 34359738369).1 = true ∧
      (emitted (some que_a) (send 0 (some que_a) (some (fun _ => 0)) 34359738369)).length = 1 ∧
      (34359738369 + data_length - 1) / data_length = 2147483649 := by
  decide

/-- C3, as amended. For every payload of size `1 ≤ size ≤ INT_MAX`: the fragment `send` emits
at each full offset `k * data_length` (`k < size / data_length`) carries
`remain = size - offset - data_length` and `data_length` payload bytes; when
`size % data_length ≠ 0` one more fragment follows with the tail bytes and
`remain = size % data_length - data_length`, and there is no other fragment; consecutive
fragments differ in `remain` by exactly `data_length`, downwards; and a 65-byte payload
yields the remain values 49, 33, 17, 1, -15. -/
theorem send_remain_values (acc : Nat) (que : queue_t) (d : Nat → byte_t) (size : Nat)
    (fs : List msg_t) (h1 : 1 ≤ size) (hs : size ≤ INT_MAX)
    (hfs : fs = emitted (some que) (send acc (some que) (some d) size)) :
    (∀ k, k < size / data_length →
      fs[k]? = some
        { que_ := que.addr, id_ := (acc + 1) % 18446744073709551616,
          remain_ := (size : Int) - ((k * data_length : Nat) : Int) - (data_length : Int),
          data_ := fill_data d ((k * data_length : Nat) : Int) data_length }) ∧
      (size % data_length ≠ 0 →
        fs[size / data_length]? = some
          { que_ := que.addr, id_ := (acc + 1) % 18446744073709551616,
            remain_ := ((size % data_length : Nat) : Int) - (data_length : Int),
            data_ := fill_data d ((size / data_length * data_length : Nat) : Int)
              (size % data_length) } ∧
        fs.length = size / data_length + 1) ∧
      (size % data_length = 0 → fs.length = size / data_length) ∧
      (∀ k m1 m2, fs[k]? = some m1 → fs[k + 1]? = some m2 →
        m2.remain_ = m1.remain_ - (data_length : Int)) ∧
      (size = 65 → fs.map (fun m => m.remain_) = [49, 33, 17, 1, -15]) := by
  rw [emitted_send acc que d size h1 hs] at hfs
  subst hfs
  simp only [data_length]
  refine ⟨?_, ?_, ?_, ?_, ?_⟩
  · intro k hk
    rw [fragments_getElem?]
    refine ⟨by omega, ?_⟩
    have hmin : min 16 (size - 16 * k) = 16 := by omega
    simp only [fragment_at, hmin, msg_t.mk.injEq, true_and]
    constructor
    · omega
    · congr 1; omega
  · intro hne
    rw [fragments_getElem?, fragments_length]
    refine ⟨⟨by omega, ?_⟩, by omega⟩
    have hmin : min 16 (size - 16 * (size / 16)) = size % 16 := by omega
    simp only [fragment_at, hmin, msg_t.mk.injEq, true_and, and_true]
    constructor
    · omega
    · congr 1; omega
  · intro hz
    rw [fragments_length]; omega
  · intro k m1 m2 hm1 hm2
    rw [fragments_getElem?] at hm1 hm2
    rw [hm1.2, hm2.2]
    simp only [fragment_at]
    omega
  · intro h65
    subst h65
    rfl

/-- C3, as amended, on the 65-byte payload of scenario S3. -/
theorem send_remain_values_witness :
    (emitted (some que_a) (send 0 (some que_a) (some (bytes_at S3_payload)) 65)).map
      (fun m => m.remain_) = [49, 33, 17, 1, -15] :=
  (send_remain_values 0 que_a (bytes_at S3_payload) 65 _ (by decide) (by decide) rfl).2.2.2.2 rfl

/-- C3 fails as stated: for a payload of `2^36 + 16` bytes the one fragment `send` emits, the
full fragment at offset 0, carries `remain = 0`, not `size - 0 - data_length = 2^36`, because
`static_cast<int>(size)` keeps the low 32 bits of `size` only. -/
theorem send_remain_values_counterexample :
    (emitted (some que_a) (send 0 (some que_a) (some (fun _ => 0)) 68719476752)).map
        (fun m => m.remain_) = [0] ∧
      ((68719476752 : Nat) : Int) - ((0 * data_length : Nat) : Int) - (data_length : Int) ≠ 0 := by
  decide

/-- C4, as amended. For every payload of size `1 ≤ size ≤ INT_MAX`, `send` emits at least one
fragment; a fragment has `remain ≤ 0` exactly when it is the last one; the last fragment
starts at offset `data_length * (count - 1)`, carries the `size - offset` payload bytes from
there, and `data_length + remain` equals that number, which lies in `(0, data_length]`. -/
theorem send_terminator (acc : Nat) (que : queue_t) (d : Nat → byte_t) (size : Nat)
    (fs : List msg_t) (h1 : 1 ≤ size) (hs : size ≤ INT_MAX)
    (hfs : fs = emitted (some que) (send acc (some que) (some d) size)) :
    1 ≤ fs.length ∧
      (∀ k m, fs[k]? = some m → (m.remain_ ≤ 0 ↔ k + 1 = fs.length)) ∧
      (∀ m, fs[fs.length - 1]? = some m →
        m.data_ = fill_data d ((data_length * (fs.length - 1) : Nat) : Int)
          (size - data_length * (fs.length - 1)) ∧
        (data_length : Int) + m.remain_ = ((size - data_length * (fs.length - 1) : Nat) : Int) ∧
        0 < size - data_length * (fs.length - 1) ∧
        size - data_length * (fs.length - 1) ≤ data_length) := by
  rw [emitted_send acc que d size h1 hs] at hfs
  subst hfs
  simp only [data_length, fragments_length]
  refine ⟨by omega, ?_, ?_⟩
  · intro k m hm
    rw [fragments_getElem?] at hm
    rw [hm.2]
    simp only [fragment_at]
    omega
  · intro m hm
    rw [fragments_getElem?] at hm
    rw [hm.2]
    have hmin : min 16 (size - 16 * ((size + 15) / 16 - 1)) = size - 16 * ((size + 15) / 16 - 1) := by
      omega
    simp only [fragment_at, hmin]
    refine ⟨?_, by omega, by omega, by omega⟩
    congr 1

/-- C4, as amended, on the 65-byte payload of scenario S3. -/
theorem send_terminator_witness :
    1 ≤ (emitted (some que_a) (send 0 (some que_a) (some (bytes_at S3_payload)) 65)).length ∧
      ∀ k m, (emitted (some que_a) (send 0 (some que_a) (some (bytes_at S3_payload)) 65))[k]? =
          some m →
        (m.remain_ ≤ 0 ↔
          k + 1 =
            (emitted (some que_a) (send 0 (some que_a) (some (bytes_at S3_payload)) 65)).length) :=
  ⟨(send_terminator 0 que_a (bytes_at S3_payload) 65 _ (by decide) (by decide) rfl).1,
    (send_terminator 0 que_a (bytes_at S3_payload) 65 _ (by decide) (by decide) rfl).2.1⟩

/-- C4 fails as stated: for a payload of `2^35` bytes `send` returns `true` without emitting
any fragment, so no emitted fragment is a terminator. Both narrowings,
`static_cast<int>(size / data_length)` and `static_cast<int>(size)`, are not positive there. -/
theorem send_terminator_counterexample :
    (send 0 (some que_a) (some (fun _ => 0)) 34359738368).1 = true ∧
      emitted (some que_a) (send 0 (some que_a) (some (fun _ => 0)) 34359738368) = [] := by
  decide

theorem send_counter (acc : Nat) (que : queue_t) (d : Nat → byte_t) (size : Nat) (hne : size ≠ 0) :
    (send acc (some que) (some d) size).2.1 = (acc + 1) % 18446744073709551616 := by
  have h : ∀ n, (to_int ((size / data_length : Nat) : Int)).toNat = n →
      ∃ b q, send acc (some que) (some d) size = (b, (acc + 1) % 18446744073709551616, q) := by
    intro n hn
    unfold send
    rw [hn]
    show ∃ b q, (if size = 0 then _ else _ : Bool × Nat × Option queue_t) = _
    rw [if_neg hne]
    dsimp only
    generalize send_loop ((acc + 1) % 18446744073709551616) d size n 0 que = r
    obtain ⟨b, off, q⟩ := r
    cases b
    · exact ⟨_, _, rfl⟩
    · dsimp only
      split
      · exact ⟨_, _, rfl⟩
      · exact ⟨_, _, rfl⟩
  obtain ⟨b, q, hbq⟩ := h _ rfl
  rw [hbq]

/-- C5, as amended. `send` returns `false` and leaves the message counter and the queue as they
were when the data pointer is null, when the size is 0 and when the handle is null. In every
other case it advances the counter by one; when moreover `size ≤ INT_MAX` it returns `true`
and publishes at least one fragment. -/
theorem send_rejects_invalid_input :
    (∀ (acc : Nat) (h : Option queue_t) (size : Nat), send acc h none size = (false, acc, h)) ∧
      (∀ (acc : Nat) (h : Option queue_t) (data : Option (Nat → byte_t)),
        send acc h data 0 = (false, acc, h)) ∧
      (∀ (acc : Nat) (data : Option (Nat → byte_t)) (size : Nat),
        send acc none data size = (false, acc, none)) ∧
      (∀ (acc : Nat) (que : queue_t) (d : Nat → byte_t) (size : Nat), size ≠ 0 →
        (send acc (some que) (some d) size).2.1 = (acc + 1) % 18446744073709551616 ∧
        (acc < 18446744073709551616 → (send acc (some que) (some d) size).2.1 ≠ acc)) ∧
      (∀ (acc : Nat) (que : queue_t) (d : Nat → byte_t) (size : Nat), size ≠ 0 →
        size ≤ INT_MAX →
        (send acc (some que) (some d) size).1 = true ∧
        1 ≤ (emitted (some que) (send acc (some que) (some d) size)).length) := by
  refine ⟨fun _ _ _ => rfl, ?_, ?_, ?_, ?_⟩
  · intro acc h data
    cases data <;> rfl
  · intro acc data size
    cases data with
    | none => rfl
    | some d =>
      by_cases hz : size = 0
      · simp [send, hz]
      · simp [send, hz]
  · intro acc que d size hne
    have key := send_counter acc que d size hne
    refine ⟨key, fun hlt => ?_⟩
    rw [key]
    omega
  · intro acc que d size hne hs
    have h1 : 1 ≤ size := by omega
    rw [emitted_send acc que d size h1 hs, send_eq acc que d size h1 hs, fragments_length]
    exact ⟨rfl, by omega⟩

/-- C5, as amended, on concrete calls: a null data pointer, a zero size and a null handle are
refused without a state change, and the 65-byte payload is published. -/
theorem send_rejects_invalid_input_witness :
    send 7 (some que_a) none 65 = (false, 7, some que_a) ∧
      send 7 (some que_a) (some (bytes_at S3_payload)) 0 = (false, 7, some que_a) ∧
      send 7 none (some (bytes_at S3_payload)) 65 = (false, 7, none) ∧
      ((send 7 (some que_a) (some (bytes_at S3_payload)) 65).1 = true ∧
        1 ≤ (emitted (some que_a) (send 7 (some que_a) (some (bytes_at S3_payload)) 65)).length) :=
  ⟨send_rejects_invalid_input.1 7 (some que_a) 65,
    send_rejects_invalid_input.2.1 7 (some que_a) (some (bytes_at S3_payload)),
    send_rejects_invalid_input.2.2.1 7 (some (bytes_at S3_payload)) 65,
    send_rejects_invalid_input.2.2.2.2 7 que_a (bytes_at S3_payload) 65 (by decide) (by decide)⟩

/-- C5 fails as stated: for a payload of `2^35` bytes, with a valid handle and data pointer,
`send` advances the counter and returns `true`, yet the queue is as it was: no fragment has
been pushed. -/
theorem send_rejects_invalid_input_counterexample :
    send 0 (some que_a) (some (fun _ => 0)) 34359738368 = (true, 1, some que_a) := by
  decide

theorem recv_step_more (r s id : Nat) (B : List byte_t) (oob : Nat → byte_t) (k : Nat)
    (rc : recv_cache_t) (hid : id ≠ 0) (hsr : s ≠ r) (hB : B.length ≤ INT_MAX)
    (hmore : 16 * (k + 1) < B.length) (hp : progress_ok B id k rc) :
    ∃ rc1, (∀ rest, recv_loop r oob rc (fragment_at s id (bytes_at B) B.length k :: rest) =
        recv_loop r oob rc1 rest) ∧
      progress_ok B id (k + 1) rc1 ∧ ∀ id2, id2 ≠ id → rc_find rc1 id2 = rc_find rc id2 := by
  have hnot : ¬ (k + 1 = 0 ∨ B.length ≤ 16 * (k + 1)) := by omega
  by_cases hk : k = 0
  · subst hk
    have hrc : rc_find rc id = none := by simpa [progress_ok] using hp
    refine ⟨_, fun rest => recv_step_miss_more r s id _ _ 0 oob rc rest hid hsr hB hmore hrc,
      ?_, fun id2 h2 => rc_find_try_emplace_ne rc id id2 _ h2⟩
    rw [progress_ok, if_neg hnot]
    exact ⟨_, rc_find_try_emplace_self rc id _ hrc,
      by simpa using entry_ok_first s id B oob (by omega)⟩
  · have hnot0 : ¬ (k = 0 ∨ B.length ≤ 16 * k) := by omega
    rw [progress_ok, if_neg hnot0] at hp
    obtain ⟨cac, hrc, hok⟩ := hp
    refine ⟨_, fun rest => recv_step_hit_more r s id _ _ k oob rc rest cac hid hsr hmore hrc,
      ?_, fun id2 h2 => rc_find_set_ne rc id id2 _ h2⟩
    rw [progress_ok, if_neg hnot]
    exact ⟨_, rc_find_set_self rc id cac _ hrc, entry_ok_append s id B oob k cac hB hmore hok⟩

theorem recv_step_last (r s id : Nat) (B : List byte_t) (oob : Nat → byte_t) (k : Nat)
    (rc : recv_cache_t) (hid : id ≠ 0) (hsr : s ≠ r) (hB : B.length ≤ INT_MAX)
    (hk1 : 16 * k < B.length) (hk2 : B.length ≤ 16 * (k + 1)) (hp : progress_ok B id k rc) :
    ∃ rc1, (∀ rest, recv_loop r oob rc (fragment_at s id (bytes_at B) B.length k :: rest) =
        (some { data := B, size := B.length }, rc1, rest)) ∧
      rc_find rc1 id = none ∧ ∀ id2, id2 ≠ id → rc_find rc1 id2 = rc_find rc id2 := by
  by_cases hk : k = 0
  · subst hk
    have hrc : rc_find rc id = none := by simpa [progress_ok] using hp
    refine ⟨rc, fun rest => ?_, hrc, fun _ _ => rfl⟩
    rw [recv_step_miss_last r s id _ _ 0 oob rc rest hid hsr hB (by omega) (by omega) hrc]
    have hr := read_fragment s id B oob 0 B.length (by omega) (by omega)
    simp only [make_cache, Nat.mul_zero, Nat.sub_zero, hr, List.drop_zero, List.take_length]
  · have hnot0 : ¬ (k = 0 ∨ B.length ≤ 16 * k) := by omega
    rw [progress_ok, if_neg hnot0] at hp
    obtain ⟨cac, hrc, hok⟩ := hp
    refine ⟨rc_erase rc id, fun rest => ?_, rc_find_erase_self rc id,
      fun id2 h2 => rc_find_erase_ne rc id id2 h2⟩
    rw [recv_step_hit_last r s id _ _ k oob rc rest cac hid hsr hB hk1 hk2 hrc,
      entry_ok_last s id B oob k cac hk1 hk2 hok]

theorem progress_ok_congr (B : List byte_t) (id k : Nat) (rc rc1 : recv_cache_t)
    (h : rc_find rc1 id = rc_find rc id) (hp : progress_ok B id k rc) :
    progress_ok B id k rc1 := by
  unfold progress_ok at hp ⊢
  rw [h]
  exact hp

theorem rc_eq_nil_of_find (rc : recv_cache_t) (h : ∀ id, rc_find rc id = none) : rc = [] := by
  cases rc with
  | nil => rfl
  | cons e rest =>
    obtain ⟨k, c⟩ := e
    have := h k
    simp [rc_find] at this

theorem recv_cons_skip (r : Nat) (oob : Nat → byte_t) (rc rc1 : recv_cache_t) (m : msg_t)
    (L : List msg_t) (c : Bool) (o : List msg_t)
    (h : recv_loop r oob rc (m :: L) = recv_loop r oob rc1 L) :
    recv (some { addr := r, connected := c, out := o, inbox := m :: L }) oob rc =
      recv (some { addr := r, connected := c, out := o, inbox := L }) oob rc1 := by
  simp only [recv, queue_t.connect, h]

theorem recv_cons_return (r : Nat) (oob : Nat → byte_t) (rc rc1 : recv_cache_t) (m : msg_t)
    (L : List msg_t) (c : Bool) (o : List msg_t) (b : buff_t)
    (h : recv_loop r oob rc (m :: L) = (some b, rc1, L)) :
    recv (some { addr := r, connected := c, out := o, inbox := m :: L }) oob rc =
      (some b, some { addr := r, connected := true, out := o, inbox := L }, rc1) := by
  simp only [recv, queue_t.connect, h]

theorem recv_all_cons_skip (r : Nat) (oob : Nat → byte_t) (rc rc1 : recv_cache_t) (m : msg_t)
    (L : List msg_t) (c : Bool) (o : List msg_t) (n : Nat)
    (h : recv_loop r oob rc (m :: L) = recv_loop r oob rc1 L) :
    recv_all oob (n + 1) (some { addr := r, connected := c, out := o, inbox := m :: L }) rc =
      recv_all oob (n + 1) (some { addr := r, connected := c, out := o, inbox := L }) rc1 := by
  simp only [recv_all, recv_cons_skip r oob rc rc1 m L c o h]

theorem recv_all_cons_return (r : Nat) (oob : Nat → byte_t) (rc rc1 : recv_cache_t) (m : msg_t)
    (L : List msg_t) (c : Bool) (o : List msg_t) (b : buff_t) (n : Nat)
    (h : recv_loop r oob rc (m :: L) = (some b, rc1, L)) :
    recv_all oob (n + 1) (some { addr := r, connected := c, out := o, inbox := m :: L }) rc =
      (b :: (recv_all oob n (some { addr := r, connected := true, out := o, inbox := L }) rc1).1,
        (recv_all oob n (some { addr := r, connected := true, out := o, inbox := L }) rc1).2) := by
  simp only [recv_all, recv_cons_return r oob rc rc1 m L c o b h]

theorem fragments_drop (s id : Nat) (d : Nat → byte_t) (size k : Nat)
    (hk : k < (size + 15) / 16) :
    (fragments s id d size).drop k =
      fragment_at s id d size k :: (fragments s id d size).drop (k + 1) := by
  have hlen : k < (fragments s id d size).length := by rw [fragments_length]; exact hk
  rw [List.drop_eq_getElem_cons hlen]
  congr 1
  simp [fragments]

theorem fragments_drop_nil (s id : Nat) (d : Nat → byte_t) (size k : Nat)
    (hk : (size + 15) / 16 ≤ k) : (fragments s id d size).drop k = [] := by
  apply List.drop_eq_nil_of_le
  rw [fragments_length]; exact hk

theorem due_buffers_cons_more (id1 : Nat) (B1 B2 : List byte_t) (m : msg_t) (L : List msg_t)
    (h : 0 < m.remain_) : due_buffers id1 B1 B2 (m :: L) = due_buffers id1 B1 B2 L := by
  simp only [due_buffers, List.filterMap_cons]
  rw [if_neg (by omega)]

theorem due_buffers_cons_last (id1 : Nat) (B1 B2 : List byte_t) (m : msg_t) (L : List msg_t)
    (h : m.remain_ ≤ 0) :
    due_buffers id1 B1 B2 (m :: L) =
      (if m.id_ = id1 then { data := B1, size := B1.length }
        else { data := B2, size := B2.length }) :: due_buffers id1 B1 B2 L := by
  simp only [due_buffers, List.filterMap_cons]
  rw [if_pos h]

theorem fragments_drop_cons (s id : Nat) (d : Nat → byte_t) (size k : Nat) (m : msg_t)
    (l : List msg_t) (h : (fragments s id d size).drop k = m :: l) :
    k < (size + 15) / 16 ∧ m = fragment_at s id d size k ∧
      l = (fragments s id d size).drop (k + 1) := by
  have hk : k < (size + 15) / 16 := by
    by_contra hc
    rw [fragments_drop_nil s id d size k (by omega)] at h
    cases h
  rw [fragments_drop s id d size k hk] at h
  injection h with h1 h2
  exact ⟨hk, h1.symm, h2.symm⟩

/-- The receiver loop over any interleaving of the remaining fragments of two messages. -/
theorem recv_all_interleaved (r s1 s2 id1 id2 : Nat) (B1 B2 : List byte_t) (oob : Nat → byte_t)
    (hid1 : id1 ≠ 0) (hid2 : id2 ≠ 0) (hne : id1 ≠ id2) (hs1 : s1 ≠ r) (hs2 : s2 ≠ r)
    (hB1 : B1.length ≤ INT_MAX) (hB2 : B2.length ≤ INT_MAX) (o : List msg_t) :
    ∀ (L : List msg_t) (k1 k2 : Nat) (rc : recv_cache_t) (fuel : Nat) (c : Bool),
      Interleaving ((fragments s1 id1 (bytes_at B1) B1.length).drop k1)
        ((fragments s2 id2 (bytes_at B2) B2.length).drop k2) L →
      progress_ok B1 id1 k1 rc → progress_ok B2 id2 k2 rc →
      (∀ id, id ≠ id1 → id ≠ id2 → rc_find rc id = none) →
      (due_buffers id1 B1 B2 L).length < fuel →
      recv_all oob fuel (some { addr := r, connected := c, out := o, inbox := L }) rc =
        (due_buffers id1 B1 B2 L,
          some { addr := r, connected := true, out := o, inbox := [] }, []) := by
  intro L
  induction L with
  | nil =>
    intro k1 k2 rc fuel c hI hp1 hp2 hfr hfuel
    generalize hl1 : (fragments s1 id1 (bytes_at B1) B1.length).drop k1 = l1 at hI
    generalize hl2 : (fragments s2 id2 (bytes_at B2) B2.length).drop k2 = l2 at hI
    cases hI
    have hk1 : (B1.length + 15) / 16 ≤ k1 := by
      have := congrArg List.length hl1
      simp [fragments_length] at this
      omega
    have hk2 : (B2.length + 15) / 16 ≤ k2 := by
      have := congrArg List.length hl2
      simp [fragments_length] at this
      omega
    have h1 : rc_find rc id1 = none := by
      rw [progress_ok, if_pos (by omega)] at hp1; exact hp1
    have h2 : rc_find rc id2 = none := by
      rw [progress_ok, if_pos (by omega)] at hp2; exact hp2
    have hrc : rc = [] := by
      apply rc_eq_nil_of_find
      intro id
      by_cases e1 : id = id1
      · rw [e1]; exact h1
      · by_cases e2 : id = id2
        · rw [e2]; exact h2
        · exact hfr id e1 e2
    subst hrc
    obtain ⟨n, rfl⟩ : ∃ n, fuel = n + 1 := ⟨fuel - 1, by omega⟩
    simp [recv_all, recv, recv_loop, queue_t.connect, due_buffers]
  | cons m L ih =>
    intro k1 k2 rc fuel c hI hp1 hp2 hfr hfuel
    generalize hl1 : (fragments s1 id1 (bytes_at B1) B1.length).drop k1 = l1 at hI
    generalize hl2 : (fragments s2 id2 (bytes_at B2) B2.length).drop k2 = l2 at hI
    obtain ⟨n, rfl⟩ : ∃ n, fuel = n + 1 := ⟨fuel - 1, by omega⟩
    cases hI with
    | left a hI1 =>
      obtain ⟨hk, hm, hl⟩ := fragments_drop_cons _ _ _ _ _ _ _ hl1
      subst hm hl hl2
      by_cases hmore : 16 * (k1 + 1) < B1.length
      · obtain ⟨rc1, hstep, hpn, hframe⟩ :=
          recv_step_more r s1 id1 B1 oob k1 rc hid1 hs1 hB1 hmore hp1
        have hdue := due_buffers_cons_more id1 B1 B2
          (fragment_at s1 id1 (bytes_at B1) B1.length k1) L (by simp only [fragment_at]; omega)
        rw [hdue] at hfuel ⊢
        rw [recv_all_cons_skip r oob rc rc1 _ L c o n (hstep L)]
        exact ih (k1 + 1) k2 rc1 (n + 1) c hI1 hpn
          (progress_ok_congr B2 id2 k2 rc rc1 (hframe id2 (Ne.symm hne)) hp2)
          (fun id e1 e2 => by rw [hframe id e1]; exact hfr id e1 e2) hfuel
      · obtain ⟨rc1, hstep, hnone, hframe⟩ :=
          recv_step_last r s1 id1 B1 oob k1 rc hid1 hs1 hB1 (by omega) (by omega) hp1
        have hdue := due_buffers_cons_last id1 B1 B2
          (fragment_at s1 id1 (bytes_at B1) B1.length k1) L (by simp only [fragment_at]; omega)
        have hidm : (fragment_at s1 id1 (bytes_at B1) B1.length k1).id_ = id1 := rfl
        rw [hidm, if_pos rfl] at hdue
        rw [hdue] at hfuel ⊢
        rw [recv_all_cons_return r oob rc rc1 _ L c o _ n (hstep L)]
        have hpn : progress_ok B1 id1 (k1 + 1) rc1 := by
          rw [progress_ok, if_pos (by omega)]; exact hnone
        rw [ih (k1 + 1) k2 rc1 n true hI1 hpn
          (progress_ok_congr B2 id2 k2 rc rc1 (hframe id2 (Ne.symm hne)) hp2)
          (fun id e1 e2 => by rw [hframe id e1]; exact hfr id e1 e2)
          (by simp only [List.length_cons] at hfuel; omega)]
    | right b hI1 =>
      obtain ⟨hk, hm, hl⟩ := fragments_drop_cons _ _ _ _ _ _ _ hl2
      subst hm hl hl1
      by_cases hmore : 16 * (k2 + 1) < B2.length
      · obtain ⟨rc1, hstep, hpn, hframe⟩ :=
          recv_step_more r s2 id2 B2 oob k2 rc hid2 hs2 hB2 hmore hp2
        have hdue := due_buffers_cons_more id1 B1 B2
          (fragment_at s2 id2 (bytes_at B2) B2.length k2) L (by simp only [fragment_at]; omega)
        rw [hdue] at hfuel ⊢
        rw [recv_all_cons_skip r oob rc rc1 _ L c o n (hstep L)]
        exact ih k1 (k2 + 1) rc1 (n + 1) c hI1
          (progress_ok_congr B1 id1 k1 rc rc1 (hframe id1 hne) hp1) hpn
          (fun id e1 e2 => by rw [hframe id e2]; exact hfr id e1 e2) hfuel
      · obtain ⟨rc1, hstep, hnone, hframe⟩ :=
          recv_step_last r s2 id2 B2 oob k2 rc hid2 hs2 hB2 (by omega) (by omega) hp2
        have hdue := due_buffers_cons_last id1 B1 B2
          (fragment_at s2 id2 (bytes_at B2) B2.length k2) L (by simp only [fragment_at]; omega)
        have hidm : (fragment_at s2 id2 (bytes_at B2) B2.length k2).id_ = id2 := rfl
        rw [hidm, if_neg (Ne.symm hne)] at hdue
        rw [hdue] at hfuel ⊢
        rw [recv_all_cons_return r oob rc rc1 _ L c o _ n (hstep L)]
        have hpn : progress_ok B2 id2 (k2 + 1) rc1 := by
          rw [progress_ok, if_pos (by omega)]; exact hnone
        rw [ih k1 (k2 + 1) rc1 n true hI1
          (progress_ok_congr B1 id1 k1 rc rc1 (hframe id1 hne) hp1) hpn
          (fun id e1 e2 => by rw [hframe id e2]; exact hfr id e1 e2)
          (by simp only [List.length_cons] at hfuel; omega)]

theorem interleaving_nil_left {α : Type} (l : List α) : Interleaving [] l l := by
  induction l with
  | nil => exact Interleaving.nil
  | cons b l ih => exact Interleaving.right b ih

theorem interleaving_nil_right {α : Type} (l : List α) : Interleaving l [] l := by
  induction l with
  | nil => exact Interleaving.nil
  | cons a l ih => exact Interleaving.left a ih

theorem interleaving_append {α : Type} (l1 l2 : List α) : Interleaving l1 l2 (l1 ++ l2) := by
  induction l1 with
  | nil => exact interleaving_nil_left l2
  | cons a l ih => exact Interleaving.left a ih

/-- Every schedule picks an order-preserving interleaving. -/
theorem interleaving_merge_by {α : Type} (s : List Bool) :
    ∀ (l1 l2 : List α), Interleaving l1 l2 (merge_by s l1 l2) := by
  induction s with
  | nil =>
    intro l1 l2
    cases l1 with
    | nil => simpa [merge_by] using interleaving_nil_left l2
    | cons a l1 =>
      cases l2 with
      | nil => simpa [merge_by] using interleaving_nil_right (a :: l1)
      | cons b l2 => simpa [merge_by] using interleaving_append (a :: l1) (b :: l2)
  | cons t s ih =>
    intro l1
    induction l1 with
    | nil => intro l2; simpa [merge_by] using interleaving_nil_left l2
    | cons a l1 ih1 =>
      intro l2
      induction l2 with
      | nil => simpa [merge_by] using interleaving_nil_right (a :: l1)
      | cons b l2 ih2 =>
        cases t with
        | true => simpa [merge_by] using Interleaving.left a (ih l1 (b :: l2))
        | false => simpa [merge_by] using Interleaving.right b (ih (a :: l1) l2)

theorem interleaving_filterMap {α β : Type} (f : α → Option β) (l1 l2 l : List α)
    (h : Interleaving l1 l2 l) :
    Interleaving (l1.filterMap f) (l2.filterMap f) (l.filterMap f) := by
  induction h with
  | nil => exact Interleaving.nil
  | left a _ ih =>
    simp only [List.filterMap_cons]
    cases f a with
    | none => exact ih
    | some b => exact Interleaving.left b ih
  | right a _ ih =>
    simp only [List.filterMap_cons]
    cases f a with
    | none => exact ih
    | some b => exact Interleaving.right b ih

theorem interleaving_due_buffers (id1 : Nat) (B1 B2 : List byte_t) (l1 l2 l : List msg_t)
    (h : Interleaving l1 l2 l) :
    Interleaving (due_buffers id1 B1 B2 l1) (due_buffers id1 B1 B2 l2)
      (due_buffers id1 B1 B2 l) :=
  interleaving_filterMap _ l1 l2 l h

theorem interleaving_singletons {α : Type} (a b : α) (l : List α)
    (h : Interleaving [a] [b] l) : l = [a, b] ∨ l = [b, a] := by
  cases h with
  | left _ h1 =>
    cases h1 with
    | right _ h2 => cases h2; exact Or.inl rfl
  | right _ h1 =>
    cases h1 with
    | left _ h2 => cases h2; exact Or.inr rfl

theorem due_buffers_fragments_drop (id1 : Nat) (B1 B2 : List byte_t) (s id : Nat)
    (d : Nat → byte_t) (size : Nat) :
    ∀ j, j < (size + 15) / 16 →
      due_buffers id1 B1 B2 ((fragments s id d size).drop ((size + 15) / 16 - 1 - j)) =
        [if id = id1 then { data := B1, size := B1.length }
          else { data := B2, size := B2.length }] := by
  intro j
  induction j with
  | zero =>
    intro _
    rw [fragments_drop s id d size _ (by omega),
      due_buffers_cons_last _ _ _ _ _ (by simp only [fragment_at]; omega),
      fragments_drop_nil s id d size _ (by omega)]
    rfl
  | succ j ih =>
    intro hj
    have e : (size + 15) / 16 - 1 - (j + 1) + 1 = (size + 15) / 16 - 1 - j := by omega
    rw [fragments_drop s id d size _ (by omega),
      due_buffers_cons_more _ _ _ _ _ (by simp only [fragment_at]; omega), e]
    exact ih (by omega)

theorem due_buffers_fragments (id1 : Nat) (B1 B2 : List byte_t) (s id : Nat)
    (d : Nat → byte_t) (size : Nat) (h1 : 1 ≤ size) :
    due_buffers id1 B1 B2 (fragments s id d size) =
      [if id = id1 then { data := B1, size := B1.length }
        else { data := B2, size := B2.length }] := by
  have := due_buffers_fragments_drop id1 B1 B2 s id d size ((size + 15) / 16 - 1) (by omega)
  have e : (size + 15) / 16 - 1 - ((size + 15) / 16 - 1) = 0 := by omega
  rw [e, List.drop_zero] at this
  exact this

theorem recv_loop_own (r : Nat) (oob : Nat → byte_t) (rc : recv_cache_t) (m : msg_t)
    (rest : List msg_t) (hid : m.id_ ≠ 0) (hown : m.que_ = r) :
    recv_loop r oob rc (m :: rest) = recv_loop r oob rc rest := by
  rw [recv_loop, if_neg hid, if_pos hown]

theorem recv_loop_without_own (r : Nat) (oob : Nat → byte_t) :
    ∀ (feed : List msg_t) (rc : recv_cache_t), (∀ m ∈ feed, m.que_ = r → m.id_ ≠ 0) →
      recv_loop r oob rc (without_own r feed) =
        ((recv_loop r oob rc feed).1, (recv_loop r oob rc feed).2.1,
          without_own r (recv_loop r oob rc feed).2.2) := by
  intro feed
  induction feed with
  | nil => intro rc _; rfl
  | cons m rest ih =>
    intro rc hz
    have hrest : ∀ x ∈ rest, x.que_ = r → x.id_ ≠ 0 :=
      fun x hx => hz x (List.mem_cons_of_mem m hx)
    by_cases hown : m.que_ = r
    · have hid := hz m (List.mem_cons_self m rest) hown
      have hf : without_own r (m :: rest) = without_own r rest := by
        simp [without_own, hown]
      rw [hf, recv_loop_own r oob rc m rest hid hown]
      exact ih rc hrest
    · have hf : without_own r (m :: rest) = m :: without_own r rest := by
        simp [without_own, hown]
      rw [hf]
      by_cases hid : m.id_ = 0
      · simp only [recv_loop, hid, if_true]
      · simp only [recv_loop, hid, hown, if_false]
        cases hfind : rc_find rc m.id_ with
        | none =>
          simp only []
          split
          · rfl
          · exact ih _ hrest
        | some cac =>
          simp only []
          split
          · rfl
          · exact ih _ hrest

/-- C7, as amended. Self-echo suppression: for every fragment sequence in which the fragments
tagged with the receiver's own queue carry a non-zero msg_id, `recv` returns the same buffer
(or equally does not return) and leaves the same reassembly cache as for the sequence with
those fragments removed, and what is left to pop agrees up to them; a popped fragment tagged
with the receiver's own queue only makes `recv` pop the next one: it reaches no buffer and
no cache entry. -/
theorem recv_drops_own_fragments (que : queue_t) (oob : Nat → byte_t) (rc : recv_cache_t)
    (hz : ∀ m ∈ que.inbox, m.que_ = que.addr → m.id_ ≠ 0) :
    (recv (some { que with inbox := without_own que.addr que.inbox }) oob rc).1 =
        (recv (some que) oob rc).1 ∧
      (recv (some { que with inbox := without_own que.addr que.inbox }) oob rc).2.2 =
        (recv (some que) oob rc).2.2 ∧
      (recv (some { que with inbox := without_own que.addr que.inbox }) oob rc).2.1 =
        (recv (some que) oob rc).2.1.map
          (fun q => { q with inbox := without_own que.addr q.inbox }) ∧
      (∀ (m : msg_t) (rest : List msg_t) (rc1 : recv_cache_t), m.que_ = que.addr → m.id_ ≠ 0 →
        recv (some { que with inbox := m :: rest }) oob rc1 =
          recv (some { que with inbox := rest }) oob rc1) := by
  have h := recv_loop_without_own que.addr oob que.inbox rc hz
  refine ⟨?_, ?_, ?_, ?_⟩
  · simp only [recv, queue_t.connect, h]
  · simp only [recv, queue_t.connect, h]
  · simp only [recv, queue_t.connect, h, Option.map_some']
  · intro m rest rc1 hown hid
    simp only [recv, queue_t.connect, recv_loop_own que.addr oob rc1 m rest hid hown]

/-- C7, as amended, on a concrete run: the receiver `que_b` finds one of its own fragments
in front of the two fragments of the 20-byte message. -/
theorem recv_drops_own_fragments_witness :
    (recv (some { que_b with
        inbox := without_own que_b.addr
          ({ que_ := 8192, id_ := 9, remain_ := 100, data_ := List.replicate 16 1 } ::
            emitted (some que_c) (send 1 (some que_c) (some (bytes_at short_payload)) 20)) })
      (fun _ => 0) []).1 =
    (recv (some { que_b with
        inbox := { que_ := 8192, id_ := 9, remain_ := 100, data_ := List.replicate 16 1 } ::
          emitted (some que_c) (send 1 (some que_c) (some (bytes_at short_payload)) 20) })
      (fun _ => 0) []).1 :=
  (recv_drops_own_fragments
    { que_b with
      inbox := { que_ := 8192, id_ := 9, remain_ := 100, data_ := List.replicate 16 1 } ::
        emitted (some que_c) (send 1 (some que_c) (some (bytes_at short_payload)) 20) }
    (fun _ => 0) [] (by decide)).1

/-- C7 fails as stated: a fragment tagged with the receiver's own queue whose msg_id is 0 is
not skipped. The id is tested first, so `recv` returns the empty buffer, while on the
sequence without that fragment it returns the 4 bytes of the next message. -/
theorem recv_drops_own_fragments_counterexample :
    (recv (some { que_b with
        inbox := [{ que_ := 8192, id_ := 0, remain_ := 0, data_ := List.replicate 16 0 },
          { que_ := 4096, id_ := 5, remain_ := -12, data_ := List.replicate 16 1 }] })
      (fun _ => 0) []).1 = some { data := [], size := 0 } ∧
    (recv (some { que_b with
        inbox := without_own que_b.addr
          [{ que_ := 8192, id_ := 0, remain_ := 0, data_ := List.replicate 16 0 },
            { que_ := 4096, id_ := 5, remain_ := -12, data_ := List.replicate 16 1 }] })
      (fun _ => 0) []).1 = some { data := [1, 1, 1, 1], size := 4 } := by
  decide

/-! ## Properties of the single-producer ring -/

namespace circ

theorem acquire_loop_of_zero {α : Type} (ca : elem_array α) (i n : Nat)
    (h : (ca.block_ i).rc_ = 0) :
    acquire_loop ca i (n + 1) = some (set_rc ca i (ca.conn_count % 4294967296)) := by
  simp [acquire_loop, h]

theorem acquire_loop_of_ne_zero {α : Type} (ca : elem_array α) (i : Nat)
    (h : (ca.block_ i).rc_ ≠ 0) : ∀ n, acquire_loop ca i n = none := by
  intro n
  induction n with
  | zero => rfl
  | succ n ih => simp [acquire_loop, h, ih]

theorem acquire_of_zero {α : Type} (ca : elem_array α) (fuel : Nat)
    (h : (ca.block_ (index_of ca.wt_)).rc_ = 0) (hf : 1 ≤ fuel) :
    ca.acquire fuel =
      some (data_of (index_of ca.wt_),
        set_rc ca (index_of ca.wt_) (ca.conn_count % 4294967296)) := by
  obtain ⟨n, rfl⟩ : ∃ n, fuel = n + 1 := ⟨fuel - 1, by omega⟩
  simp [elem_array.acquire, acquire_loop_of_zero ca _ n h]

theorem acquire_of_ne_zero {α : Type} (ca : elem_array α) (fuel : Nat)
    (h : (ca.block_ (index_of ca.wt_)).rc_ ≠ 0) : ca.acquire fuel = none := by
  simp [elem_array.acquire, acquire_loop_of_ne_zero ca _ h fuel]

theorem acquire_some_facts {α : Type} (ca : elem_array α) (fuel : Nat) (p : ptr_t)
    (ca1 : elem_array α) (hacq : ca.acquire fuel = some (p, ca1)) :
    (ca.block_ (index_of ca.wt_)).rc_ = 0 ∧
      (ca1.block_ (index_of ca.wt_)).rc_ = ca.conn_count % 4294967296 ∧
      (ca.cc_ < 65536 → (ca1.block_ (index_of ca1.wt_)).rc_ = ca1.conn_count) ∧
      p = data_of (index_of ca.wt_) ∧ ca1.wt_ = ca.wt_ ∧ ca1.cc_ = ca.cc_ ∧
      (ca1.block_ (index_of ca.wt_)).data_ = (ca.block_ (index_of ca.wt_)).data_ ∧
      ∀ j, j ≠ index_of ca.wt_ → ca1.block_ j = ca.block_ j := by
  by_cases h : (ca.block_ (index_of ca.wt_)).rc_ = 0
  · have hf : 1 ≤ fuel := by
      cases fuel with
      | zero => simp [elem_array.acquire, acquire_loop] at hacq
      | succ n => omega
    rw [acquire_of_zero ca fuel h hf] at hacq
    injection hacq with hacq
    injection hacq with hp hca
    subst hp hca
    refine ⟨h, by simp [set_rc], ?_, rfl, rfl, rfl, by simp [set_rc], ?_⟩
    · intro hcc
      simp only [set_rc, elem_array.conn_count, if_true]
      omega
    · intro j hj
      simp [set_rc, hj]
  · rw [acquire_of_ne_zero ca fuel h] at hacq
    cases hacq

/-- C10. Slot-reclamation safety of `acquire`, run with no other thread in between. Whenever
`acquire` completes, the read counter of the slot addressed by `write_cursor mod 256` was 0
before the call; afterwards it is `conn_count` (as a 32-bit value, which is `conn_count`
itself since the counter is 16 bits wide), the returned pointer is the data area of that
slot, and the write cursor, the connection count, the payload of the slot and every other
slot are unchanged. With the counter at 0 the first round completes; with a non-zero
counter no number of rounds completes: the slot is not handed to the producer. -/
theorem acquire_slot_safety {α : Type} (ca : elem_array α) (fuel : Nat) :
    (∀ (p : ptr_t) (ca1 : elem_array α), ca.acquire fuel = some (p, ca1) →
      (ca.block_ (index_of ca.wt_)).rc_ = 0 ∧
      (ca1.block_ (index_of ca.wt_)).rc_ = ca.conn_count % 4294967296 ∧
      (ca.cc_ < 65536 → (ca1.block_ (index_of ca1.wt_)).rc_ = ca1.conn_count) ∧
      p = data_of (index_of ca.wt_) ∧ ca1.wt_ = ca.wt_ ∧ ca1.cc_ = ca.cc_ ∧
      (ca1.block_ (index_of ca.wt_)).data_ = (ca.block_ (index_of ca.wt_)).data_ ∧
      ∀ j, j ≠ index_of ca.wt_ → ca1.block_ j = ca.block_ j) ∧
    ((ca.block_ (index_of ca.wt_)).rc_ = 0 → 1 ≤ fuel →
      ca.acquire fuel =
        some (data_of (index_of ca.wt_),
          set_rc ca (index_of ca.wt_) (ca.conn_count % 4294967296))) ∧
    ((ca.block_ (index_of ca.wt_)).rc_ ≠ 0 → ca.acquire fuel = none) := by
  refine ⟨fun p ca1 hacq => acquire_some_facts ca fuel p ca1 hacq, ?_, ?_⟩
  · intro h hf
    exact acquire_of_zero ca fuel h hf
  · intro h
    exact acquire_of_ne_zero ca fuel h

end circ

namespace test_cq

open circ

theorem send_spec (fuel : Nat) (ca : elem_array msg_t) (msg : msg_t)
    (h : (ca.block_ (index_of ca.wt_)).rc_ = 0) (hf : 1 ≤ fuel) :
    ∃ ca1, send fuel ca msg = some ca1 ∧ ca1.cc_ = ca.cc_ ∧ ca1.wt_ = (ca.wt_ + 1) % 65536 ∧
      (ca1.block_ (index_of ca.wt_)).rc_ = ca.cc_ % 4294967296 ∧
      (ca1.block_ (index_of ca.wt_)).data_ = msg ∧
      ∀ j, j ≠ index_of ca.wt_ → ca1.block_ j = ca.block_ j := by
  refine ⟨((set_rc ca (index_of ca.wt_) (ca.conn_count % 4294967296)).store
      (data_of (index_of ca.wt_)) msg).commit (data_of (index_of ca.wt_)),
    by simp [send, acquire_of_zero ca fuel h hf], rfl, rfl, ?_, ?_, ?_⟩
  · simp [elem_array.commit, elem_array.store, set_rc, data_of, elem_array.conn_count]
  · simp [elem_array.commit, elem_array.store, set_rc, data_of]
  · intro j hj
    simp [elem_array.commit, elem_array.store, set_rc, data_of, hj]

theorem put_spec (ca : elem_array msg_t) (i : Nat) :
    (ca.put (data_of i)).cc_ = ca.cc_ ∧ (ca.put (data_of i)).wt_ = ca.wt_ ∧
      ((ca.put (data_of i)).block_ i).rc_ = ((ca.block_ i).rc_ + 4294967295) % 4294967296 ∧
      ((ca.put (data_of i)).block_ i).data_ = (ca.block_ i).data_ ∧
      ∀ j, j ≠ i → (ca.put (data_of i)).block_ j = ca.block_ j := by
  refine ⟨rfl, rfl, ?_, ?_, ?_⟩
  · simp [elem_array.put, set_rc, data_of, elem_of]
  · simp [elem_array.put, set_rc, data_of, elem_of]
  · intro j hj
    simp [elem_array.put, set_rc, data_of, elem_of, hj]

theorem recv_step (ca : elem_array msg_t) (cur n : Nat) (got : List msg_t)
    (hne : cur ≠ ca.wt_) (hpid : 0 ≤ (ca.block_ (index_of cur)).data_.pid_) :
    recv ca cur got (n + 1) =
      recv (ca.put (data_of (index_of cur))) ((cur + 1) % 65536)
        (got ++ [(ca.block_ (index_of cur)).data_]) n := by
  have h1 : cur ≠ ca.cursor := hne
  have h2 : ¬ (ca.load (ca.take cur)).pid_ < 0 := by
    simp only [elem_array.load, elem_array.take, data_of]; omega
  rw [recv, if_pos h1, if_neg h2]
  rfl

theorem recv_stop (ca : elem_array msg_t) (cur n : Nat) (got : List msg_t)
    (he : cur = ca.wt_) : recv ca cur got n = some (ca, cur, got, false) := by
  have h1 : ¬ cur ≠ ca.cursor := by simp [elem_array.cursor, he]
  cases n with
  | zero => rw [recv, if_neg h1]
  | succ n => rw [recv, if_neg h1]

/-- C9. Late-join exclusion (scenario S5), run sequentially on a ring with nobody connected
and every read counter 0, at any cursor position: consumer 1 connects and snapshots the
cursor, the producer publishes `M`, consumer 2 connects and snapshots the cursor, the
producer publishes `M2`. Both publications complete; consumer 1, draining from its
snapshot, receives exactly `[M, M2]`; consumer 2 then receives exactly `[M2]`; neither
`recv` has returned, both have caught up with the cursor; and every read counter is 0
again. The payloads carry a non-negative `pid_` (a negative one is the quit message). -/
theorem late_join_exclusion (ca0 : elem_array msg_t) (M M2 : msg_t) (f1 f2 g1 g2 : Nat)
    (hcc : ca0.cc_ = 0)
    (hrc : ∀ i, i < elem_max → (ca0.block_ i).rc_ = 0)
    (hM : 0 ≤ M.pid_) (hM2 : 0 ≤ M2.pid_)
    (hf1 : 1 ≤ f1) (hf2 : 1 ≤ f2) (hg1 : 2 ≤ g1) (hg2 : 1 ≤ g2) :
    ∃ ca2 ca4 ca5 ca6 : elem_array msg_t,
      send f1 (connect ca0).2 M = some ca2 ∧
      send f2 (connect ca2).2 M2 = some ca4 ∧
      recv ca4 (connect ca0).1 [] g1 = some (ca5, ca4.cursor, [M, M2], false) ∧
      recv ca5 (connect ca2).1 [] g2 = some (ca6, ca4.cursor, [M2], false) ∧
      ∀ i, i < elem_max → (ca6.block_ i).rc_ = 0 := by
  unfold elem_max at hrc ⊢
  generalize hw : ca0.wt_ = w
  have hs0 : w % 256 < 256 := Nat.mod_lt _ (by decide)
  have hs1 : (w + 1) % 256 < 256 := Nat.mod_lt _ (by decide)
  have h01 : (w + 1) % 256 ≠ w % 256 := by omega
  obtain ⟨b1, rfl⟩ : ∃ a, g1 = a + 2 := ⟨g1 - 2, by omega⟩
  obtain ⟨b2, rfl⟩ : ∃ a, g2 = a + 1 := ⟨g2 - 1, by omega⟩
  -- consumer 1 connects, the producer publishes `M`
  have c1cc : (connect ca0).2.cc_ = 1 := by simp [connect, elem_array.connect, hcc]
  have c1wt : (connect ca0).2.wt_ = w := by simp [connect, elem_array.connect, hw]
  have c1blk : (connect ca0).2.block_ = ca0.block_ := rfl
  have c1cur : (connect ca0).1 = w := by simp [connect, elem_array.cursor, hw]
  obtain ⟨ca2, e1, cc2, wt2, rc2, d2, o2⟩ := send_spec f1 (connect ca0).2 M
    (by rw [c1wt, c1blk]; exact hrc _ hs0) hf1
  have i0 : index_of w = w % 256 := rfl
  rw [c1wt] at wt2 rc2 d2 o2
  rw [i0] at rc2 d2 o2
  rw [c1cc] at cc2 rc2
  rw [c1blk] at o2
  -- consumer 2 connects, the producer publishes `M2`
  have c3cc : (connect ca2).2.cc_ = 2 := by simp [connect, elem_array.connect, cc2]
  have c3wt : (connect ca2).2.wt_ = (w + 1) % 65536 := by simp [connect, elem_array.connect, wt2]
  have c3blk : (connect ca2).2.block_ = ca2.block_ := rfl
  have c3cur : (connect ca2).1 = (w + 1) % 65536 := by simp [connect, elem_array.cursor, wt2]
  have i1 : index_of ((w + 1) % 65536) = (w + 1) % 256 := by unfold index_of; omega
  obtain ⟨ca4, e2, cc4, wt4, rc4, d4, o4⟩ := send_spec f2 (connect ca2).2 M2
    (by rw [c3wt, c3blk, i1, o2 _ h01]; exact hrc _ hs1) hf2
  rw [c3wt, i1] at rc4 d4 o4
  rw [c3wt] at wt4
  rw [c3cc] at cc4 rc4
  rw [c3blk] at o4
  have hcur : ca4.cursor = (w + 2) % 65536 := by
    simp only [elem_array.cursor, wt4]; omega
  -- the slots of `M` and `M2` in the ring after both publications
  have s0 : ca4.block_ (w % 256) = ca2.block_ (w % 256) := o4 _ (Ne.symm h01)
  obtain ⟨p1cc, p1wt, p1rc, p1d, p1o⟩ := put_spec ca4 (w % 256)
  obtain ⟨p2cc, p2wt, p2rc, p2d, p2o⟩ := put_spec (ca4.put (data_of (w % 256))) ((w + 1) % 256)
  obtain ⟨p3cc, p3wt, p3rc, p3d, p3o⟩ :=
    put_spec ((ca4.put (data_of (w % 256))).put (data_of ((w + 1) % 256))) ((w + 1) % 256)
  refine ⟨ca2, ca4, (ca4.put (data_of (w % 256))).put (data_of ((w + 1) % 256)),
    ((ca4.put (data_of (w % 256))).put (data_of ((w + 1) % 256))).put (data_of ((w + 1) % 256)),
    e1, e2, ?_, ?_, ?_⟩
  · rw [c1cur, hcur,
      recv_step ca4 w (b1 + 1) [] (by rw [wt4]; omega) (by rw [i0, s0, d2]; exact hM),
      i0, s0, d2,
      recv_step _ ((w + 1) % 65536) b1 _ (by rw [p1wt, wt4]; omega)
        (by rw [i1, p1o _ h01, d4]; exact hM2),
      i1, p1o _ h01, d4,
      recv_stop _ _ _ _ (by rw [p2wt, p1wt, wt4])]
    have : ((w + 1) % 65536 + 1) % 65536 = (w + 2) % 65536 := by omega
    simp [this]
  · rw [c3cur, hcur,
      recv_step _ ((w + 1) % 65536) b2 [] (by rw [p2wt, p1wt, wt4]; omega)
        (by rw [i1, p2d, p1o _ h01, d4]; exact hM2),
      i1, p2d, p1o _ h01, d4,
      recv_stop _ _ _ _ (by rw [p3wt, p2wt, p1wt, wt4])]
    have : ((w + 1) % 65536 + 1) % 65536 = (w + 2) % 65536 := by omega
    simp [this]
  · intro i hi
    by_cases hi1 : i = (w + 1) % 256
    · rw [hi1, p3rc, p2rc, p1o _ h01, rc4]
    · rw [p3o _ hi1, p2o _ hi1]
      by_cases hi0 : i = w % 256
      · rw [hi0, p1rc, s0, rc2]
      · rw [p1o _ hi0, o4 _ hi1, o2 _ hi0]
        exact hrc i hi

/-- C9 on a zeroed ring with the payloads `(1, 10)` and `(1, 11)`. -/
theorem late_join_exclusion_witness :
    ∃ ca2 ca4 ca5 ca6 : elem_array msg_t,
      send 1 (connect fresh).2 { pid_ := 1, dat_ := 10 } = some ca2 ∧
      send 1 (connect ca2).2 { pid_ := 1, dat_ := 11 } = some ca4 ∧
      recv ca4 (connect fresh).1 [] 2 =
        some (ca5, ca4.cursor, [{ pid_ := 1, dat_ := 10 }, { pid_ := 1, dat_ := 11 }], false) ∧
      recv ca5 (connect ca2).1 [] 1 = some (ca6, ca4.cursor, [{ pid_ := 1, dat_ := 11 }], false) ∧
      ∀ i, i < elem_max → (ca6.block_ i).rc_ = 0 :=
  late_join_exclusion fresh { pid_ := 1, dat_ := 10 } { pid_ := 1, dat_ := 11 } 1 1 2 1 rfl
    (fun _ _ => rfl) (by decide) (by decide) (by decide) (by decide) (by decide) (by decide)

/-- C10 on a zeroed ring with one consumer connected: the first `acquire` stamps slot 0 with
the connection count 1 and returns its data area; a second `acquire` without a commit or a
put in between finds the counter at 1 and does not complete, however many rounds it runs. -/
theorem acquire_slot_safety_witness :
    (connect fresh).2.acquire 1 =
        some (data_of (index_of (connect fresh).2.wt_),
          set_rc (connect fresh).2 (index_of (connect fresh).2.wt_)
            ((connect fresh).2.conn_count % 4294967296)) ∧
      (set_rc (connect fresh).2 0 1).acquire 1000 = none :=
  ⟨(acquire_slot_safety (connect fresh).2 1).2.1 rfl (by decide),
    (acquire_slot_safety (set_rc (connect fresh).2 0 1) 1000).2.2 (by decide)⟩

end test_cq

/-! ## The ring test under interleaving -/

namespace test_cq

open circ

theorem mem_of_getElem? {α : Type} (l : List α) (j : Nat) (c : α) (h : l[j]? = some c) :
    c ∈ l := by
  rw [List.getElem?_eq_some] at h
  obtain ⟨hj, rfl⟩ := h
  exact List.getElem_mem hj

theorem mem_set_cases {α : Type} (l : List α) (j : Nat) (c x : α) (h : x ∈ l.set j c) :
    x = c ∨ x ∈ l := by
  induction l generalizing j with
  | nil => simp at h
  | cons a l ih =>
    cases j with
    | zero =>
      simp only [List.set_cons_zero, List.mem_cons] at h
      rcases h with h | h
      · exact Or.inl h
      · exact Or.inr (List.mem_cons_of_mem _ h)
    | succ j =>
      simp only [List.set_cons_succ, List.mem_cons] at h
      rcases h with h | h
      · exact Or.inr (by rw [h]; exact List.mem_cons_self _ _)
      · rcases ih j h with h1 | h1
        · exact Or.inl h1
        · exact Or.inr (List.mem_cons_of_mem _ h1)

theorem owed_set (k : Nat) (cons : List consumer) (j : Nat) (c c1 : consumer)
    (h : cons[j]? = some c) :
    owed k (cons.set j c1) + (if c.got.length ≤ k then 1 else 0) =
      owed k cons + (if c1.got.length ≤ k then 1 else 0) := by
  induction cons generalizing j with
  | nil => simp at h
  | cons a l ih =>
    cases j with
    | zero =>
      simp only [List.getElem?_cons_zero, Option.some.injEq] at h
      subst h
      simp only [List.set_cons_zero, owed, List.countP_cons, decide_eq_true_eq]
      omega
    | succ j =>
      simp only [List.getElem?_cons_succ] at h
      have := ih j h
      simp only [List.set_cons_succ, owed, List.countP_cons, decide_eq_true_eq] at this ⊢
      omega

theorem owed_eq_length (k : Nat) (cons : List consumer)
    (h : ∀ c ∈ cons, c.got.length ≤ k) : owed k cons = cons.length := by
  unfold owed
  rw [List.countP_eq_length]
  intro c hc
  simpa using h c hc

theorem owed_eq_zero (k : Nat) (cons : List consumer)
    (h : ∀ c ∈ cons, k < c.got.length) : owed k cons = 0 := by
  unfold owed
  rw [List.countP_eq_zero]
  intro c hc
  have := h c hc
  simp only [decide_eq_true_eq]
  omega

theorem owed_pos (k : Nat) (cons : List consumer) (c : consumer) (hc : c ∈ cons)
    (h : c.got.length ≤ k) : 1 ≤ owed k cons := by
  unfold owed
  exact List.countP_pos_iff.mpr ⟨c, hc, by simpa using h⟩

theorem owed_le_length (k : Nat) (cons : List consumer) : owed k cons ≤ cons.length :=
  List.countP_le_length _

theorem sum_map_set (f : consumer → Nat) (cons : List consumer) (j : Nat) (c c1 : consumer)
    (h : cons[j]? = some c) :
    ((cons.set j c1).map f).sum + f c = (cons.map f).sum + f c1 := by
  induction cons generalizing j with
  | nil => simp at h
  | cons a l ih =>
    cases j with
    | zero =>
      simp only [List.getElem?_cons_zero, Option.some.injEq] at h
      subst h
      simp only [List.set_cons_zero, List.map_cons, List.sum_cons]
      omega
    | succ j =>
      simp only [List.getElem?_cons_succ] at h
      have := ih j h
      simp only [List.set_cons_succ, List.map_cons, List.sum_cons]
      omega

theorem set_eq_self {α : Type} (l : List α) (j : Nat) (c c1 : α) (h : l[j]? = some c)
    (he : l.set j c1 = l) : c1 = c := by
  have h1 : (l.set j c1)[j]? = some c := by rw [he]; exact h
  rw [List.getElem?_eq_some] at h
  obtain ⟨hj, _⟩ := h
  rw [List.getElem?_set_self hj] at h1
  exact Option.some.inj h1

end test_cq

namespace test_cq

open circ

theorem store_rc (ca : elem_array msg_t) (p : ptr_t) (v : msg_t) (i : Nat) :
    ((ca.store p v).block_ i).rc_ = (ca.block_ i).rc_ := by
  unfold elem_array.store
  by_cases h : i = p.slot
  · simp [h]
  · simp [h]

theorem store_data (ca : elem_array msg_t) (p : ptr_t) (v : msg_t) (i : Nat) :
    ((ca.store p v).block_ i).data_ = if i = p.slot then v else (ca.block_ i).data_ := by
  unfold elem_array.store
  by_cases h : i = p.slot
  · simp [h]
  · simp [h]

theorem put_data (ca : elem_array msg_t) (p : ptr_t) (i : Nat) :
    ((ca.put p).block_ i).data_ = (ca.block_ i).data_ := by
  unfold elem_array.put set_rc
  by_cases h : i = (elem_of p).slot
  · simp [h]
  · simp [h]

theorem put_rc (ca : elem_array msg_t) (p : ptr_t) (i : Nat) :
    ((ca.put p).block_ i).rc_ =
      if i = p.slot then ((ca.block_ i).rc_ + 4294967295) % 4294967296
      else (ca.block_ i).rc_ := by
  unfold elem_array.put set_rc elem_of
  by_cases h : i = p.slot
  · simp [h]
  · simp [h]

theorem stamps_le (s : system) : s.sent ≤ stamps s ∧ stamps s ≤ s.sent + 1 := by
  unfold stamps
  split <;> omega

/-- The compare-exchange of `acquire` succeeds: the slot is stamped. -/
theorem inv_prod_acquire (msgs : List msg_t) (C w0 : Nat) (s : system) (m : msg_t) (p : ptr_t)
    (ca1 : elem_array msg_t) (hC : C < 65536) (hi : inv msgs C w0 s) (hpc : s.pc = 0)
    (hm : msgs[s.sent]? = some m) (hacq : s.ca.acquire 1 = some (p, ca1)) :
    inv msgs C w0 { s with ca := ca1, pc := 1, pmsg := p } := by
  obtain ⟨hz, hrc1, -, hp, hwt1, hcc1, hd1, ho1⟩ := acquire_some_facts s.ca 1 p ca1 hacq
  have hidx : index_of s.ca.wt_ = (w0 + s.sent) % 256 := by
    rw [hi.h_wt]; unfold index_of; omega
  rw [hidx] at hz hrc1 hp hd1 ho1
  have hst : stamps s = s.sent := by simp [stamps, hpc]
  have hlt : s.sent < msgs.length := by
    rw [List.getElem?_eq_some] at hm; exact hm.1
  have hdata : ∀ i, (ca1.block_ i).data_ = (s.ca.block_ i).data_ := by
    intro i
    by_cases h : i = (w0 + s.sent) % 256
    · rw [h, hd1]
    · rw [ho1 i h]
  have hroom : ∀ c ∈ s.cons, s.sent + 1 ≤ c.got.length + 256 := by
    intro c hc
    by_contra hcon
    have hk : s.sent - 256 < stamps s := by rw [hst]; omega
    have h1 := hi.h_rc (s.sent - 256) hk (by rw [hst]; omega)
    have h2 := owed_pos (s.sent - 256) s.cons c hc (by omega)
    have h3 : (w0 + (s.sent - 256)) % 256 = (w0 + s.sent) % 256 := by omega
    rw [h3, hz] at h1
    omega
  refine ⟨hi.h_sent, by simp, fun _ => hlt, by rw [hcc1]; exact hi.h_cc,
    by rw [hwt1]; exact hi.h_wt, hi.h_len, fun _ => hp, ?_, ?_, ?_, ?_⟩
  · intro c hc
    obtain ⟨a1, a2, a3, a4, a5, a6, a7⟩ := hi.h_cons c hc
    refine ⟨a1, a2, a3, a4, a5, a6, ?_⟩
    have := hroom c hc
    simp only [stamps]
    simpa using this
  · intro k hk hk2
    simp only [stamps] at hk hk2
    simp at hk hk2
    rw [hdata]
    exact hi.h_data k (by simp [hpc]; omega) (by rw [hst]; omega)
  · intro k hk hk2
    simp only [stamps] at hk hk2
    simp at hk hk2
    by_cases hks : k = s.sent
    · subst hks
      rw [hrc1, owed_eq_length _ _ (fun c hc => (hi.h_cons c hc).2.2.1), hi.h_len,
        elem_array.conn_count, hi.h_cc]
      omega
    · have hne : (w0 + k) % 256 ≠ (w0 + s.sent) % 256 := by omega
      rw [ho1 _ hne]
      exact hi.h_rc k (by rw [hst]; omega) (by rw [hst]; omega)
  · intro i hi256 hfree
    simp only [stamps] at hfree
    simp at hfree
    have hne : i ≠ (w0 + s.sent) % 256 := fun h => hfree s.sent (by omega) (by omega) h.symm
    rw [ho1 _ hne]
    apply hi.h_free i hi256
    intro k hk hk2
    rw [hst] at hk hk2
    by_cases hkk : s.sent + 1 ≤ k + 256
    · exact hfree k (by omega) (by omega)
    · have h3 : (w0 + k) % 256 = (w0 + s.sent) % 256 := by omega
      rw [h3]; exact Ne.symm hne

end test_cq

namespace test_cq

open circ

/-- The payload write of `send`. -/
theorem inv_prod_store (msgs : List msg_t) (C w0 : Nat) (s : system) (m : msg_t)
    (hi : inv msgs C w0 s) (hpc : s.pc = 1) (hm : msgs[s.sent]? = some m) :
    inv msgs C w0 { s with ca := s.ca.store s.pmsg m, pc := 2 } := by
  have hp := hi.h_pmsg (by omega)
  have hst : stamps s = s.sent + 1 := by simp [stamps, hpc]
  have hst2 : stamps { s with ca := s.ca.store s.pmsg m, pc := 2 } = s.sent + 1 := by
    simp [stamps]
  refine ⟨hi.h_sent, by simp, fun _ => hi.h_busy (by omega), hi.h_cc, hi.h_wt, hi.h_len,
    fun _ => hp, ?_, ?_, ?_, ?_⟩
  · intro c hc
    obtain ⟨a1, a2, a3, a4, a5, a6, a7⟩ := hi.h_cons c hc
    refine ⟨a1, a2, a3, a4, a5, a6, ?_⟩
    rw [hst2]; rw [hst] at a7; exact a7
  · intro k hk hk2
    rw [hst2] at hk2
    simp at hk
    show msgs[k]? = some ((s.ca.store s.pmsg m).block_ ((w0 + k) % 256)).data_
    rw [store_data, hp]
    by_cases hks : k = s.sent
    · subst hks
      simp [data_of, hm]
    · have hne : (w0 + k) % 256 ≠ (w0 + s.sent) % 256 := by omega
      simp only [data_of, hne, if_false]
      exact hi.h_data k (by simp [hpc]; omega) (by rw [hst]; omega)
  · intro k hk hk2
    rw [hst2] at hk hk2
    show ((s.ca.store s.pmsg m).block_ ((w0 + k) % 256)).rc_ = owed k s.cons
    rw [store_rc]
    exact hi.h_rc k (by rw [hst]; omega) (by rw [hst]; omega)
  · intro i hi256 hfree
    rw [hst2] at hfree
    show ((s.ca.store s.pmsg m).block_ i).rc_ = 0
    rw [store_rc]
    exact hi.h_free i hi256 (by rw [hst]; exact hfree)

/-- The commit of `send`. -/
theorem inv_prod_commit (msgs : List msg_t) (C w0 : Nat) (s : system)
    (hi : inv msgs C w0 s) (hpc : s.pc = 2) :
    inv msgs C w0 { s with ca := s.ca.commit s.pmsg, pc := 0, sent := s.sent + 1 } := by
  have hst : stamps s = s.sent + 1 := by simp [stamps, hpc]
  have hst2 : stamps { s with ca := s.ca.commit s.pmsg, pc := 0, sent := s.sent + 1 } =
      s.sent + 1 := by
    simp [stamps]
  have hlt := hi.h_busy (by omega)
  refine ⟨by simpa using hlt, by simp, by simp, hi.h_cc, ?_, hi.h_len, by simp, ?_, ?_, ?_, ?_⟩
  · show (s.ca.wt_ + 1) % 65536 = (w0 + (s.sent + 1)) % 65536
    rw [hi.h_wt]; omega
  · intro c hc
    obtain ⟨a1, a2, a3, a4, a5, a6, a7⟩ := hi.h_cons c hc
    refine ⟨a1, a2, by simp; omega, a4, fun h => by have := a5 h; simp; omega, a6, ?_⟩
    rw [hst2]; rw [hst] at a7; exact a7
  · intro k hk hk2
    rw [hst2] at hk2
    simp at hk
    exact hi.h_data k (by simp [hpc]; omega) (by rw [hst]; omega)
  · intro k hk hk2
    rw [hst2] at hk hk2
    exact hi.h_rc k (by rw [hst]; omega) (by rw [hst]; omega)
  · intro i hi256 hfree
    rw [hst2] at hfree
    exact hi.h_free i hi256 (by rw [hst]; exact hfree)

end test_cq

namespace test_cq

open circ

/-- A change of one consumer that keeps its received list keeps the invariant, given the
facts about the changed consumer. -/
theorem inv_set_same_got (msgs : List msg_t) (C w0 : Nat) (s : system) (j : Nat)
    (c c1 : consumer) (hi : inv msgs C w0 s) (hj : s.cons[j]? = some c)
    (hgot : c1.got = c.got) (hcur : c1.cur = c.cur) (hpc : c1.pc ≤ 2)
    (h5 : c1.pc ≠ 0 → c.got.length < s.sent)
    (h6 : c1.pc = 2 → msgs[c.got.length]? = some c1.msg) :
    inv msgs C w0 { s with cons := s.cons.set j c1 } := by
  have hc := mem_of_getElem? _ _ _ hj
  have hst : stamps { s with cons := s.cons.set j c1 } = stamps s := rfl
  have howed : ∀ k, owed k (s.cons.set j c1) = owed k s.cons := by
    intro k
    have := owed_set k s.cons j c c1 hj
    rw [hgot] at this
    omega
  refine ⟨hi.h_sent, hi.h_pc, hi.h_busy, hi.h_cc, hi.h_wt, ?_, hi.h_pmsg, ?_, hi.h_data, ?_,
    hi.h_free⟩
  · show (s.cons.set j c1).length = C
    rw [List.length_set]; exact hi.h_len
  · intro x hx
    rcases mem_set_cases _ _ _ _ hx with h | h
    · subst h
      obtain ⟨a1, a2, a3, a4, a5, a6, a7⟩ := hi.h_cons c hc
      rw [hst, hgot, hcur]
      exact ⟨hpc, a2, a3, a4, h5, h6, a7⟩
    · exact hi.h_cons x h
  · intro k hk hk2
    show (s.ca.block_ ((w0 + k) % 256)).rc_ = owed k (s.cons.set j c1)
    rw [howed]
    exact hi.h_rc k hk hk2

/-- The test `cur != cursor()` comes out true. -/
theorem inv_cons_test (msgs : List msg_t) (C w0 : Nat) (s : system) (j : Nat) (c : consumer)
    (hi : inv msgs C w0 s) (hj : s.cons[j]? = some c) (_hpc : c.pc = 0)
    (hne : c.cur ≠ s.ca.cursor) :
    inv msgs C w0 { s with cons := s.cons.set j { c with pc := 1 } } := by
  have hc := mem_of_getElem? _ _ _ hj
  obtain ⟨a1, a2, a3, a4, a5, a6, a7⟩ := hi.h_cons c hc
  apply inv_set_same_got msgs C w0 s j c { c with pc := 1 } hi hj rfl rfl (by simp)
  · intro _
    have hw := hi.h_wt
    simp only [elem_array.cursor] at hne
    rw [a4, hw] at hne
    by_contra hcon
    have : c.got.length = s.sent := by omega
    rw [this] at hne
    exact hne rfl
  · intro h; simp at h

/-- The copy `msg = *pmsg`. -/
theorem inv_cons_copy (msgs : List msg_t) (C w0 : Nat) (s : system) (j : Nat) (c : consumer)
    (hi : inv msgs C w0 s) (hj : s.cons[j]? = some c) (hpc : c.pc = 1) :
    inv msgs C w0
      { s with cons := s.cons.set j { c with pc := 2, msg := s.ca.load (s.ca.take c.cur) } } := by
  have hc := mem_of_getElem? _ _ _ hj
  obtain ⟨a1, a2, a3, a4, a5, a6, a7⟩ := hi.h_cons c hc
  have hlt := a5 (by omega)
  apply inv_set_same_got msgs C w0 s j c
    { c with pc := 2, msg := s.ca.load (s.ca.take c.cur) } hi hj rfl rfl (by simp)
  · intro _; exact hlt
  · intro _
    have hidx : index_of c.cur = (w0 + c.got.length) % 256 := by
      rw [a4]; unfold index_of; omega
    show msgs[c.got.length]? = some (s.ca.block_ (data_of (index_of c.cur)).slot).data_
    simp only [data_of, hidx]
    exact hi.h_data _ (by omega) a7

/-- The `put`, after which the consumer moves on by one. -/
theorem inv_cons_put (msgs : List msg_t) (C w0 : Nat) (s : system) (j : Nat) (c : consumer)
    (hC : C < 65536) (hpid : ∀ m ∈ msgs, 0 ≤ m.pid_)
    (hi : inv msgs C w0 s) (hj : s.cons[j]? = some c) (hpc : c.pc = 2) :
    inv msgs C w0
      { s with ca := s.ca.put (s.ca.take c.cur), cons := s.cons.set j (after_put c) } := by
  have hc := mem_of_getElem? _ _ _ hj
  obtain ⟨a1, a2, a3, a4, a5, a6, a7⟩ := hi.h_cons c hc
  have hlt := a5 (by omega)
  have hmsg := a6 hpc
  have hmem : c.msg ∈ msgs := by
    rw [List.getElem?_eq_some] at hmsg
    obtain ⟨h1, h2⟩ := hmsg
    rw [← h2]; exact List.getElem_mem h1
  have hnq : ¬ c.msg.pid_ < 0 := by have := hpid _ hmem; omega
  have hap : after_put c =
      { pc := 0, cur := (c.cur + 1) % 65536, msg := c.msg, got := c.got ++ [c.msg] } := by
    rw [after_put, if_neg hnq]
  have hidx : index_of c.cur = (w0 + c.got.length) % 256 := by
    rw [a4]; unfold index_of; omega
  have htake : s.ca.take c.cur = data_of ((w0 + c.got.length) % 256) := by
    simp only [elem_array.take, hidx]
  have hst : ∀ (ca1 : elem_array msg_t) (cs : List consumer),
      stamps { s with ca := ca1, cons := cs } = stamps s := fun _ _ => rfl
  have hsl := stamps_le s
  have hlen1 : (after_put c).got.length = c.got.length + 1 := by
    rw [hap]; simp
  have howed : ∀ k, owed k (s.cons.set j (after_put c)) + (if c.got.length ≤ k then 1 else 0) =
      owed k s.cons + (if c.got.length + 1 ≤ k then 1 else 0) := by
    intro k
    have := owed_set k s.cons j c (after_put c) hj
    rw [hlen1] at this
    exact this
  have hrcR := hi.h_rc c.got.length (by omega) a7
  have hpos := owed_pos c.got.length s.cons c hc (Nat.le_refl _)
  have hle := owed_le_length c.got.length s.cons
  rw [hi.h_len] at hle
  refine ⟨hi.h_sent, hi.h_pc, hi.h_busy, hi.h_cc, hi.h_wt, ?_, hi.h_pmsg, ?_, ?_, ?_, ?_⟩
  · show (s.cons.set j (after_put c)).length = C
    rw [List.length_set]; exact hi.h_len
  · intro x hx
    rcases mem_set_cases _ _ _ _ hx with h | h
    · subst h
      rw [hst]
      refine ⟨by rw [hap]; simp, ?_, by rw [hlen1]; exact hlt, ?_, fun h => ?_, fun h => ?_,
        by rw [hlen1]; omega⟩
      · rw [hlen1, List.take_succ, ← a2, hmsg, hap]
        rfl
      · rw [hlen1, hap]
        show (c.cur + 1) % 65536 = (w0 + (c.got.length + 1)) % 65536
        rw [a4]; omega
      · rw [hap] at h; simp at h
      · rw [hap] at h; simp at h
    · exact hi.h_cons x h
  · intro k hk hk2
    show msgs[k]? = some ((s.ca.put (s.ca.take c.cur)).block_ ((w0 + k) % 256)).data_
    rw [put_data]
    exact hi.h_data k hk hk2
  · intro k hk hk2
    rw [hst] at hk hk2
    show ((s.ca.put (s.ca.take c.cur)).block_ ((w0 + k) % 256)).rc_ =
      owed k (s.cons.set j (after_put c))
    rw [put_rc, htake]
    have ho := howed k
    have hold := hi.h_rc k hk hk2
    by_cases hkR : k = c.got.length
    · subst hkR
      simp only [data_of, if_true]
      rw [hrcR]
      simp at ho
      omega
    · have hne : (w0 + k) % 256 ≠ (w0 + c.got.length) % 256 := by omega
      simp only [data_of, hne, if_false]
      rw [hold]
      split at ho <;> split at ho <;> omega
  · intro i hi256 hfree
    rw [hst] at hfree
    show ((s.ca.put (s.ca.take c.cur)).block_ i).rc_ = 0
    rw [put_rc, htake]
    have hne : i ≠ (w0 + c.got.length) % 256 :=
      fun h => hfree c.got.length (by omega) a7 h.symm
    simp only [data_of, hne, if_false]
    exact hi.h_free i hi256 hfree

end test_cq

namespace test_cq

open circ

theorem prod_step_done (msgs : List msg_t) (s : system) (hm : msgs[s.sent]? = none) :
    prod_step msgs s = s := by
  simp only [prod_step, hm]

theorem prod_step_spin (msgs : List msg_t) (s : system) (m : msg_t)
    (hm : msgs[s.sent]? = some m) (hpc : s.pc = 0) (hacq : s.ca.acquire 1 = none) :
    prod_step msgs s = s := by
  obtain ⟨ca, pc, pmsg, sent, cons⟩ := s
  simp only at hm hpc hacq
  subst hpc
  simp only [prod_step, hm, hacq]

theorem prod_step_acquire (msgs : List msg_t) (s : system) (m : msg_t) (p : ptr_t)
    (ca1 : elem_array msg_t) (hm : msgs[s.sent]? = some m) (hpc : s.pc = 0)
    (hacq : s.ca.acquire 1 = some (p, ca1)) :
    prod_step msgs s = { s with ca := ca1, pc := 1, pmsg := p } := by
  obtain ⟨ca, pc, pmsg, sent, cons⟩ := s
  simp only at hm hpc hacq
  subst hpc
  simp only [prod_step, hm, hacq]

theorem prod_step_store (msgs : List msg_t) (s : system) (m : msg_t)
    (hm : msgs[s.sent]? = some m) (hpc : s.pc = 1) :
    prod_step msgs s = { s with ca := s.ca.store s.pmsg m, pc := 2 } := by
  obtain ⟨ca, pc, pmsg, sent, cons⟩ := s
  simp only at hm hpc
  subst hpc
  simp only [prod_step, hm]

theorem prod_step_commit (msgs : List msg_t) (s : system) (m : msg_t)
    (hm : msgs[s.sent]? = some m) (hpc : s.pc = 2) :
    prod_step msgs s = { s with ca := s.ca.commit s.pmsg, pc := 0, sent := s.sent + 1 } := by
  obtain ⟨ca, pc, pmsg, sent, cons⟩ := s
  simp only at hm hpc
  subst hpc
  simp only [prod_step, hm]

theorem cons_step_none (s : system) (j : Nat) (hj : s.cons[j]? = none) : cons_step s j = s := by
  simp only [cons_step, hj]

theorem cons_step_yield (s : system) (j : Nat) (c : consumer) (hj : s.cons[j]? = some c)
    (hpc : c.pc = 0) (he : c.cur = s.ca.cursor) : cons_step s j = s := by
  obtain ⟨pc, cur, msg, got⟩ := c
  simp only at hpc he
  subst hpc
  simp only [cons_step, hj, he, ne_eq, not_true_eq_false, if_false]

theorem cons_step_test (s : system) (j : Nat) (c : consumer) (hj : s.cons[j]? = some c)
    (hpc : c.pc = 0) (hne : c.cur ≠ s.ca.cursor) :
    cons_step s j = { s with cons := s.cons.set j { c with pc := 1 } } := by
  obtain ⟨pc, cur, msg, got⟩ := c
  simp only at hpc hne
  subst hpc
  simp only [cons_step, hj, hne, ne_eq, not_false_eq_true, if_true]

theorem cons_step_copy (s : system) (j : Nat) (c : consumer) (hj : s.cons[j]? = some c)
    (hpc : c.pc = 1) :
    cons_step s j =
      { s with cons := s.cons.set j { c with pc := 2, msg := s.ca.load (s.ca.take c.cur) } } := by
  obtain ⟨pc, cur, msg, got⟩ := c
  simp only at hpc
  subst hpc
  simp only [cons_step, hj]

theorem cons_step_put (s : system) (j : Nat) (c : consumer) (hj : s.cons[j]? = some c)
    (hpc : c.pc = 2) :
    cons_step s j =
      { s with ca := s.ca.put (s.ca.take c.cur), cons := s.cons.set j (after_put c) } := by
  obtain ⟨pc, cur, msg, got⟩ := c
  simp only at hpc
  subst hpc
  simp only [cons_step, hj]

theorem pc_cases (n : Nat) (h : n ≤ 2) : n = 0 ∨ n = 1 ∨ n = 2 := by omega

/-- Every atomic step keeps the invariant. -/
theorem inv_step (msgs : List msg_t) (C w0 : Nat) (hC : C < 65536)
    (hpid : ∀ m ∈ msgs, 0 ≤ m.pid_) (s : system) (tid : Nat) (hi : inv msgs C w0 s) :
    inv msgs C w0 (step msgs s tid) := by
  cases tid with
  | zero =>
    show inv msgs C w0 (prod_step msgs s)
    cases hm : msgs[s.sent]? with
    | none => rw [prod_step_done msgs s hm]; exact hi
    | some m =>
      rcases pc_cases s.pc hi.h_pc with h | h | h
      · cases hacq : s.ca.acquire 1 with
        | none => rw [prod_step_spin msgs s m hm h hacq]; exact hi
        | some r =>
          obtain ⟨p, ca1⟩ := r
          rw [prod_step_acquire msgs s m p ca1 hm h hacq]
          exact inv_prod_acquire msgs C w0 s m p ca1 hC hi h hm hacq
      · rw [prod_step_store msgs s m hm h]
        exact inv_prod_store msgs C w0 s m hi h hm
      · rw [prod_step_commit msgs s m hm h]
        exact inv_prod_commit msgs C w0 s hi h
  | succ j =>
    show inv msgs C w0 (cons_step s j)
    cases hj : s.cons[j]? with
    | none => rw [cons_step_none s j hj]; exact hi
    | some c =>
      have hc := mem_of_getElem? _ _ _ hj
      rcases pc_cases c.pc (hi.h_cons c hc).1 with h | h | h
      · by_cases he : c.cur = s.ca.cursor
        · rw [cons_step_yield s j c hj h he]; exact hi
        · rw [cons_step_test s j c hj h he]
          exact inv_cons_test msgs C w0 s j c hi hj h he
      · rw [cons_step_copy s j c hj h]
        exact inv_cons_copy msgs C w0 s j c hi hj h
      · rw [cons_step_put s j c hj h]
        exact inv_cons_put msgs C w0 s j c hC hpid hi hj h

/-- Every run keeps the invariant. -/
theorem inv_run (msgs : List msg_t) (C w0 : Nat) (hC : C < 65536)
    (hpid : ∀ m ∈ msgs, 0 ≤ m.pid_) (sched : List Nat) :
    ∀ s, inv msgs C w0 s → inv msgs C w0 (run msgs sched s) := by
  induction sched with
  | nil => intro s hi; exact hi
  | cons tid rest ih =>
    intro s hi
    exact ih _ (inv_step msgs C w0 hC hpid s tid hi)

end test_cq

namespace test_cq

open circ

theorem connect_all_spec : ∀ (n : Nat) (ca : elem_array msg_t) (cs : List consumer),
    ca.cc_ + n < 65536 →
    (connect_all n ca cs).1.cc_ = ca.cc_ + n ∧ (connect_all n ca cs).1.wt_ = ca.wt_ ∧
      (connect_all n ca cs).1.block_ = ca.block_ ∧
      (connect_all n ca cs).2 =
        cs ++ List.replicate n
          { pc := 0, cur := ca.wt_, msg := { pid_ := 0, dat_ := 0 }, got := [] } := by
  intro n
  induction n with
  | zero => intro ca cs _; simp [connect_all]
  | succ n ih =>
    intro ca cs h
    have hcc : (connect ca).2.cc_ = ca.cc_ + 1 := by
      simp only [connect, elem_array.connect]; omega
    have hwt : (connect ca).2.wt_ = ca.wt_ := rfl
    have hblk : (connect ca).2.block_ = ca.block_ := rfl
    have hcur : (connect ca).1 = ca.wt_ := rfl
    obtain ⟨h1, h2, h3, h4⟩ := ih (connect ca).2
      (cs ++ [{ pc := 0, cur := (connect ca).1, msg := { pid_ := 0, dat_ := 0 }, got := [] }])
      (by rw [hcc]; omega)
    rw [connect_all]
    refine ⟨by rw [h1, hcc]; omega, by rw [h2, hwt], by rw [h3, hblk], ?_⟩
    rw [h4, hwt, hcur, List.append_assoc]
    rfl

/-- The invariant holds before the first publication. -/
theorem inv_start (msgs : List msg_t) (C : Nat) (ca0 : elem_array msg_t) (hC : C < 65536)
    (hcc : ca0.cc_ = 0) (hwt : ca0.wt_ < 65536)
    (hrc : ∀ i, i < elem_max → (ca0.block_ i).rc_ = 0) :
    inv msgs C ca0.wt_ (start ca0 C) := by
  obtain ⟨h1, h2, h3, h4⟩ := connect_all_spec C ca0 [] (by omega)
  unfold elem_max at hrc
  have hst : stamps (start ca0 C) = 0 := rfl
  refine ⟨Nat.zero_le _, Nat.zero_le _, fun h => absurd rfl h, ?_, ?_, ?_, fun h => absurd rfl h,
    ?_, ?_, ?_, ?_⟩
  · show (connect_all C ca0 []).1.cc_ = C
    rw [h1, hcc]; omega
  · show (connect_all C ca0 []).1.wt_ = (ca0.wt_ + 0) % 65536
    rw [h2]; omega
  · show (connect_all C ca0 []).2.length = C
    rw [h4]; simp
  · intro c hc
    have hc2 : c ∈ (connect_all C ca0 []).2 := hc
    rw [h4] at hc2
    simp only [List.nil_append, List.mem_replicate] at hc2
    rw [hst, hc2.2]
    refine ⟨Nat.zero_le _, rfl, Nat.zero_le _, ?_, fun h => absurd rfl h, fun h => ?_, by simp⟩
    · show ca0.wt_ = (ca0.wt_ + 0) % 65536
      omega
    · simp at h
  · intro k hk
    simp [start] at hk
  · intro k hk
    rw [hst] at hk
    omega
  · intro i hi256 _
    show ((connect_all C ca0 []).1.block_ i).rc_ = 0
    rw [h3]
    exact hrc i hi256

theorem run_append (msgs : List msg_t) (a b : List Nat) :
    ∀ s, run msgs (a ++ b) s = run msgs b (run msgs a s) := by
  induction a with
  | nil => intro s; rfl
  | cons t a ih => intro s; exact ih _

/-- In a state of the invariant where no thread can move, every payload is committed and
every consumer has received all of them. -/
theorem quiescent_complete (msgs : List msg_t) (C w0 : Nat) (s : system)
    (hi : inv msgs C w0 s) (hq : quiescent msgs s) :
    s.sent = msgs.length ∧ ∀ c ∈ s.cons, c.got = msgs := by
  obtain ⟨hp, hcs⟩ := hq
  -- every consumer stands at the test with its cursor at the write cursor
  have hall : ∀ c ∈ s.cons, c.got.length = s.sent := by
    intro c hc
    obtain ⟨j, hjlt, hjc⟩ := List.getElem_of_mem hc
    have hj : s.cons[j]? = some c := by
      rw [List.getElem?_eq_some]; exact ⟨hjlt, hjc⟩
    obtain ⟨a1, a2, a3, a4, a5, a6, a7⟩ := hi.h_cons c hc
    have hsj := hcs j
    rcases pc_cases c.pc a1 with h | h | h
    · by_cases he : c.cur = s.ca.cursor
      · simp only [elem_array.cursor] at he
        rw [a4, hi.h_wt] at he
        have := stamps_le s
        omega
      · rw [cons_step_test s j c hj h he] at hsj
        have h2 := set_eq_self _ _ _ _ hj (congrArg system.cons hsj)
        have h3 := congrArg consumer.pc h2
        simp only at h3
        omega
    · rw [cons_step_copy s j c hj h] at hsj
      have h2 := set_eq_self _ _ _ _ hj (congrArg system.cons hsj)
      have h3 := congrArg consumer.pc h2
      simp only at h3
      omega
    · rw [cons_step_put s j c hj h] at hsj
      have h2 := set_eq_self _ _ _ _ hj (congrArg system.cons hsj)
      have h3 := congrArg consumer.pc h2
      unfold after_put at h3
      split at h3 <;> simp only at h3 <;> omega
  have hsent : s.sent = msgs.length := by
    by_contra hne
    have hlt : s.sent < msgs.length := by have := hi.h_sent; omega
    have hm : msgs[s.sent]? = some (msgs[s.sent]) := List.getElem?_eq_getElem hlt
    rcases pc_cases s.pc hi.h_pc with h | h | h
    · have hst : stamps s = s.sent := by simp [stamps, h]
      have hidx : index_of s.ca.wt_ = (w0 + s.sent) % 256 := by
        rw [hi.h_wt]; unfold index_of; omega
      have hz : (s.ca.block_ (index_of s.ca.wt_)).rc_ = 0 := by
        rw [hidx]
        by_cases h256 : 256 ≤ s.sent
        · have h1 := hi.h_rc (s.sent - 256) (by rw [hst]; omega) (by rw [hst]; omega)
          have h3 : (w0 + (s.sent - 256)) % 256 = (w0 + s.sent) % 256 := by omega
          rw [h3] at h1
          rw [h1]
          exact owed_eq_zero _ _ (fun c hc => by rw [hall c hc]; omega)
        · apply hi.h_free _ (Nat.mod_lt _ (by decide))
          intro k hk hk2
          rw [hst] at hk
          omega
      have hacq := acquire_of_zero s.ca 1 hz (Nat.le_refl 1)
      rw [prod_step_acquire msgs s _ _ _ hm h hacq] at hp
      have h3 := congrArg system.pc hp
      simp only at h3
      omega
    · rw [prod_step_store msgs s _ hm h] at hp
      have h3 := congrArg system.pc hp
      simp only at h3
      omega
    · rw [prod_step_commit msgs s _ hm h] at hp
      have h3 := congrArg system.sent hp
      simp only at h3
      omega
  refine ⟨hsent, fun c hc => ?_⟩
  obtain ⟨a1, a2, a3, a4, a5, a6, a7⟩ := hi.h_cons c hc
  rw [a2, hall c hc, hsent, List.take_length]

end test_cq

namespace test_cq

open circ

theorem lt_of_cur_ne (msgs : List msg_t) (C w0 : Nat) (s : system) (c : consumer)
    (hi : inv msgs C w0 s) (hc : c ∈ s.cons) (hne : c.cur ≠ s.ca.cursor) :
    c.got.length < s.sent := by
  obtain ⟨a1, a2, a3, a4, a5, a6, a7⟩ := hi.h_cons c hc
  simp only [elem_array.cursor] at hne
  rw [a4, hi.h_wt] at hne
  by_contra hcon
  have : c.got.length = s.sent := by omega
  rw [this] at hne
  exact hne rfl

/-- A step that changes the state is one of the steps still to be taken. -/
theorem work_step (msgs : List msg_t) (C w0 : Nat) (s : system) (tid : Nat)
    (hpid : ∀ m ∈ msgs, 0 ≤ m.pid_) (hi : inv msgs C w0 s) (hne : step msgs s tid ≠ s) :
    work msgs (step msgs s tid) + 1 = work msgs s := by
  cases tid with
  | zero =>
    have hne1 : prod_step msgs s ≠ s := hne
    show work msgs (prod_step msgs s) + 1 = work msgs s
    cases hm : msgs[s.sent]? with
    | none => exact absurd (prod_step_done msgs s hm) hne1
    | some m =>
      have hlt : s.sent < msgs.length := by
        rw [List.getElem?_eq_some] at hm; exact hm.1
      rcases pc_cases s.pc hi.h_pc with h | h | h
      · cases hacq : s.ca.acquire 1 with
        | none => exact absurd (prod_step_spin msgs s m hm h hacq) hne1
        | some r =>
          obtain ⟨p, ca1⟩ := r
          rw [prod_step_acquire msgs s m p ca1 hm h hacq]
          simp only [work, h]
          omega
      · rw [prod_step_store msgs s m hm h]
        simp only [work, h]
        omega
      · rw [prod_step_commit msgs s m hm h]
        simp only [work, h]
        omega
  | succ j =>
    have hne1 : cons_step s j ≠ s := hne
    show work msgs (cons_step s j) + 1 = work msgs s
    cases hj : s.cons[j]? with
    | none => exact absurd (cons_step_none s j hj) hne1
    | some c =>
      have hc := mem_of_getElem? _ _ _ hj
      obtain ⟨a1, a2, a3, a4, a5, a6, a7⟩ := hi.h_cons c hc
      have hsent := hi.h_sent
      rcases pc_cases c.pc a1 with h | h | h
      · by_cases he : c.cur = s.ca.cursor
        · exact absurd (cons_step_yield s j c hj h he) hne1
        · rw [cons_step_test s j c hj h he]
          have hlt := lt_of_cur_ne msgs C w0 s c hi hc he
          have hs := sum_map_set (fun c => 3 * (msgs.length - c.got.length) - c.pc) s.cons j c
            { c with pc := 1 } hj
          simp only [work, h] at hs ⊢
          omega
      · have hlt := a5 (by omega)
        rw [cons_step_copy s j c hj h]
        have hs := sum_map_set (fun c => 3 * (msgs.length - c.got.length) - c.pc) s.cons j c
          { c with pc := 2, msg := s.ca.load (s.ca.take c.cur) } hj
        simp only [work, h] at hs ⊢
        omega
      · have hlt := a5 (by omega)
        have hmsg := a6 h
        have hmem : c.msg ∈ msgs := by
          rw [List.getElem?_eq_some] at hmsg
          obtain ⟨h1, h2⟩ := hmsg
          rw [← h2]; exact List.getElem_mem h1
        have hnq : ¬ c.msg.pid_ < 0 := by have := hpid _ hmem; omega
        rw [cons_step_put s j c hj h]
        have hs := sum_map_set (fun c => 3 * (msgs.length - c.got.length) - c.pc) s.cons j c
          (after_put c) hj
        simp only [after_put, hnq, if_false, List.length_append, List.length_singleton,
          work, h] at hs ⊢
        omega

/-- From every state of the invariant the threads can run on to a state where none of them
can move, within the number of steps still to be taken. -/
theorem run_to_quiescent (msgs : List msg_t) (C w0 : Nat) (hC : C < 65536)
    (hpid : ∀ m ∈ msgs, 0 ≤ m.pid_) :
    ∀ (n : Nat) (s : system), inv msgs C w0 s → work msgs s ≤ n →
      ∃ sched : List Nat, sched.length ≤ n ∧ quiescent msgs (run msgs sched s) := by
  intro n
  induction n with
  | zero =>
    intro s hi hw
    refine ⟨[], Nat.le_refl _, ?_⟩
    by_contra hq
    have : ∃ tid, step msgs s tid ≠ s := by
      by_contra hcon
      apply hq
      refine ⟨?_, fun j => ?_⟩
      · by_contra h; exact hcon ⟨0, h⟩
      · by_contra h; exact hcon ⟨j + 1, h⟩
    obtain ⟨tid, ht⟩ := this
    have := work_step msgs C w0 s tid hpid hi ht
    omega
  | succ n ih =>
    intro s hi hw
    by_cases hq : quiescent msgs s
    · exact ⟨[], Nat.zero_le _, hq⟩
    · have : ∃ tid, step msgs s tid ≠ s := by
        by_contra hcon
        apply hq
        refine ⟨?_, fun j => ?_⟩
        · by_contra h; exact hcon ⟨0, h⟩
        · by_contra h; exact hcon ⟨j + 1, h⟩
      obtain ⟨tid, ht⟩ := this
      have hws := work_step msgs C w0 s tid hpid hi ht
      obtain ⟨sched, hlen, hqs⟩ := ih (step msgs s tid) (inv_step msgs C w0 hC hpid s tid hi)
        (by omega)
      exact ⟨tid :: sched, by simp; omega, hqs⟩

end test_cq

namespace test_cq

open circ

/-- C8. Broadcast completeness and order, with the threads interleaved step by step. One producer
publishes the payloads `msgs` (all with a non-negative `pid_`) with `test_cq::send`, and
`C < 65536` consumers, connected before the first publication to a ring with nobody
connected and every read counter 0, run `test_cq::recv`; every access to the ring is one
atomic step and `sched` names the thread of each step. After every schedule each consumer's
received list is a beginning of `msgs`, no longer than what has been committed: nothing is
missing, duplicated or out of order. In a state where no thread can move every payload is
committed and each consumer's received list is `msgs`. And every schedule can be continued,
by no more steps than are still to be taken, to such a state: the threads do not get stuck. -/
theorem broadcast_complete_interleaved (ca0 : elem_array msg_t) (msgs : List msg_t)
    (C : Nat) (sched : List Nat) (hC : C < 65536) (hcc : ca0.cc_ = 0) (hwt : ca0.wt_ < 65536)
    (hrc : ∀ i, i < elem_max → (ca0.block_ i).rc_ = 0) (hpid : ∀ m ∈ msgs, 0 ≤ m.pid_) :
    (run msgs sched (start ca0 C)).cons.length = C ∧
      (∀ c ∈ (run msgs sched (start ca0 C)).cons,
        c.got = msgs.take c.got.length ∧
        c.got.length ≤ (run msgs sched (start ca0 C)).sent) ∧
      (quiescent msgs (run msgs sched (start ca0 C)) →
        (run msgs sched (start ca0 C)).sent = msgs.length ∧
        ∀ c ∈ (run msgs sched (start ca0 C)).cons, c.got = msgs) ∧
      ∃ more : List Nat, more.length ≤ work msgs (run msgs sched (start ca0 C)) ∧
        quiescent msgs (run msgs (sched ++ more) (start ca0 C)) ∧
        ∀ c ∈ (run msgs (sched ++ more) (start ca0 C)).cons, c.got = msgs := by
  have h0 := inv_start msgs C ca0 hC hcc hwt hrc
  have hi := inv_run msgs C ca0.wt_ hC hpid sched _ h0
  refine ⟨hi.h_len, fun c hc => ⟨(hi.h_cons c hc).2.1, (hi.h_cons c hc).2.2.1⟩,
    fun hq => quiescent_complete msgs C ca0.wt_ _ hi hq, ?_⟩
  obtain ⟨more, hlen, hq⟩ := run_to_quiescent msgs C ca0.wt_ hC hpid _ _ hi (Nat.le_refl _)
  refine ⟨more, hlen, ?_, ?_⟩
  · rw [run_append]; exact hq
  · rw [run_append]
    exact (quiescent_complete msgs C ca0.wt_ _
      (inv_run msgs C ca0.wt_ hC hpid more _ hi) hq).2

/-- C8 on a zeroed ring with two consumers and three payloads, for a schedule in which the
producer and the consumers take turns: whatever the consumers have received so far is a
beginning of the published list, and the run can be continued until both have all of it. -/
theorem broadcast_complete_interleaved_witness :
    (run [{ pid_ := 1, dat_ := 0 }, { pid_ := 1, dat_ := 1 }, { pid_ := 1, dat_ := 2 }]
        [0, 1, 0, 2, 0, 1, 1, 1, 2, 0, 2] (start fresh 2)).cons.length = 2 ∧
      ∃ more : List Nat,
        more.length ≤
          work [{ pid_ := 1, dat_ := 0 }, { pid_ := 1, dat_ := 1 }, { pid_ := 1, dat_ := 2 }]
            (run [{ pid_ := 1, dat_ := 0 }, { pid_ := 1, dat_ := 1 }, { pid_ := 1, dat_ := 2 }]
              [0, 1, 0, 2, 0, 1, 1, 1, 2, 0, 2] (start fresh 2)) ∧
        quiescent [{ pid_ := 1, dat_ := 0 }, { pid_ := 1, dat_ := 1 }, { pid_ := 1, dat_ := 2 }]
          (run [{ pid_ := 1, dat_ := 0 }, { pid_ := 1, dat_ := 1 }, { pid_ := 1, dat_ := 2 }]
            ([0, 1, 0, 2, 0, 1, 1, 1, 2, 0, 2] ++ more) (start fresh 2)) ∧
        ∀ c ∈ (run [{ pid_ := 1, dat_ := 0 }, { pid_ := 1, dat_ := 1 }, { pid_ := 1, dat_ := 2 }]
            ([0, 1, 0, 2, 0, 1, 1, 1, 2, 0, 2] ++ more) (start fresh 2)).cons,
          c.got = [{ pid_ := 1, dat_ := 0 }, { pid_ := 1, dat_ := 1 }, { pid_ := 1, dat_ := 2 }] :=
  ⟨(broadcast_complete_interleaved fresh
      [{ pid_ := 1, dat_ := 0 }, { pid_ := 1, dat_ := 1 }, { pid_ := 1, dat_ := 2 }] 2
      [0, 1, 0, 2, 0, 1, 1, 1, 2, 0, 2] (by decide) rfl (by decide) (fun _ _ => rfl)
      (by decide)).1,
    (broadcast_complete_interleaved fresh
      [{ pid_ := 1, dat_ := 0 }, { pid_ := 1, dat_ := 1 }, { pid_ := 1, dat_ := 2 }] 2
      [0, 1, 0, 2, 0, 1, 1, 1, 2, 0, 2] (by decide) rfl (by decide) (fun _ _ => rfl)
      (by decide)).2.2.2⟩

end test_cq

/-! ## Properties of the ring: back-pressure -/

namespace test_cq

theorem prod_step_cons (msgs : List msg_t) (s : system) : (prod_step msgs s).cons = s.cons := by
  unfold prod_step
  split
  · rfl
  · split
    · split <;> rfl
    · rfl
    · rfl

theorem step_got_of_no_put (msgs : List msg_t) (j : Nat) (s : system) (tid : Nat)
    (h : ¬ (tid = j + 1 ∧ (s.cons[j]?).map (fun c => c.pc) = some 2)) :
    ((step msgs s tid).cons[j]?).map (fun c => c.got) = (s.cons[j]?).map (fun c => c.got) := by
  cases tid with
  | zero => simp only [step, prod_step_cons]
  | succ i =>
    simp only [step]
    by_cases hij : i = j
    · subst hij
      cases hc : s.cons[i]? with
      | none => rw [cons_step_none s i hc, hc]
      | some c =>
        have hpc : c.pc ≠ 2 := by
          intro h2
          apply h
          refine ⟨rfl, ?_⟩
          rw [hc]; simp [h2]
        have hlt : i < s.cons.length := by
          rcases Nat.lt_or_ge i s.cons.length with h1 | h1
          · exact h1
          · rw [List.getElem?_eq_none h1] at hc; cases hc
        unfold cons_step
        rw [hc]
        dsimp only
        split
        · split
          · simp [List.getElem?_set_self hlt]
          · rw [hc]
        · simp [List.getElem?_set_self hlt]
        · rename_i h2; exact absurd h2 hpc
        · rw [hc]
    · unfold cons_step
      split
      · rfl
      · split
        · split
          · simp [List.getElem?_set_ne hij]
          · rfl
        · simp [List.getElem?_set_ne hij]
        · simp [List.getElem?_set_ne hij]
        · rfl

theorem run_got_of_no_put (msgs : List msg_t) (j : Nat) :
    ∀ (sched : List Nat) (s : system), puts_of msgs j sched s = 0 →
      ((run msgs sched s).cons[j]?).map (fun c => c.got) = (s.cons[j]?).map (fun c => c.got) := by
  intro sched
  induction sched with
  | nil => intro s _; rfl
  | cons tid rest ih =>
    intro s h
    simp only [puts_of] at h
    have h1 : ¬ (tid = j + 1 ∧ (s.cons[j]?).map (fun c => c.pc) = some 2) := by
      intro hh; rw [if_pos hh] at h; omega
    have h2 : puts_of msgs j rest (step msgs s tid) = 0 := by omega
    simp only [run]
    rw [ih _ h2, step_got_of_no_put msgs j s tid h1]

theorem puts_of_producer_only (msgs : List msg_t) (j : Nat) :
    ∀ (n : Nat) (s : system), puts_of msgs j (List.replicate n 0) s = 0 := by
  intro n
  induction n with
  | zero => intro s; rfl
  | succ n ih =>
    intro s
    simp only [List.replicate_succ, puts_of]
    rw [ih]
    simp

theorem producer_publish (msgs : List msg_t) (C w0 : Nat) (s : system) (hi : inv msgs C w0 s)
    (hpc : s.pc = 0) (hlt : s.sent < msgs.length) (h256 : s.sent < 256) :
    (run msgs [0, 0, 0] s).sent = s.sent + 1 ∧ (run msgs [0, 0, 0] s).pc = 0 := by
  have hm : msgs[s.sent]? = some msgs[s.sent] := List.getElem?_eq_getElem hlt
  have hst : stamps s = s.sent := by simp [stamps, hpc]
  have hfree : (s.ca.block_ (circ.index_of s.ca.wt_)).rc_ = 0 := by
    have hw := hi.h_wt
    have hidx : circ.index_of s.ca.wt_ = (w0 + s.sent) % 256 := by
      rw [hw]; unfold circ.index_of; omega
    rw [hidx]
    apply hi.h_free _ (by omega)
    intro k hk1 hk2
    rw [hst] at hk1 hk2
    omega
  have hacq := circ.acquire_of_zero s.ca 1 hfree (by omega)
  have e1 := prod_step_acquire msgs s _ _ _ hm hpc hacq
  have e2 := prod_step_store msgs (prod_step msgs s) msgs[s.sent]
    (by rw [e1]; exact hm) (by rw [e1])
  have e3 := prod_step_commit msgs (prod_step msgs (prod_step msgs s)) msgs[s.sent]
    (by rw [e2, e1]; exact hm) (by rw [e2])
  simp only [run, step]
  rw [e3, e2, e1]
  exact ⟨rfl, rfl⟩

theorem producer_only_run (msgs : List msg_t) (C w0 : Nat) (hC : C < 65536)
    (hpid : ∀ m ∈ msgs, 0 ≤ m.pid_) :
    ∀ (n : Nat) (s : system), inv msgs C w0 s → s.pc = 0 → s.sent + n ≤ msgs.length →
      s.sent + n ≤ 256 →
      (run msgs (List.replicate (3 * n) 0) s).sent = s.sent + n ∧
        (run msgs (List.replicate (3 * n) 0) s).pc = 0 := by
  intro n
  induction n with
  | zero => intro s _ hpc _ _; exact ⟨rfl, hpc⟩
  | succ n ih =>
    intro s hi hpc hlen h256
    have e : List.replicate (3 * (n + 1)) 0 = [0, 0, 0] ++ List.replicate (3 * n) 0 := by
      rw [show 3 * (n + 1) = 3 * n + 3 by ring]
      simp [List.replicate_succ]
    have hp := producer_publish msgs C w0 s hi hpc (by omega) (by omega)
    have hi1 := inv_run msgs C w0 hC hpid [0, 0, 0] s hi
    rw [e, run_append]
    have h := ih (run msgs [0, 0, 0] s) hi1 hp.2 (by rw [hp.1]; omega) (by rw [hp.1]; omega)
    rw [hp.1] at h
    exact ⟨by rw [h.1]; omega, h.2⟩

/-- C11 (back-pressure). `C` consumers connect to a zeroed ring, so `conn_count = C`, and the
producer publishes while the threads interleave. If consumer `j` has made no `put`, the
producer has committed at most `N = 256` payloads; once it has committed 256, the write cursor
is 256, the slot it addresses (slot 0) has a non-zero read counter, `acquire` does not complete
however many rounds it spins (it returns nothing, there is no error value), and the producer's
step leaves the state as it is. Such a state is reached: with 256 payloads at hand the
producer alone publishes 256 of them while no consumer makes a `put`. -/
theorem back_pressure (ca0 : circ.elem_array msg_t) (msgs : List msg_t) (C j : Nat)
    (sched : List Nat) (hC : C < 65536) (hcc : ca0.cc_ = 0) (hwt : ca0.wt_ = 0)
    (hrc : ∀ i, i < circ.elem_max → (ca0.block_ i).rc_ = 0) (hpid : ∀ m ∈ msgs, 0 ≤ m.pid_)
    (hj : j < C) (hput : puts_of msgs j sched (start ca0 C) = 0) :
    (run msgs sched (start ca0 C)).sent ≤ 256 ∧
      ((run msgs sched (start ca0 C)).sent = 256 →
        (run msgs sched (start ca0 C)).pc = 0 ∧
        (run msgs sched (start ca0 C)).ca.cursor = 256 ∧
        (run msgs sched (start ca0 C)).ca.conn_count = C ∧
        1 ≤ ((run msgs sched (start ca0 C)).ca.block_
              (circ.index_of (run msgs sched (start ca0 C)).ca.cursor)).rc_ ∧
        (∀ fuel, (run msgs sched (start ca0 C)).ca.acquire fuel = none) ∧
        prod_step msgs (run msgs sched (start ca0 C)) = run msgs sched (start ca0 C)) ∧
      (256 ≤ msgs.length →
        ∃ sched0 : List Nat, (∀ i, puts_of msgs i sched0 (start ca0 C) = 0) ∧
          (run msgs sched0 (start ca0 C)).sent = 256) := by
  have hi0 : inv msgs C 0 (start ca0 C) := by
    have h := inv_start msgs C ca0 hC hcc (by omega) hrc
    rw [hwt] at h; exact h
  have hi := inv_run msgs C 0 hC hpid sched _ hi0
  -- consumer `j` still has an empty received list
  have hcs := (connect_all_spec C ca0 [] (by omega)).2.2.2
  have hj0 : ((start ca0 C).cons[j]?).map (fun c => c.got) = some [] := by
    simp only [start]
    rw [hcs]
    simp [List.getElem?_replicate, hj]
  have hgot := run_got_of_no_put msgs j sched _ hput
  rw [hj0] at hgot
  obtain ⟨c, hc, hcg⟩ : ∃ c, (run msgs sched (start ca0 C)).cons[j]? = some c ∧ c.got = [] := by
    cases hq : (run msgs sched (start ca0 C)).cons[j]? with
    | none => rw [hq] at hgot; cases hgot
    | some c => rw [hq] at hgot; exact ⟨c, rfl, by simpa using hgot⟩
  have hmem := mem_of_getElem? _ _ _ hc
  have hcons := hi.h_cons c hmem
  have hst : stamps (run msgs sched (start ca0 C)) ≤ 256 := by
    have := hcons.2.2.2.2.2.2
    rw [hcg] at this; simpa using this
  have hsl := stamps_le (run msgs sched (start ca0 C))
  refine ⟨by omega, ?_, ?_⟩
  · intro h256
    have hpc : (run msgs sched (start ca0 C)).pc = 0 := by
      by_contra hne
      simp only [stamps, hne, if_false] at hst
      omega
    have hst2 : stamps (run msgs sched (start ca0 C)) = 256 := by
      simp [stamps, hpc, h256]
    have hw : (run msgs sched (start ca0 C)).ca.wt_ = 256 := by
      rw [hi.h_wt, h256]
    have hrc1 : 1 ≤ ((run msgs sched (start ca0 C)).ca.block_ 0).rc_ := by
      have h := hi.h_rc 0 (by omega) (by omega)
      simp only [Nat.add_zero, Nat.zero_mod] at h
      rw [h]
      exact owed_pos 0 _ c hmem (by rw [hcg]; simp)
    have hidx : circ.index_of (run msgs sched (start ca0 C)).ca.cursor = 0 := by
      simp [circ.elem_array.cursor, hw, circ.index_of]
    have hne : ((run msgs sched (start ca0 C)).ca.block_
        (circ.index_of (run msgs sched (start ca0 C)).ca.wt_)).rc_ ≠ 0 := by
      rw [hw]; simp only [circ.index_of]; norm_num; omega
    refine ⟨hpc, by simp [circ.elem_array.cursor, hw], hi.h_cc, by rw [hidx]; exact hrc1,
      fun fuel => circ.acquire_of_ne_zero _ fuel hne, ?_⟩
    cases hm : msgs[(run msgs sched (start ca0 C)).sent]? with
    | none => exact prod_step_done msgs _ hm
    | some m => exact prod_step_spin msgs _ m hm hpc (circ.acquire_of_ne_zero _ 1 hne)
  · intro hlen
    refine ⟨List.replicate (3 * 256) 0, fun i => puts_of_producer_only msgs i _ _, ?_⟩
    have h := producer_only_run msgs C 0 hC hpid 256 (start ca0 C) hi0 rfl
      (by simp only [start]; omega) (by simp only [start]; omega)
    exact h.1.trans (Nat.zero_add 256)

/-- Witness for C11: one consumer on a zeroed ring, 257 payloads, and a schedule of 768
producer steps, during which the consumer makes no `put`. -/
theorem back_pressure_witness :
    (run lag_payloads (List.replicate 768 0) (start fresh 1)).sent ≤ 256 ∧
      ((run lag_payloads (List.replicate 768 0) (start fresh 1)).sent = 256 →
        (run lag_payloads (List.replicate 768 0) (start fresh 1)).pc = 0 ∧
        (run lag_payloads (List.replicate 768 0) (start fresh 1)).ca.cursor = 256 ∧
        (run lag_payloads (List.replicate 768 0) (start fresh 1)).ca.conn_count = 1 ∧
        1 ≤ ((run lag_payloads (List.replicate 768 0) (start fresh 1)).ca.block_
              (circ.index_of (run lag_payloads (List.replicate 768 0) (start fresh 1)).ca.cursor)).rc_ ∧
        (∀ fuel, (run lag_payloads (List.replicate 768 0) (start fresh 1)).ca.acquire fuel = none) ∧
        prod_step lag_payloads (run lag_payloads (List.replicate 768 0) (start fresh 1)) =
          run lag_payloads (List.replicate 768 0) (start fresh 1)) ∧
      (256 ≤ lag_payloads.length →
        ∃ sched0 : List Nat, (∀ i, puts_of lag_payloads i sched0 (start fresh 1) = 0) ∧
          (run lag_payloads sched0 (start fresh 1)).sent = 256) :=
  back_pressure fresh lag_payloads 1 0 (List.replicate 768 0) (by decide) rfl rfl
    (fun _ _ => rfl)
    (fun m hm => by rw [List.eq_of_mem_replicate hm]; decide)
    (by decide) (puts_of_producer_only lag_payloads 0 768 (start fresh 1))

end test_cq

/-! ## Properties of the ring: the write cursor -/

namespace circ

theorem apply_cursor {α : Type} (fuel : Nat) (ca : elem_array α) (op : op_t) :
    (ca.apply fuel op).cursor =
      if op.is_commit = true then (ca.cursor + 1) % 65536 else ca.cursor := by
  cases op with
  | connect => simp [elem_array.apply, op_t.is_commit, elem_array.cursor, elem_array.connect]
  | disconnect =>
    simp [elem_array.apply, op_t.is_commit, elem_array.cursor, elem_array.disconnect]
  | acquire =>
    simp only [elem_array.apply, op_t.is_commit]
    cases h : ca.acquire fuel with
    | none => simp
    | some r =>
      obtain ⟨p, ca1⟩ := r
      have := (acquire_some_facts ca fuel p ca1 h).2.2.2.2.1
      simpa [elem_array.cursor] using this
  | commit p => simp [elem_array.apply, op_t.is_commit, elem_array.cursor, elem_array.commit]
  | take c => simp [elem_array.apply, op_t.is_commit]
  | put p => simp [elem_array.apply, op_t.is_commit, elem_array.cursor, elem_array.put, set_rc]

theorem commits_cons (op : op_t) (ops : List op_t) :
    commits (op :: ops) = commits ops + (if op.is_commit = true then 1 else 0) := by
  unfold commits
  rw [List.countP_cons]

theorem run_ops_cursor {α : Type} (fuel : Nat) :
    ∀ (ops : List op_t) (ca : elem_array α),
      (run_ops fuel ops ca).cursor % 65536 = (ca.cursor + commits ops) % 65536 := by
  intro ops
  induction ops with
  | nil => intro ca; rfl
  | cons op rest ih =>
    intro ca
    simp only [run_ops]
    rw [ih, apply_cursor, commits_cons]
    by_cases h : op.is_commit = true
    · rw [if_pos h, if_pos h]; omega
    · rw [if_neg h, if_neg h]; omega

theorem cursor_trace_bounds {α : Type} (fuel : Nat) :
    ∀ (ops : List op_t) (ca : elem_array α), ca.cursor + commits ops < 65536 →
      ∀ x ∈ cursor_trace fuel ops ca, ca.cursor ≤ x ∧ x ≤ ca.cursor + commits ops := by
  intro ops
  induction ops with
  | nil =>
    intro ca _ x hx
    simp only [cursor_trace, List.mem_singleton] at hx
    subst hx
    exact ⟨Nat.le_refl _, Nat.le_add_right _ _⟩
  | cons op rest ih =>
    intro ca h x hx
    rw [commits_cons] at h ⊢
    simp only [cursor_trace, List.mem_cons] at hx
    rcases hx with hx | hx
    · subst hx; omega
    · have hc := apply_cursor fuel ca op
      by_cases hop : op.is_commit = true
      · rw [if_pos hop] at hc h ⊢
        have hc2 : (ca.apply fuel op).cursor = ca.cursor + 1 := by rw [hc]; omega
        have := ih (ca.apply fuel op) (by rw [hc2]; omega) x hx
        rw [hc2] at this
        omega
      · rw [if_neg hop] at hc h ⊢
        have := ih (ca.apply fuel op) (by rw [hc]; omega) x hx
        rw [hc] at this
        omega

theorem cursor_trace_sorted {α : Type} (fuel : Nat) :
    ∀ (ops : List op_t) (ca : elem_array α), ca.cursor + commits ops < 65536 →
      (cursor_trace fuel ops ca).Sorted (fun a b => a ≤ b) := by
  intro ops
  induction ops with
  | nil => intro ca _; simp [cursor_trace]
  | cons op rest ih =>
    intro ca h
    rw [commits_cons] at h
    have hc := apply_cursor fuel ca op
    simp only [cursor_trace, List.sorted_cons]
    by_cases hop : op.is_commit = true
    · rw [if_pos hop] at hc h
      have hc2 : (ca.apply fuel op).cursor = ca.cursor + 1 := by rw [hc]; omega
      refine ⟨fun x hx => ?_, ih _ (by rw [hc2]; omega)⟩
      have := cursor_trace_bounds fuel rest (ca.apply fuel op) (by rw [hc2]; omega) x hx
      omega
    · rw [if_neg hop] at hc h
      refine ⟨fun x hx => ?_, ih _ (by rw [hc]; omega)⟩
      have := cursor_trace_bounds fuel rest (ca.apply fuel op) (by rw [hc]; omega) x hx
      omega

theorem commits_replicate_commit (n : Nat) (p : ptr_t) :
    commits (List.replicate n (op_t.commit p)) = n := by
  induction n with
  | zero => rfl
  | succ n ih => rw [List.replicate_succ, commits_cons, ih]; rfl

theorem run_ops_wt_lt {α : Type} (fuel : Nat) :
    ∀ (ops : List op_t) (ca : elem_array α), ca.cursor < 65536 →
      (run_ops fuel ops ca).cursor < 65536 := by
  intro ops
  induction ops with
  | nil => intro ca h; exact h
  | cons op rest ih =>
    intro ca h
    simp only [run_ops]
    apply ih
    rw [apply_cursor]
    split
    · omega
    · exact h

/-- C12 (cursor monotonicity), as amended. A `commit` takes `cursor()` from `c` to
`(c + 1) mod 2^16` and no other operation changes it; the cursor after a sequence of calls is
the starting value plus the number of commits, modulo `2^16`; and as long as that sum stays
below `2^16` the values of `cursor()` read along the sequence are non-decreasing and the last
one is the starting value plus the number of commits. -/
theorem cursor_monotone {α : Type} (fuel : Nat) (ca : elem_array α) (ops : List op_t)
    (hw : ca.cursor < 65536) :
    (∀ (ca1 : elem_array α) (op : op_t),
      (ca1.apply fuel op).cursor =
        if op.is_commit = true then (ca1.cursor + 1) % 65536 else ca1.cursor) ∧
      (run_ops fuel ops ca).cursor = (ca.cursor + commits ops) % 65536 ∧
      (ca.cursor + commits ops < 65536 →
        (cursor_trace fuel ops ca).Sorted (fun a b => a ≤ b) ∧
        (run_ops fuel ops ca).cursor = ca.cursor + commits ops) := by
  have h1 : (run_ops fuel ops ca).cursor = (ca.cursor + commits ops) % 65536 := by
    have := run_ops_cursor fuel ops ca
    have := run_ops_wt_lt fuel ops ca hw
    omega
  refine ⟨fun ca1 op => apply_cursor fuel ca1 op, h1, fun h => ⟨cursor_trace_sorted fuel ops ca h, ?_⟩⟩
  rw [h1]; omega

end circ

namespace test_cq

/-- Witness for C12: on a fresh ring, connect, acquire, commit, take, put, acquire, commit,
disconnect; the cursor reads 0, 0, 0, 1, 1, 1, 1, 2, 2. -/
theorem cursor_monotone_witness :
    (circ.cursor_trace 1
        [.connect, .acquire, .commit (circ.data_of 0), .take 0, .put (circ.data_of 0),
          .acquire, .commit (circ.data_of 1), .disconnect] fresh).Sorted (fun a b => a ≤ b) ∧
      (circ.run_ops 1
        [.connect, .acquire, .commit (circ.data_of 0), .take 0, .put (circ.data_of 0),
          .acquire, .commit (circ.data_of 1), .disconnect] fresh).cursor = 0 + 2 :=
  (circ.cursor_monotone 1 fresh
    [.connect, .acquire, .commit (circ.data_of 0), .take 0, .put (circ.data_of 0),
      .acquire, .commit (circ.data_of 1), .disconnect] (by decide)).2.2 (by decide)

/-- Counterexample for C12 as stated: after 65535 commits on a fresh ring `cursor()` returns
65535, and the next commit takes it down to 0. -/
theorem cursor_monotone_counterexample :
    (circ.run_ops 1 (List.replicate 65535 (.commit (circ.data_of 0))) fresh).cursor = 65535 ∧
      ((circ.run_ops 1 (List.replicate 65535 (.commit (circ.data_of 0))) fresh).apply 1
        (.commit (circ.data_of 0))).cursor = 0 := by
  have h := circ.run_ops_cursor 1 (List.replicate 65535 (.commit (circ.data_of 0))) fresh
  have h2 := circ.run_ops_wt_lt 1 (List.replicate 65535 (.commit (circ.data_of 0))) fresh
    (by decide)
  rw [circ.commits_replicate_commit] at h
  have h3 : (circ.run_ops 1 (List.replicate 65535 (.commit (circ.data_of 0))) fresh).cursor
      = 65535 := by
    have : fresh.cursor = 0 := rfl
    rw [this] at h
    omega
  refine ⟨h3, ?_⟩
  rw [circ.apply_cursor, h3]
  rfl

end test_cq

/-! ## Properties of the ring: slot indexing and layout -/

namespace circ

theorem align_up_of_dvd (n a : Nat) (ha : 0 < a) (h : a ∣ n) : align_up n a = n := by
  obtain ⟨q, rfl⟩ := h
  unfold align_up
  have : (a * q + a - 1) / a = q := by
    rw [Nat.add_sub_assoc ha, Nat.mul_add_div ha, Nat.div_eq_of_lt (by omega)]
    rfl
  rw [this, Nat.mul_comm]

theorem align_up_add_of_dvd (r m a : Nat) (hr1 : 0 < r) (hr2 : r ≤ a) (h : a ∣ m) :
    align_up (r + m) a = m + a := by
  obtain ⟨q, rfl⟩ := h
  have ha : 0 < a := by omega
  unfold align_up
  have : (r + a * q + a - 1) / a = q + 1 := by
    have e : r + a * q + a - 1 = (r - 1) + a * (q + 1) := by
      rw [Nat.mul_add, Nat.mul_one]; omega
    rw [e, Nat.add_mul_div_left _ _ ha, Nat.div_eq_of_lt (by omega)]
    omega
  rw [this, Nat.add_mul, Nat.one_mul, Nat.mul_comm]

theorem sizeof_elem_t_of_aligned (D : Nat) (hD : D % 4 = 0) : sizeof_elem_t D = elem_size D := by
  unfold sizeof_elem_t elem_size
  apply align_up_of_dvd _ _ (by decide)
  unfold sizeof_head_t alignof_head_t
  omega

/-- C13 (slot indexing), as amended. `take(c)` is the data pointer of slot `c mod 256`, so
`take(c + 256)` and `take(c)` agree, also when `c + 256` wraps at `2^16`, and the slot of the
successor cursor `(c + 1) mod 2^16` is the successor slot modulo 256. When `DataSize` is a
multiple of the header alignment 4, the data areas of the slots `k` and `k + 1` lie
`elem_size = sizeof(head_t) + DataSize` bytes apart; for `DataSize = 12` that is
`take(2) - take(1) = 16 = elem_size`. -/
theorem take_slot_indexing {α : Type} (ca : elem_array α) (abi : abi_t) (D base : Nat)
    (hD : D % alignof_head_t = 0) :
    (∀ c : Nat, ca.take c = data_of (c % elem_max) ∧ ca.take (c % 65536) = ca.take c ∧
      ca.take ((c + 256) % 65536) = ca.take c ∧
      index_of ((c + 1) % 65536) = (index_of c + 1) % elem_max) ∧
      (∀ k : Nat, k + 1 < elem_max →
        address abi D base (ca.take (k + 1)) = address abi D base (ca.take k) + elem_size D) ∧
      address abi 12 base (ca.take 2) - address abi 12 base (ca.take 1) = elem_size 12 := by
  have hs := sizeof_elem_t_of_aligned D (by unfold alignof_head_t at hD; exact hD)
  have hs12 := sizeof_elem_t_of_aligned 12 (by decide)
  refine ⟨fun c => ⟨rfl, ?_, ?_, ?_⟩, fun k hk => ?_, ?_⟩
  · simp only [elem_array.take, index_of]; congr 1; omega
  · simp only [elem_array.take, index_of]; congr 1; omega
  · simp only [index_of, elem_max]; omega
  · unfold elem_max at hk
    have h1 : (k + 1) % 256 = k + 1 := Nat.mod_eq_of_lt hk
    have h2 : k % 256 = k := Nat.mod_eq_of_lt (by omega)
    simp only [address, elem_array.take, index_of, data_of, h1, h2, hs]
    rw [Nat.add_mul]; omega
  · simp only [address, elem_array.take, index_of, data_of, hs12]
    omega

end circ

namespace test_cq

/-- Witness for C13: the ring of the test, `elem_array<12>`, at address 4096. -/
theorem take_slot_indexing_witness :
    (∀ c : Nat, fresh.take c = circ.data_of (c % circ.elem_max) ∧
      fresh.take (c % 65536) = fresh.take c ∧
      fresh.take ((c + 256) % 65536) = fresh.take c ∧
      circ.index_of ((c + 1) % 65536) = (circ.index_of c + 1) % circ.elem_max) ∧
      (∀ k : Nat, k + 1 < circ.elem_max →
        circ.address circ.abi_lp64 12 4096 (fresh.take (k + 1)) =
          circ.address circ.abi_lp64 12 4096 (fresh.take k) + circ.elem_size 12) ∧
      circ.address circ.abi_lp64 12 4096 (fresh.take 2) -
        circ.address circ.abi_lp64 12 4096 (fresh.take 1) = circ.elem_size 12 :=
  circ.take_slot_indexing fresh circ.abi_lp64 12 4096 (by decide)

/-- Counterexample for C13 as stated: in `elem_array<1>` a slot takes 8 bytes, the header,
one payload byte and three bytes of padding, so the data areas of slots 1 and 2 lie 8 bytes
apart while `elem_size` is 5. -/
theorem take_slot_indexing_counterexample :
    circ.address circ.abi_lp64 1 4096 (fresh.take 2) -
        circ.address circ.abi_lp64 1 4096 (fresh.take 1) = 8 ∧
      circ.elem_size 1 = 5 := by
  decide

end test_cq

namespace circ

theorem round_to_max_align_eq (n a : Nat) (ha : 0 < a) :
    round_to_max_align n a = (n + a - 1) / a * a := by
  unfold round_to_max_align
  have hdm := Nat.div_add_mod n a
  by_cases h : n % a = 0
  · rw [if_neg (by simpa using h)]
    have hd : a ∣ n := Nat.dvd_of_mod_eq_zero h
    exact (align_up_of_dvd n a ha hd).symm
  · rw [if_pos h]
    congr 1
    have hlt := Nat.mod_lt n ha
    have hpos : 0 < n % a := Nat.pos_of_ne_zero h
    have e : n + a - 1 = (n % a - 1) + a * (n / a + 1) := by
      rw [Nat.mul_add, Nat.mul_one]
      generalize a * (n / a) = p at hdm ⊢
      generalize n % a = r at hdm hlt hpos ⊢
      omega
    have h1 : n % a - 1 < a := Nat.lt_of_le_of_lt (Nat.sub_le _ _) hlt
    rw [e, Nat.add_mul_div_left _ _ ha, Nat.div_eq_of_lt h1, Nat.zero_add]

theorem round_to_max_align_least (n a : Nat) (ha : 0 < a) :
    a ∣ round_to_max_align n a ∧ n ≤ round_to_max_align n a ∧
      ∀ m, a ∣ m → n ≤ m → round_to_max_align n a ≤ m := by
  unfold round_to_max_align
  have hdm := Nat.div_add_mod n a
  have hlt := Nat.mod_lt n ha
  by_cases h : n % a = 0
  · rw [if_neg (by simpa using h)]
    exact ⟨Nat.dvd_of_mod_eq_zero h, Nat.le_refl _, fun m _ hm => hm⟩
  · rw [if_pos h]
    refine ⟨Dvd.intro_left _ rfl, ?_, ?_⟩
    · rw [Nat.add_mul, Nat.one_mul, Nat.mul_comm (n / a) a]
      generalize a * (n / a) = p at hdm ⊢
      generalize n % a = r at hdm hlt ⊢
      omega
    · rintro m ⟨q, rfl⟩ hm
      rw [Nat.mul_comm]
      apply Nat.mul_le_mul_left
      by_contra hq
      have hq2 : q ≤ n / a := by omega
      have hpos : 0 < n % a := Nat.pos_of_ne_zero h
      have := Nat.mul_le_mul_left a hq2
      generalize a * (n / a) = p at hdm this
      generalize a * q = p2 at hm this
      generalize n % a = r at hdm hlt hpos
      omega

theorem sizeof_elem_array_head_eq (abi : abi_t) (h4 : 4 ≤ abi.max_align) :
    sizeof_elem_array_head abi = abi.max_align := by
  unfold sizeof_elem_array_head
  have := align_up_add_of_dvd 4 0 abi.max_align (by omega) h4 (Nat.dvd_zero _)
  simpa using this

theorem head_size_eq (abi : abi_t) (h4 : 4 ≤ abi.max_align) : head_size abi = abi.max_align := by
  unfold head_size elem_array_head_size
  rw [sizeof_elem_array_head_eq abi h4, round_to_max_align_eq _ _ (by omega)]
  exact align_up_of_dvd _ _ (by omega) (Nat.dvd_refl _)

/-- C14 (region layout), as amended. `head_size` is `ceil(sizeof(header) / max_align) *
max_align`, the least multiple of `max_align` that is not below the size of the array header.
When `DataSize` is a multiple of the slot header alignment 4 (and `max_align` is one of 4, 8,
..., 1024), the size of the ring object is `head_size + 256 * (sizeof(head_t) + DataSize)`;
for `DataSize = 12` that is `sizeof(elem_array<12>) = block_size + head_size`. -/
theorem region_layout (abi : abi_t) (D : Nat) (h4 : 4 ≤ abi.max_align)
    (hA : abi.max_align ∣ 1024) (hD : D % alignof_head_t = 0) :
    head_size abi =
        (sizeof_elem_array_head abi + abi.max_align - 1) / abi.max_align * abi.max_align ∧
      (abi.max_align ∣ head_size abi ∧ sizeof_elem_array_head abi ≤ head_size abi ∧
        ∀ m, abi.max_align ∣ m → sizeof_elem_array_head abi ≤ m → head_size abi ≤ m) ∧
      sizeof_elem_array abi D = head_size abi + elem_max * (sizeof_head_t + D) ∧
      sizeof_elem_array abi 12 = block_size 12 + head_size abi := by
  have ha : 0 < abi.max_align := by omega
  have key : ∀ E : Nat, E % 4 = 0 →
      sizeof_elem_array abi E = head_size abi + elem_max * (sizeof_head_t + E) := by
    intro E hE
    have hs := sizeof_elem_t_of_aligned E hE
    have hdvd : abi.max_align ∣ elem_max * (sizeof_head_t + E) := by
      apply Dvd.dvd.trans hA
      unfold elem_max sizeof_head_t
      exact ⟨(4 + E) / 4, by omega⟩
    unfold sizeof_elem_array offsetof_block
    rw [hs, head_size_eq abi h4]
    unfold elem_size
    by_cases ht : abi.tail_reuse = true
    · rw [if_pos ht]
      have h44 : align_up (2 + 2) alignof_head_t = 4 := by decide
      rw [h44, align_up_add_of_dvd 4 _ _ (by omega) h4 hdvd]
      omega
    · rw [if_neg ht, sizeof_elem_array_head_eq abi h4,
        align_up_of_dvd _ _ ha (Dvd.dvd.add (Nat.dvd_refl _) hdvd)]
  refine ⟨?_, ?_, key D (by unfold alignof_head_t at hD; exact hD), ?_⟩
  · unfold head_size elem_array_head_size
    exact round_to_max_align_eq _ _ ha
  · unfold head_size elem_array_head_size
    exact round_to_max_align_least _ _ ha
  · rw [key 12 (by decide)]
    unfold block_size elem_size
    rw [Nat.mul_comm, Nat.add_comm]

/-- Witness for C14: `elem_array<12>` under the common 64-bit ABI has
`16 + 256 * (4 + 12) = 4112` bytes. -/
theorem region_layout_witness :
    sizeof_elem_array abi_lp64 12 = head_size abi_lp64 + elem_max * (sizeof_head_t + 12) ∧
      sizeof_elem_array abi_lp64 12 = block_size 12 + head_size abi_lp64 ∧
      sizeof_elem_array abi_lp64 12 = 4112 :=
  ⟨(region_layout abi_lp64 12 (by decide) (by decide) (by decide)).2.2.1,
    (region_layout abi_lp64 12 (by decide) (by decide) (by decide)).2.2.2, by decide⟩

/-- Counterexample for C14 as stated: `elem_array<1>` has 8-byte slots, so the ring object
has `16 + 256 * 8 = 2064` bytes, with and without reuse of the tail padding, while
`head_size + 256 * (sizeof(head_t) + 1)` is `1296`. -/
theorem region_layout_counterexample :
    sizeof_elem_array abi_lp64 1 = 2064 ∧
      sizeof_elem_array { max_align := 16, tail_reuse := false } 1 = 2064 ∧
      head_size abi_lp64 + elem_max * (sizeof_head_t + 1) = 1296 := by
  decide

end circ

/-! ## Properties of the ring with several producers: `commit` -/

namespace circ_multi

theorem commit_try_ok {α : Type} (wi el : Nat) (fails : List Bool) (ca : elem_array α)
    (hf : ∀ f ∈ fails, f = false) :
    commit_try wi el fails ca =
      (decide (index_of ca.cr_ ≠ wi), true, fails.tail,
        { set_wf ca el (decide (index_of ca.cr_ ≠ wi)) with
          cr_ := if decide (index_of ca.cr_ ≠ wi) = true then ca.cr_ else (ca.cr_ + 1) % 65536 }) := by
  cases fails with
  | nil =>
    simp [commit_try, elem_array.cas_cr, set_wf]
  | cons f rest =>
    have hf0 : f = false := hf f (List.mem_cons_self _ _)
    subst hf0
    simp [commit_try, elem_array.cas_cr, set_wf]

theorem wf_set_wf {α : Type} (ca : elem_array α) (i j : Nat) (v : Bool) :
    (set_wf ca i v).wf j = if j = i then v else ca.wf j := by
  unfold set_wf elem_array.wf
  dsimp only
  split
  · rename_i h; subst h; rfl
  · rfl

theorem same_but_commit_refl {α : Type} (ca : elem_array α) : same_but_commit ca ca :=
  ⟨rfl, rfl, fun _ => ⟨rfl, rfl, rfl⟩⟩

theorem same_but_commit_trans {α : Type} (a b c : elem_array α) (h1 : same_but_commit a b)
    (h2 : same_but_commit b c) : same_but_commit a c :=
  ⟨h2.1.trans h1.1, h2.2.1.trans h1.2.1, fun j =>
    ⟨(h2.2.2 j).1.trans (h1.2.2 j).1, (h2.2.2 j).2.1.trans (h1.2.2 j).2.1,
      (h2.2.2 j).2.2.trans (h1.2.2 j).2.2⟩⟩

theorem same_but_commit_set_wf {α : Type} (ca : elem_array α) (i : Nat) (v : Bool) (c : Nat) :
    same_but_commit ca { set_wf ca i v with cr_ := c } := by
  refine ⟨rfl, rfl, fun j => ?_⟩
  unfold set_wf
  dsimp only
  split
  · rename_i h; subst h; exact ⟨rfl, rfl, rfl⟩
  · exact ⟨rfl, rfl, rfl⟩

/-- The ring after one round of the walk over slot `wi`: its flag is cleared, the cursor is one
further, and the flag of the next slot has been exchanged to false. -/
theorem commit_walk_step {α : Type} (n wi : Nat) (fails : List Bool) (ca : elem_array α)
    (hf : ∀ f ∈ fails, f = false) (hidx : index_of ca.cr_ = wi) :
    commit_walk (n + 1) wi wi fails ca =
      if ca.wf ((wi + 1) % 256) = true ∧ (wi + 1) % 256 ≠ wi then
        commit_walk n ((wi + 1) % 256) ((wi + 1) % 256) fails.tail
          (set_wf { set_wf ca wi false with cr_ := (ca.cr_ + 1) % 65536 } ((wi + 1) % 256) false)
      else
        some
          (set_wf { set_wf ca wi false with cr_ := (ca.cr_ + 1) % 65536 } ((wi + 1) % 256) false) := by
  rw [commit_walk, commit_try_ok wi wi fails ca hf]
  have hd : decide (index_of ca.cr_ ≠ wi) = false := by simp [hidx]
  simp only [hd]
  have hwf : ((set_wf ca wi false).block_ ((wi + 1) % 256)).head_.wf_ =
      if (wi + 1) % 256 = wi then false else ca.wf ((wi + 1) % 256) :=
    wf_set_wf ca wi ((wi + 1) % 256) false
  simp only [hwf, Bool.false_eq_true, if_false, or_self]
  by_cases h1 : (wi + 1) % 256 = wi
  · simp [h1]
  · by_cases h2 : ca.wf ((wi + 1) % 256) = true
    · simp [h1, h2]
    · simp [h1, h2]

theorem wf_after_step {α : Type} (ca : elem_array α) (wi c j : Nat) :
    (set_wf { set_wf ca wi false with cr_ := c } ((wi + 1) % 256) false).wf j =
      if j = (wi + 1) % 256 ∨ j = wi then false else ca.wf j := by
  rw [wf_set_wf]
  have h : ({ set_wf ca wi false with cr_ := c } : elem_array α).wf j = (set_wf ca wi false).wf j :=
    rfl
  rw [h, wf_set_wf]
  by_cases h1 : j = (wi + 1) % 256
  · simp [h1]
  · by_cases h2 : j = wi
    · simp [h1, h2]
    · simp [h1, h2]

theorem same_after_step {α : Type} (ca : elem_array α) (wi c : Nat) :
    same_but_commit ca (set_wf { set_wf ca wi false with cr_ := c } ((wi + 1) % 256) false) :=
  same_but_commit_trans _ _ _ (same_but_commit_set_wf ca wi false c)
    (same_but_commit_set_wf { set_wf ca wi false with cr_ := c } ((wi + 1) % 256) false c)

/-- The walk of `commit` from the slot the commit cursor stands at: with the write flags of the
`k` slots behind `wi` set and the walk stopped behind them, the cursor advances by `1 + k` and
the flags of `wi` and of those `k` slots are cleared. -/
theorem commit_walk_advance {α : Type} :
    ∀ (k fuel wi : Nat) (fails : List Bool) (ca : elem_array α),
      (∀ f ∈ fails, f = false) → k < fuel → k ≤ 255 → wi < 256 → index_of ca.cr_ = wi →
      (∀ i, 1 ≤ i → i ≤ k → ca.wf ((wi + i) % 256) = true) →
      ((wi + k + 1) % 256 = wi ∨ ca.wf ((wi + k + 1) % 256) = false) →
      ∃ ca1, commit_walk fuel wi wi fails ca = some ca1 ∧
        ca1.cr_ = (ca.cr_ + 1 + k) % 65536 ∧ same_but_commit ca ca1 ∧
        ∀ j, ca1.wf j = if j < 256 ∧ (j + 256 - wi) % 256 ≤ k then false else ca.wf j := by
  intro k
  induction k with
  | zero =>
    intro fuel wi fails ca hf hfuel _ hwi hidx _ hstop
    obtain ⟨n, rfl⟩ : ∃ n, fuel = n + 1 := ⟨fuel - 1, by omega⟩
    rw [commit_walk_step n wi fails ca hf hidx]
    have hne : (wi + 1) % 256 ≠ wi := by omega
    have hfalse : ca.wf ((wi + 1) % 256) = false := by
      rcases hstop with h | h
      · exact absurd h hne
      · exact h
    rw [if_neg (by simp [hfalse])]
    refine ⟨_, rfl, rfl, same_after_step ca wi _, fun j => ?_⟩
    rw [wf_after_step]
    by_cases h1 : j = (wi + 1) % 256
    · subst h1
      rw [if_pos (Or.inl rfl), hfalse]
      simp
    · by_cases h2 : j = wi
      · subst h2
        rw [if_pos (Or.inr rfl), if_pos ⟨hwi, by omega⟩]
      · rw [if_neg (by simp [h1, h2]), if_neg (by omega)]
  | succ k ih =>
    intro fuel wi fails ca hf hfuel hk hwi hidx hset hstop
    obtain ⟨n, rfl⟩ : ∃ n, fuel = n + 1 := ⟨fuel - 1, by omega⟩
    rw [commit_walk_step n wi fails ca hf hidx]
    have hne : (wi + 1) % 256 ≠ wi := by omega
    have htrue : ca.wf ((wi + 1) % 256) = true := hset 1 (Nat.le_refl _) (by omega)
    rw [if_pos ⟨htrue, hne⟩]
    have hf2 : ∀ f ∈ fails.tail, f = false := fun f h => hf f (List.mem_of_mem_tail h)
    have hidx2 : index_of
        (set_wf { set_wf ca wi false with cr_ := (ca.cr_ + 1) % 65536 }
          ((wi + 1) % 256) false).cr_ = (wi + 1) % 256 := by
      show index_of ((ca.cr_ + 1) % 65536) = (wi + 1) % 256
      unfold index_of at hidx ⊢
      omega
    obtain ⟨ca1, h1, h2, h3, h4⟩ := ih n ((wi + 1) % 256) fails.tail
      (set_wf { set_wf ca wi false with cr_ := (ca.cr_ + 1) % 65536 } ((wi + 1) % 256) false)
      hf2 (by omega) (by omega) (by omega) hidx2
      (by
        intro i hi1 hi2
        rw [wf_after_step, if_neg (by omega)]
        have := hset (i + 1) (by omega) (by omega)
        rw [show ((wi + 1) % 256 + i) % 256 = (wi + (i + 1)) % 256 by omega]
        exact this)
      (by
        rw [wf_after_step]
        rcases hstop with h | h
        · right
          rw [if_pos (by omega)]
        · right
          rw [show ((wi + 1) % 256 + k + 1) % 256 = (wi + (k + 1) + 1) % 256 by omega, h]
          simp)
    refine ⟨ca1, h1, ?_, same_but_commit_trans _ _ _ (same_after_step ca wi _) h3, fun j => ?_⟩
    · rw [h2]
      show ((ca.cr_ + 1) % 65536 + 1 + k) % 65536 = (ca.cr_ + 1 + (k + 1)) % 65536
      omega
    · rw [h4 j, wf_after_step]
      by_cases hj : j < 256
      · by_cases hd : (j + 256 - (wi + 1) % 256) % 256 ≤ k
        · rw [if_pos ⟨hj, hd⟩, if_pos ⟨hj, by omega⟩]
        · rw [if_neg (by simp [hj, hd])]
          by_cases hw : j = (wi + 1) % 256 ∨ j = wi
          · rw [if_pos hw, if_pos ⟨hj, by omega⟩]
          · rw [if_neg hw, if_neg (by omega)]
      · rw [if_neg (by simp [hj]), if_neg (by omega), if_neg (by simp [hj])]

theorem run_len_spec (wf : Nat → Bool) :
    ∀ (n wi : Nat), run_len wf wi n ≤ n ∧
      (∀ i, 1 ≤ i → i ≤ run_len wf wi n → wf ((wi + i) % 256) = true) ∧
      (run_len wf wi n < n → wf ((wi + run_len wf wi n + 1) % 256) = false) := by
  intro n
  induction n with
  | zero =>
    intro wi
    refine ⟨Nat.le_refl _, fun i h1 h2 => ?_, fun h => ?_⟩
    · simp only [run_len] at h2; omega
    · simp only [run_len] at h; omega
  | succ n ih =>
    intro wi
    by_cases h : wf ((wi + 1) % 256) = true
    · have e : run_len wf wi (n + 1) = 1 + run_len wf ((wi + 1) % 256) n := by
        rw [run_len, if_pos h]
      obtain ⟨a, b, c⟩ := ih ((wi + 1) % 256)
      rw [e]
      refine ⟨by omega, fun i h1 h2 => ?_, fun hlt => ?_⟩
      · by_cases hi : i = 1
        · subst hi; exact h
        · have := b (i - 1) (by omega) (by omega)
          rw [show ((wi + 1) % 256 + (i - 1)) % 256 = (wi + i) % 256 by omega] at this
          exact this
      · have := c (by omega)
        rw [show ((wi + 1) % 256 + run_len wf ((wi + 1) % 256) n + 1) % 256 =
          (wi + (1 + run_len wf ((wi + 1) % 256) n) + 1) % 256 by omega] at this
        exact this
    · have e : run_len wf wi (n + 1) = 0 := by rw [run_len, if_neg h]
      rw [e]
      refine ⟨by omega, fun i h1 h2 => by omega, fun _ => ?_⟩
      simpa using h

theorem commit_other {α : Type} (ca : elem_array α) (wi fuel : Nat) (fails : List Bool)
    (hwi : wi < 256) (hfuel : 1 ≤ fuel) (hf : ∀ f ∈ fails, f = false)
    (hne : wi ≠ index_of ca.cr_) :
    ca.commit fuel fails (data_of wi) = some (set_wf ca wi true) := by
  obtain ⟨n, rfl⟩ : ∃ n, fuel = n + 1 := ⟨fuel - 1, by omega⟩
  have h1 : index_of_elem (elem_of (data_of wi)) = wi := by
    simp only [index_of_elem, elem_of, data_of]; omega
  have h2 : (elem_of (data_of wi)).slot = wi := rfl
  unfold elem_array.commit
  rw [h1, h2, commit_walk, commit_try_ok wi wi fails ca hf]
  have hd : decide (index_of ca.cr_ ≠ wi) = true := by simp [Ne.symm hne]
  simp only [hd, if_true, true_or]
  rfl

theorem commit_current {α : Type} (ca : elem_array α) (wi fuel : Nat) (fails : List Bool)
    (hwi : wi < 256) (hfuel : 256 ≤ fuel) (hf : ∀ f ∈ fails, f = false)
    (he : wi = index_of ca.cr_) :
    ∃ ca1, ca.commit fuel fails (data_of wi) = some ca1 ∧
      ca1.cr_ = (ca.cr_ + 1 + run_len ca.wf wi 255) % 65536 ∧ same_but_commit ca ca1 ∧
      ∀ j, ca1.wf j =
        if j < 256 ∧ (j + 256 - wi) % 256 ≤ run_len ca.wf wi 255 then false else ca.wf j := by
  have h1 : index_of_elem (elem_of (data_of wi)) = wi := by
    simp only [index_of_elem, elem_of, data_of]; omega
  have h2 : (elem_of (data_of wi)).slot = wi := rfl
  obtain ⟨a, b, c⟩ := run_len_spec ca.wf 255 wi
  unfold elem_array.commit
  rw [h1, h2]
  apply commit_walk_advance (run_len ca.wf wi 255) fuel wi fails ca hf (by omega) a hwi he.symm b
  by_cases hk : run_len ca.wf wi 255 < 255
  · exact Or.inr (c hk)
  · left
    have : run_len ca.wf wi 255 = 255 := by omega
    rw [this]; omega

theorem commit_flags {α : Type} (ca : elem_array α) (wi : Nat) (hwi : wi < 256)
    (hcr : ca.cr_ < 65536) :
    ∃ ca1, ca.commit 256 [] (data_of wi) = some ca1 ∧ ca1.cr_ < 65536 ∧
      (∀ j, ca1.wf j = true → ca.wf j = true ∨ j = wi) ∧
      ∃ m, m ≤ 256 ∧ ca1.cr_ = (ca.cr_ + m) % 65536 ∧
        ∀ i, i < m → index_of (ca.cr_ + i) = wi ∨ ca.wf (index_of (ca.cr_ + i)) = true := by
  by_cases he : wi = index_of ca.cr_
  · obtain ⟨ca1, h1, h2, _, h4⟩ := commit_current ca wi 256 [] hwi (by omega) (by simp) he
    obtain ⟨a, b, _⟩ := run_len_spec ca.wf 255 wi
    refine ⟨ca1, h1, by rw [h2]; omega, fun j hj => ?_, 1 + run_len ca.wf wi 255,
      by omega, by rw [h2, Nat.add_assoc], fun i hi => ?_⟩
    · rw [h4 j] at hj
      split at hj
      · cases hj
      · exact Or.inl hj
    · by_cases hi0 : i = 0
      · subst hi0; left; rw [he]; rfl
      · right
        have := b i (by omega) (by omega)
        rw [show index_of (ca.cr_ + i) = (wi + i) % 256 by
          unfold index_of at he ⊢; omega]
        exact this
  · refine ⟨set_wf ca wi true, commit_other ca wi 256 [] hwi (by omega) (by simp) he, hcr,
      fun j hj => ?_, 0, by omega, ?_, fun i hi => by omega⟩
    · rw [wf_set_wf] at hj
      by_cases hjw : j = wi
      · exact Or.inr hjw
      · rw [if_neg hjw] at hj; exact Or.inl hj
    · show ca.cr_ = (ca.cr_ + 0) % 65536
      omega

theorem commit_all_flags {α : Type} :
    ∀ (ws : List Nat) (P : Nat → Prop) (ca : elem_array α), (∀ w ∈ ws, w < 256) →
      ca.cr_ < 65536 → (∀ j, ca.wf j = true → P j) →
      ∃ ca2, commit_all ws ca = some ca2 ∧ ca2.cr_ < 65536 ∧
        ∀ j, ca2.wf j = true → P j ∨ j ∈ ws := by
  intro ws
  induction ws with
  | nil => intro P ca _ hcr hP; exact ⟨ca, rfl, hcr, fun j hj => Or.inl (hP j hj)⟩
  | cons w ws ih =>
    intro P ca hws hcr hP
    obtain ⟨ca1, h1, h2, h3, _⟩ := commit_flags ca w (hws w (List.mem_cons_self _ _)) hcr
    obtain ⟨ca2, g1, g2, g3⟩ := ih (fun j => P j ∨ j = w) ca1
      (fun x hx => hws x (List.mem_cons_of_mem _ hx)) h2
      (fun j hj => by
        rcases h3 j hj with h | h
        · exact Or.inl (hP j h)
        · exact Or.inr h)
    refine ⟨ca2, ?_, g2, fun j hj => ?_⟩
    · simp only [commit_all, h1]; exact g1
    · rcases g3 j hj with (h | h) | h
      · exact Or.inl h
      · exact Or.inr (by rw [h]; exact List.mem_cons_self _ _)
      · exact Or.inr (List.mem_cons_of_mem _ h)

/-- What `commit` does when no compare-exchange fails spuriously. A call of `commit` for slot
`wi`, run to its end with no other thread in between, returns. When `wi` is not the slot the
commit cursor `cr_` stands at, `cr_` is unchanged and the write flag of `wi` is set. When it
is, `cr_` advances by `1 + k` modulo `2^16`, where `k` is the number of consecutive slots
behind `wi`, cyclically, whose write flag was set, `k ≤ 255`, and the write flags of `wi` and
of those `k` slots are cleared. Nothing else in the ring changes. Hence, on a ring that started
zeroed, every slot the cursor moves past in such a call has been committed, by this call or by
an earlier one, and the slots passed are consecutive. -/
theorem commit_in_order {α : Type} (ca : elem_array α) (wi fuel : Nat) (fails : List Bool)
    (hwi : wi < 256) (hfuel : 256 ≤ fuel) (hf : ∀ f ∈ fails, f = false) :
    (wi ≠ index_of ca.cr_ →
      ∃ ca1, ca.commit fuel fails (data_of wi) = some ca1 ∧ ca1.cr_ = ca.cr_ ∧
        same_but_commit ca ca1 ∧ ∀ j, ca1.wf j = if j = wi then true else ca.wf j) ∧
      (wi = index_of ca.cr_ →
        ∃ ca1, ca.commit fuel fails (data_of wi) = some ca1 ∧
          run_len ca.wf wi 255 ≤ 255 ∧
          ca1.cr_ = (ca.cr_ + 1 + run_len ca.wf wi 255) % 65536 ∧ same_but_commit ca ca1 ∧
          (∀ i, 1 ≤ i → i ≤ run_len ca.wf wi 255 → ca.wf ((wi + i) % 256) = true) ∧
          (run_len ca.wf wi 255 < 255 →
            ca.wf ((wi + run_len ca.wf wi 255 + 1) % 256) = false) ∧
          ∀ j, ca1.wf j =
            if j < 256 ∧ (j + 256 - wi) % 256 ≤ run_len ca.wf wi 255 then false
            else ca.wf j) ∧
      (∀ (d : α) (ws : List Nat) (w : Nat), (∀ x ∈ ws, x < 256) → w < 256 →
        ∃ ca2 ca3, commit_all ws (zeroed d) = some ca2 ∧
          ca2.commit 256 [] (data_of w) = some ca3 ∧
          ∃ m, m ≤ 256 ∧ ca3.cr_ = (ca2.cr_ + m) % 65536 ∧
            ∀ i, i < m → index_of (ca2.cr_ + i) ∈ w :: ws) := by
  refine ⟨fun hne => ?_, fun he => ?_, fun d ws w hws hw => ?_⟩
  · refine ⟨set_wf ca wi true, commit_other ca wi fuel fails hwi (by omega) hf hne, rfl,
      same_but_commit_set_wf ca wi true ca.cr_, fun j => wf_set_wf ca wi j true⟩
  · obtain ⟨ca1, h1, h2, h3, h4⟩ := commit_current ca wi fuel fails hwi hfuel hf he
    obtain ⟨a, b, c⟩ := run_len_spec ca.wf 255 wi
    exact ⟨ca1, h1, a, h2, h3, b, c, h4⟩
  · obtain ⟨ca2, g1, g2, g3⟩ := commit_all_flags ws (fun _ => False) (zeroed d) hws
      (by show (0 : Nat) < 65536; omega) (fun j hj => by cases hj)
    obtain ⟨ca3, h1, _, _, m, hm1, hm2, hm3⟩ := commit_flags ca2 w hw g2
    refine ⟨ca2, ca3, g1, h1, m, hm1, hm2, fun i hi => ?_⟩
    rcases hm3 i hi with h | h
    · rw [h]; exact List.mem_cons_self _ _
    · rcases g3 _ h with h5 | h5
      · exact absurd h5 (fun x => x)
      · exact List.mem_cons_of_mem _ h5

/-- On a ring whose cursor stands at slot 0 and whose slots 1 and 2 have their write flag set,
the commit of slot 0 without a spurious failure advances the cursor by 3. -/
theorem commit_in_order_witness :
    run_len (set_wf (set_wf (zeroed (0 : Nat)) 1 true) 2 true).wf 0 255 = 2 ∧
      ∃ ca1, (set_wf (set_wf (zeroed (0 : Nat)) 1 true) 2 true).commit 256 [] (data_of 0) =
          some ca1 ∧
        ca1.cr_ =
          ((set_wf (set_wf (zeroed (0 : Nat)) 1 true) 2 true).cr_ + 1 +
            run_len (set_wf (set_wf (zeroed (0 : Nat)) 1 true) 2 true).wf 0 255) % 65536 ∧
        ∀ j, ca1.wf j =
          if j < 256 ∧ (j + 256 - 0) % 256 ≤
              run_len (set_wf (set_wf (zeroed (0 : Nat)) 1 true) 2 true).wf 0 255 then false
          else (set_wf (set_wf (zeroed (0 : Nat)) 1 true) 2 true).wf j := by
  refine ⟨by decide, ?_⟩
  obtain ⟨ca1, h1, _, h2, _, _, _, h3⟩ :=
    (commit_in_order (set_wf (set_wf (zeroed (0 : Nat)) 1 true) 2 true) 0 256 []
      (by decide) (by decide) (by simp)).2.1 rfl
  exact ⟨ca1, h1, h2, h3⟩

/-- What a spurious failure does: when the compare-exchange of the committing call fails
spuriously on the slot the cursor stands at, the call returns with the cursor where it was
and the write flag of the slot cleared. -/
theorem commit_spurious_failure :
    ((zeroed (0 : Nat)).commit 256 [true] (data_of 0)).map (fun ca => (ca.cr_, ca.wf 0)) =
      some (0, false) := by
  decide

theorem commit_all_others {α : Type} (c : Nat) :
    ∀ (ws : List Nat) (ca : elem_array α), ca.cr_ = c → (∀ w ∈ ws, w < 256 ∧ w ≠ index_of c) →
      ∃ ca2, commit_all ws ca = some ca2 ∧ ca2.cr_ = c ∧
        ∀ j, ca2.wf j = if j ∈ ws then true else ca.wf j := by
  intro ws
  induction ws with
  | nil => intro ca hc _; exact ⟨ca, rfl, hc, fun j => by simp⟩
  | cons w ws ih =>
    intro ca hc hws
    have hw := hws w (List.mem_cons_self _ _)
    have h1 := commit_other ca w 256 [] hw.1 (by omega) (by simp) (by rw [hc]; exact hw.2)
    obtain ⟨ca2, g1, g2, g3⟩ := ih (set_wf ca w true) hc
      (fun x hx => hws x (List.mem_cons_of_mem _ hx))
    refine ⟨ca2, ?_, g2, fun j => ?_⟩
    · simp only [commit_all, h1]; exact g1
    · rw [g3 j, wf_set_wf]
      by_cases hj : j = w
      · subst hj; simp
      · simp [hj]

/-- C15 (in-order commit with several producers, code defect). `commit` is called for the slot
`wi` the commit cursor `cr_` stands at, with no other thread in between, and its
`compare_exchange_weak` fails spuriously, which C++ allows the weak form to do at any call.
Then the call returns at once: `cr_` is where it was, not advanced by `1 + k`, and the write
flag of `wi` is cleared, so that nothing in the ring records the commit. The commits of any
other slots that follow only set their write flags: the cursor stays where it was. -/
theorem commit_lost_on_spurious_failure {α : Type} (ca : elem_array α) (wi fuel : Nat)
    (rest : List Bool) (ws : List Nat) (hwi : wi < 256) (hfuel : 1 ≤ fuel)
    (he : wi = index_of ca.cr_) (hws : ∀ w ∈ ws, w < 256 ∧ w ≠ wi) :
    ca.commit fuel (true :: rest) (data_of wi) = some (set_wf ca wi false) ∧
      (set_wf ca wi false).cr_ = ca.cr_ ∧
      (∀ j, (set_wf ca wi false).wf j = if j = wi then false else ca.wf j) ∧
      ∃ ca2, commit_all ws (set_wf ca wi false) = some ca2 ∧ ca2.cr_ = ca.cr_ ∧
        ∀ w ∈ ws, ca2.wf w = true := by
  obtain ⟨n, rfl⟩ : ∃ n, fuel = n + 1 := ⟨fuel - 1, by omega⟩
  have h1 : index_of_elem (elem_of (data_of wi)) = wi := by
    simp only [index_of_elem, elem_of, data_of]; omega
  have h2 : (elem_of (data_of wi)).slot = wi := rfl
  refine ⟨?_, rfl, fun j => wf_set_wf ca wi j false, ?_⟩
  · unfold elem_array.commit
    rw [h1, h2, commit_walk]
    simp [commit_try, elem_array.cas_cr, he]
  · obtain ⟨ca2, g1, g2, g3⟩ := commit_all_others ca.cr_ ws (set_wf ca wi false) rfl
      (fun w hw => ⟨(hws w hw).1, by rw [← he]; exact (hws w hw).2⟩)
    exact ⟨ca2, g1, g2, fun w hw => by rw [g3 w, if_pos hw]⟩

/-- C15 at the failing input: a ring as the constructor leaves it, the commit of slot 0 with
one spurious failure, then the commits of the slots 1, 2 and 3. The cursor is still 0, the
write flag of slot 0 is clear and those of the slots 1, 2 and 3 are set. -/
theorem commit_lost_on_spurious_failure_witness :
    (zeroed (0 : Nat)).commit 256 [true] (data_of 0) = some (set_wf (zeroed (0 : Nat)) 0 false) ∧
      ((commit_all [1, 2, 3] (set_wf (zeroed (0 : Nat)) 0 false)).map
        (fun ca => (ca.cr_, ca.wf 0, ca.wf 1, ca.wf 2, ca.wf 3))) =
          some (0, false, true, true, true) :=
  ⟨(commit_lost_on_spurious_failure (zeroed (0 : Nat)) 0 256 [] [1, 2, 3] (by decide) (by decide)
      rfl (by decide)).1, by decide⟩

end circ_multi

/-! ## Properties of `recv`: single fragments -/

theorem mem_read_eq_take (src : List byte_t) (oob : Nat → byte_t) (n : Nat)
    (h : n ≤ src.length) : mem_read src oob n = src.take n := by
  apply List.ext_getElem
  · simp [mem_read, h]
  · intro i h1 h2
    simp only [mem_read, List.getElem_map, List.getElem_range, List.getElem_take]
    have : i < src.length := by
      simp [mem_read] at h1; omega
    simp [this]

theorem mem_read_eq_append (src : List byte_t) (oob : Nat → byte_t) (n : Nat) :
    mem_read src oob (src.length + n) = src ++ (List.range n).map oob := by
  apply List.ext_getElem
  · simp [mem_read]
  · intro i h1 h2
    simp only [mem_read, List.getElem_map, List.getElem_range]
    by_cases hi : i < src.length
    · simp [hi, List.getElem_append_left]
    · simp only [hi, dite_false]
      rw [List.getElem_append_right (by omega)]
      simp

/-- C16 (first fragment of a message, code defect). For a popped fragment with `remain > 0`,
a foreign channel tag and an id without cache entry, `recv` stores under that id an entry with
fill `data_length` and a buffer of `data_length + remain` bytes, as specified. But
`make_cache(msg.data_, remain)` copies all `data_length + remain` bytes of the buffer from the
16-byte data area: the first `data_length` bytes of the buffer are the fragment's data and the
`remain` bytes behind them are read from beyond the data area (`oob`), where the
specification has exactly `data_length` bytes copied and no byte beyond the data area read. -/
theorem recv_first_fragment_over_read (r : Nat) (oob : Nat → byte_t) (rc : recv_cache_t)
    (m : msg_t) (rest : List msg_t) (hid : m.id_ ≠ 0) (hq : m.que_ ≠ r)
    (hrem : 0 < m.remain_) (hmax : m.remain_ + 16 ≤ 2147483647)
    (hlen : m.data_.length = data_length) (hrc : rc_find rc m.id_ = none) :
    recv_loop r oob rc (m :: rest) =
      recv_loop r oob
        (rc ++ [(m.id_,
          { fill_ := data_length,
            buff_ :=
              { data := m.data_ ++ (List.range m.remain_.toNat).map oob,
                size := data_length + m.remain_.toNat } })]) rest := by
  have h1 : to_size (to_int (to_int (data_length : Int) + m.remain_)) = 16 + m.remain_.toNat := by
    have e1 : to_int (data_length : Int) = 16 := by decide
    rw [e1, to_int_eq _ (by omega) (by omega), to_size_eq _ (by omega) (by omega)]
    omega
  rw [recv_loop]
  simp only [hid, hq, if_false, hrc, h1]
  rw [if_neg (by simp [data_length]; omega)]
  simp only [rc_try_emplace, hrc, make_cache]
  have h2 := mem_read_eq_append m.data_ oob m.remain_.toNat
  rw [hlen] at h2
  simp only [data_length] at h2 ⊢
  rw [h2]

/-- Witness for C16: the first fragment of the 65-byte message of scenario S3, received by the
queue at address 8192 with an empty cache, when the bytes behind the data area are all 255:
the stored buffer has 65 bytes, and the 49 bytes behind the first 16 are copies of the bytes
behind the data area. -/
theorem recv_first_fragment_over_read_witness :
    recv_loop 8192 (fun _ => 255) [] [S3_first] =
        recv_loop 8192 (fun _ => 255)
          ([] ++ [(S3_first.id_,
            { fill_ := data_length,
              buff_ :=
                { data := S3_first.data_ ++ (List.range S3_first.remain_.toNat).map (fun _ => 255),
                  size := data_length + S3_first.remain_.toNat } })]) [] ∧
      (recv_loop 8192 (fun _ => 255) [] [S3_first]).2.1.map
          (fun e => (e.2.fill_, e.2.buff_.size, e.2.buff_.data.drop 16)) =
        [(16, 65, List.replicate 49 255)] :=
  ⟨recv_first_fragment_over_read 8192 (fun _ => 255) [] S3_first [] (by decide) (by decide)
    (by decide) (by decide) rfl rfl, by decide⟩

/-- C17 (terminator without cache entry), as amended. For a popped fragment with non-zero id,
a foreign channel tag, `-data_length ≤ remain ≤ 0` and no cache entry for its id, `recv`
returns a buffer of `data_length + remain` bytes holding the first that many bytes of the
fragment's data, and leaves the cache as it was. -/
theorem recv_terminator_without_entry (que : queue_t) (oob : Nat → byte_t) (rc : recv_cache_t)
    (m : msg_t) (rest : List msg_t) (hid : m.id_ ≠ 0) (hq : m.que_ ≠ que.addr)
    (hlo : -(data_length : Int) ≤ m.remain_) (hhi : m.remain_ ≤ 0)
    (hlen : m.data_.length = data_length) (hrc : rc_find rc m.id_ = none) :
    recv (some { que with inbox := m :: rest }) oob rc =
      (some
        { data := m.data_.take ((data_length : Int) + m.remain_).toNat,
          size := ((data_length : Int) + m.remain_).toNat },
        some { que with connected := true, inbox := rest }, rc) := by
  simp only [data_length] at hlo hlen ⊢
  have h1 : to_size (to_int (to_int ((16 : Nat) : Int) + m.remain_)) =
      (((16 : Nat) : Int) + m.remain_).toNat := by
    have e1 : to_int ((16 : Nat) : Int) = 16 := by decide
    rw [e1, to_int_eq _ (by omega) (by omega), to_size_eq _ (by omega) (by omega)]
    rfl
  have h2 : recv_loop que.addr oob rc (m :: rest) =
      (some
        { data := m.data_.take (((16 : Nat) : Int) + m.remain_).toNat,
          size := (((16 : Nat) : Int) + m.remain_).toNat }, rc, rest) := by
    rw [recv_loop]
    simp only [hid, hq, if_false, hrc, data_length, h1]
    rw [if_pos (by omega)]
    simp only [make_cache]
    rw [mem_read_eq_take _ _ _ (by omega)]
  simp only [recv, queue_t.connect, h2]

/-- Witness for C17: a terminator with `remain = -11` yields its first 5 bytes. -/
theorem recv_terminator_without_entry_witness :
    recv (some { que_b with inbox := [short_last] }) (fun _ => 0) [] =
      (some { data := [1, 2, 3, 4, 5], size := 5 },
        some { que_b with connected := true, inbox := [] }, []) :=
  recv_terminator_without_entry que_b (fun _ => 0) [] short_last [] (by decide) (by decide)
    (by decide) (by decide) rfl rfl

/-- Counterexample for C17 as stated: a fragment with `remain = -17` and no cache entry is not
treated as a terminator. `data_length + remain` is `-1`, which as `std::size_t` is
`2^64 - 1`, more than `data_length`; `recv` files the fragment under its id with a buffer of
that size and goes on polling instead of returning. -/
theorem recv_terminator_without_entry_counterexample :
    (recv (some { que_b with inbox := [low_remain] }) (fun _ => 0) []).1 = none ∧
      (recv (some { que_b with inbox := [low_remain] }) (fun _ => 0) []).2.2.map
          (fun e => (e.1, e.2.fill_, e.2.buff_.size)) =
        [(1, 16, 18446744073709551615)] := by
  decide

/-! ## Properties of the ring: the publish cycle of a slot -/

namespace circ

theorem put_frame {α : Type} (ca : elem_array α) (i : Nat) :
    (ca.put (data_of i)).cc_ = ca.cc_ ∧ (ca.put (data_of i)).wt_ = ca.wt_ ∧
      ((ca.put (data_of i)).block_ i).rc_ = ((ca.block_ i).rc_ + 4294967295) % 4294967296 ∧
      ((ca.put (data_of i)).block_ i).data_ = (ca.block_ i).data_ ∧
      ∀ j, j ≠ i → (ca.put (data_of i)).block_ j = ca.block_ j := by
  refine ⟨rfl, rfl, ?_, ?_, fun j hj => ?_⟩
  · simp [elem_array.put, set_rc, elem_of, data_of]
  · simp [elem_array.put, set_rc, elem_of, data_of]
  · simp [elem_array.put, set_rc, elem_of, data_of, hj]

theorem put_n_rc {α : Type} (i : Nat) :
    ∀ (n : Nat) (ca : elem_array α), n ≤ (ca.block_ i).rc_ → (ca.block_ i).rc_ < 4294967296 →
      ((put_n ca (data_of i) n).block_ i).rc_ = (ca.block_ i).rc_ - n ∧
      (put_n ca (data_of i) n).cc_ = ca.cc_ ∧ (put_n ca (data_of i) n).wt_ = ca.wt_ ∧
      ((put_n ca (data_of i) n).block_ i).data_ = (ca.block_ i).data_ ∧
      ∀ j, j ≠ i → (put_n ca (data_of i) n).block_ j = ca.block_ j := by
  intro n
  induction n with
  | zero => intro ca _ _; exact ⟨rfl, rfl, rfl, rfl, fun _ _ => rfl⟩
  | succ n ih =>
    intro ca h1 h2
    obtain ⟨a, b, c, d, e⟩ := put_frame ca i
    have hc : ((ca.put (data_of i)).block_ i).rc_ = (ca.block_ i).rc_ - 1 := by rw [c]; omega
    obtain ⟨a1, b1, c1, d1, e1⟩ := ih (ca.put (data_of i)) (by rw [hc]; omega) (by rw [hc]; omega)
    simp only [put_n]
    refine ⟨by rw [a1, hc]; omega, by rw [b1, a], by rw [c1, b], by rw [d1, d],
      fun j hj => by rw [e1 j hj, e j hj]⟩

/-- C18 (publish cycle of a slot). On a ring with `conn_count = C` whose slot at the write
cursor is free, `acquire` stamps that slot with `C`. After `n ≤ C` calls of `put` on the slot
its read counter is `C - n`: non-zero for every `n < C` and 0, writable again, after exactly
`C` calls. Each `put` on a slot with a non-zero counter takes the counter down by exactly one,
and a `put` changes no other slot, and neither the payload, the write cursor nor the
connection counter. -/
theorem slot_publish_cycle {α : Type} (ca : elem_array α) (fuel : Nat) (hcc : ca.cc_ < 65536)
    (hfree : (ca.block_ (index_of ca.wt_)).rc_ = 0) (hf : 1 ≤ fuel) :
    ∃ ca1, ca.acquire fuel = some (data_of (index_of ca.wt_), ca1) ∧
      (ca1.block_ (index_of ca.wt_)).rc_ = ca.conn_count ∧
      (∀ n, n ≤ ca.conn_count →
        ((put_n ca1 (data_of (index_of ca.wt_)) n).block_ (index_of ca.wt_)).rc_ =
          ca.conn_count - n) ∧
      (∀ n, n < ca.conn_count →
        ((put_n ca1 (data_of (index_of ca.wt_)) n).block_ (index_of ca.wt_)).rc_ ≠ 0) ∧
      ((put_n ca1 (data_of (index_of ca.wt_)) ca.conn_count).block_ (index_of ca.wt_)).rc_ = 0 ∧
      ∀ (ca2 : elem_array α) (i : Nat),
        (1 ≤ (ca2.block_ i).rc_ → (ca2.block_ i).rc_ < 4294967296 →
          ((ca2.put (data_of i)).block_ i).rc_ = (ca2.block_ i).rc_ - 1) ∧
        ((ca2.put (data_of i)).block_ i).data_ = (ca2.block_ i).data_ ∧
        (∀ j, j ≠ i → (ca2.put (data_of i)).block_ j = ca2.block_ j) ∧
        (ca2.put (data_of i)).cursor = ca2.cursor ∧
        (ca2.put (data_of i)).conn_count = ca2.conn_count := by
  have hacq := acquire_of_zero ca fuel hfree hf
  have hst : ((set_rc ca (index_of ca.wt_) (ca.conn_count % 4294967296)).block_
      (index_of ca.wt_)).rc_ = ca.conn_count := by
    simp only [set_rc, if_true, elem_array.conn_count]
    omega
  have key : ∀ n, n ≤ ca.conn_count →
      ((put_n (set_rc ca (index_of ca.wt_) (ca.conn_count % 4294967296))
        (data_of (index_of ca.wt_)) n).block_ (index_of ca.wt_)).rc_ = ca.conn_count - n := by
    intro n hn
    have := (put_n_rc (index_of ca.wt_) n
      (set_rc ca (index_of ca.wt_) (ca.conn_count % 4294967296))
      (by rw [hst]; exact hn) (by rw [hst]; simp only [elem_array.conn_count]; omega)).1
    rw [this, hst]
  refine ⟨_, hacq, hst, key, fun n hn => ?_, ?_, fun ca2 i => ?_⟩
  · rw [key n (by omega)]; omega
  · rw [key _ (Nat.le_refl _)]; omega
  · obtain ⟨a, b, c, d, e⟩ := put_frame ca2 i
    exact ⟨fun h1 h2 => by rw [c]; omega, d, e, b, a⟩

end circ

namespace test_cq

/-- Witness for C18: three consumers connect to a fresh ring; the slot the producer acquires
is free again after exactly three calls of `put`. -/
theorem slot_publish_cycle_witness :
    ∃ ca1, (connect (connect (connect fresh).2).2).2.acquire 1 =
        some (circ.data_of 0, ca1) ∧
      (ca1.block_ 0).rc_ = 3 ∧
      ((circ.put_n ca1 (circ.data_of 0) 1).block_ 0).rc_ ≠ 0 ∧
      ((circ.put_n ca1 (circ.data_of 0) 2).block_ 0).rc_ ≠ 0 ∧
      ((circ.put_n ca1 (circ.data_of 0) 3).block_ 0).rc_ = 0 := by
  obtain ⟨ca1, h1, h2, _, h4, h5, _⟩ :=
    circ.slot_publish_cycle (connect (connect (connect fresh).2).2).2 1 (by decide) (by decide)
      (by decide)
  exact ⟨ca1, h1, h2, h4 1 (by decide), h4 2 (by decide), h5⟩

end test_cq

/-! ## Properties of `recv`: reassembly inside the buffer, joining in mid-message -/

theorem drop_range_eq (j n : Nat) (h : j ≤ n) :
    (List.range n).drop j = List.range' j (n - j) := by
  have e : List.range n = List.range' 0 j ++ List.range' j (n - j) := by
    rw [List.range_eq_range']
    have := List.range'_append_1 0 j (n - j)
    rw [Nat.zero_add, Nat.sub_add_cancel h] at this
    exact this.symm
  rw [e, List.drop_left' (by simp)]

theorem fragments_drop_shift (s id : Nat) (d : Nat → byte_t) (size j : Nat)
    (hj : 16 * j ≤ size) :
    (fragments s id d size).drop j =
      fragments s id (fun i => d (16 * j + i)) (size - 16 * j) := by
  unfold fragments
  rw [← List.map_drop, drop_range_eq j _ (by omega)]
  have hlen : (size + 15) / 16 - j = (size - 16 * j + 15) / 16 := by omega
  rw [hlen, List.range'_eq_map_range, List.map_map]
  apply List.map_congr_left
  intro i hi
  rw [List.mem_range] at hi
  simp only [Function.comp, fragment_at, Nat.zero_add]
  congr 1
  · omega
  · unfold fill_data
    apply List.map_congr_left
    intro t ht
    rw [List.mem_range] at ht
    have e1 : size - 16 * (j + i) = size - 16 * j - 16 * i := by omega
    rw [e1]
    split
    · congr 1
      omega
    · rfl

theorem bytes_at_drop (B : List byte_t) (n : Nat) :
    bytes_at (B.drop n) = fun i => bytes_at B (n + i) := by
  funext i
  simp only [bytes_at, List.getD_eq_getElem?_getD, List.getElem?_drop]

namespace rw_lock

theorem countP_set_add {α : Type} (p : α → Bool) :
    ∀ (l : List α) (j : Nat) (a b : α), l[j]? = some a →
      (l.set j b).countP p + (if p a = true then 1 else 0) =
        l.countP p + (if p b = true then 1 else 0) := by
  intro l
  induction l with
  | nil => intro j a b h; simp at h
  | cons x xs ih =>
    intro j a b h
    cases j with
    | zero =>
      simp only [List.getElem?_cons_zero, Option.some.injEq] at h
      subst h
      simp only [List.set_cons_zero, List.countP_cons]
      omega
    | succ j =>
      simp only [List.getElem?_cons_succ] at h
      have := ih j a b h
      simp only [List.set_cons_succ, List.countP_cons]
      omega

theorem rw_inv_step (s : system) (tid : Nat) (ww sp : Bool) (h : inv s) :
    inv (step s tid ww sp) := by
  obtain ⟨hlt, hw1, hw, hr⟩ := h
  simp only [writers, readers] at hw1 hw hr
  unfold step
  cases hc : s.threads[tid]? with
  | none => exact ⟨hlt, hw1, hw, hr⟩
  | some pc =>
    have hW := fun b => countP_set_add pc_t.is_writing s.threads tid pc b hc
    have hR := fun b => countP_set_add pc_t.is_reading s.threads tid pc b hc
    cases pc with
    | idle =>
      have hW1 := hW (if ww = true then .in_lock else .in_lock_shared)
      have hR1 := hR (if ww = true then .in_lock else .in_lock_shared)
      have e1 : pc_t.is_writing (if ww = true then .in_lock else .in_lock_shared) = false := by
        cases ww <;> rfl
      have e2 : pc_t.is_reading (if ww = true then .in_lock else .in_lock_shared) = false := by
        cases ww <;> rfl
      rw [e1] at hW1
      rw [e2] at hR1
      simp only [pc_t.is_writing, pc_t.is_reading, Bool.false_eq_true, if_false,
        Nat.add_zero] at hW1 hR1
      dsimp only
      unfold inv writers readers
      dsimp only
      rw [hW1, hR1]
      exact ⟨hlt, hw1, hw, hr⟩
    | in_lock =>
      have hW1 := hW .writing
      have hR1 := hR .writing
      simp only [pc_t.is_writing, pc_t.is_reading, Bool.false_eq_true, if_false, if_true,
        Nat.add_zero] at hW1 hR1
      dsimp only
      unfold lock_round cas
      by_cases hcas : s.lk.lc_ = 0 ∧ sp = false
      · rw [if_pos hcas]
        dsimp only
        unfold inv writers readers
        dsimp only
        rw [hW1, hR1]
        have hW0 : List.countP pc_t.is_writing s.threads = 0 := by
          by_contra hne
          have h1 := (hw (by omega)).2
          rw [hcas.1] at h1
          exact absurd h1 (by decide)
        have hR0 := hr hW0
        refine ⟨by decide, by omega, fun _ => ⟨by omega, rfl⟩, fun h0 => by omega⟩
      · rw [if_neg hcas]
        exact ⟨hlt, hw1, hw, hr⟩
    | writing =>
      have hW1 := hW .idle
      have hR1 := hR .idle
      simp only [pc_t.is_writing, pc_t.is_reading, Bool.false_eq_true, if_false, if_true,
        Nat.add_zero] at hW1 hR1
      dsimp only
      unfold inv writers readers unlock
      dsimp only
      rw [hR1]
      have hR0 := (hw (by omega)).1
      refine ⟨by omega, by omega, fun h1 => by omega, fun _ => by omega⟩
    | in_lock_shared =>
      have hW1 := hW (.in_cas s.lk.load)
      have hR1 := hR (.in_cas s.lk.load)
      simp only [pc_t.is_writing, pc_t.is_reading, Bool.false_eq_true, if_false,
        Nat.add_zero] at hW1 hR1
      dsimp only
      unfold inv writers readers
      dsimp only
      rw [hW1, hR1]
      exact ⟨hlt, hw1, hw, hr⟩
    | in_cas old =>
      dsimp only
      unfold lock_shared_cas cas
      by_cases hcas : (old + 1) % 18446744073709551616 ≠ 0 ∧ (s.lk.lc_ = old ∧ sp = false)
      · rw [if_pos hcas.1, if_pos hcas.2]
        have hW1 := hW .reading
        have hR1 := hR .reading
        simp only [pc_t.is_writing, pc_t.is_reading, Bool.false_eq_true, if_false, if_true,
          Nat.add_zero] at hW1 hR1
        dsimp only
        unfold inv writers readers
        dsimp only
        rw [hW1, hR1]
        have hW0 : List.countP pc_t.is_writing s.threads = 0 := by
          by_contra hne
          have h1 := (hw (by omega)).2
          unfold w_flag at h1
          omega
        have hR0 := hr hW0
        refine ⟨Nat.mod_lt _ (by decide), hw1, fun h1 => by omega, fun _ => by omega⟩
      · have e : (if (old + 1) % 18446744073709551616 ≠ 0 then
              if s.lk.lc_ = old ∧ sp = false then
                (true, ({ lc_ := (old + 1) % 18446744073709551616 } : rw_lock))
              else (false, s.lk)
            else (false, s.lk)) = (false, s.lk) := by
          by_cases h1 : (old + 1) % 18446744073709551616 ≠ 0
          · rw [if_pos h1, if_neg (fun h2 => hcas ⟨h1, h2⟩)]
          · rw [if_neg h1]
        rw [e]
        have hW1 := hW .in_lock_shared
        have hR1 := hR .in_lock_shared
        simp only [pc_t.is_writing, pc_t.is_reading, Bool.false_eq_true, if_false,
          Nat.add_zero] at hW1 hR1
        dsimp only
        unfold inv writers readers
        dsimp only
        rw [hW1, hR1]
        exact ⟨hlt, hw1, hw, hr⟩
    | reading =>
      have hW1 := hW .idle
      have hR1 := hR .idle
      simp only [pc_t.is_writing, pc_t.is_reading, Bool.false_eq_true, if_false, if_true,
        Nat.add_zero] at hW1 hR1
      dsimp only
      unfold inv writers readers unlock_shared
      dsimp only
      rw [hW1]
      have hW0 : List.countP pc_t.is_writing s.threads = 0 := by
        by_contra hne
        have h1 := (hw (by omega)).1
        omega
      have hR0 := hr hW0
      refine ⟨Nat.mod_lt _ (by decide), hw1, fun h1 => by omega, fun _ => by omega⟩

theorem rw_inv_run : ∀ (sched : List (Nat × Bool × Bool)) (s : system), inv s → inv (run sched s) := by
  intro sched
  induction sched with
  | nil => intro s h; exact h
  | cons e rest ih => intro s h; exact ih _ (rw_inv_step s e.1 e.2.1 e.2.2 h)

theorem rw_step_length (s : system) (tid : Nat) (ww sp : Bool) :
    (step s tid ww sp).threads.length = s.threads.length := by
  unfold step
  split
  · rfl
  · simp
  · split <;> simp
  · simp
  · simp
  · split <;> simp
  · simp

theorem rw_run_length : ∀ (sched : List (Nat × Bool × Bool)) (s : system),
    (run sched s).threads.length = s.threads.length := by
  intro sched
  induction sched with
  | nil => intro s; rfl
  | cons e rest ih => intro s; rw [run, ih, rw_step_length]

theorem step_lock_completes (s : system) (tid : Nat) (ww sp : Bool)
    (hc : s.threads[tid]? = some .in_lock)
    (hd : (step s tid ww sp).threads[tid]? = some .writing) :
    s.lk.lc_ = 0 ∧ (step s tid ww sp).lk.lc_ = w_flag := by
  unfold step at hd ⊢
  rw [hc] at hd ⊢
  dsimp only at hd ⊢
  unfold lock_round cas at hd ⊢
  by_cases hcas : s.lk.lc_ = 0 ∧ sp = false
  · rw [if_pos hcas]
    exact ⟨hcas.1, rfl⟩
  · rw [if_neg hcas] at hd
    dsimp only at hd
    rw [hc] at hd
    cases hd

theorem step_lock_shared_completes (s : system) (tid old : Nat) (ww sp : Bool)
    (hlt : s.lk.lc_ < 18446744073709551616) (hc : s.threads[tid]? = some (.in_cas old))
    (hd : (step s tid ww sp).threads[tid]? = some .reading) :
    s.lk.lc_ ≠ w_flag ∧ (step s tid ww sp).lk.lc_ = s.lk.lc_ + 1 := by
  have htid : tid < s.threads.length := by
    rcases Nat.lt_or_ge tid s.threads.length with h | h
    · exact h
    · rw [List.getElem?_eq_none h] at hc; cases hc
  unfold step at hd ⊢
  rw [hc] at hd ⊢
  dsimp only at hd ⊢
  unfold lock_shared_cas cas at hd ⊢
  by_cases h1 : (old + 1) % 18446744073709551616 ≠ 0
  · rw [if_pos h1] at hd ⊢
    by_cases h2 : s.lk.lc_ = old ∧ sp = false
    · rw [if_pos h2]
      dsimp only
      unfold w_flag
      omega
    · rw [if_neg h2] at hd
      dsimp only at hd
      rw [List.getElem?_set_self htid] at hd
      cases hd
  · rw [if_neg h1] at hd
    dsimp only at hd
    rw [List.getElem?_set_self htid] at hd
    cases hd

theorem lock_some (fuel : Nat) :
    ∀ (spur : List Bool) (l l1 : rw_lock), lock spur fuel l = some l1 →
      l.lc_ = 0 ∧ l1.lc_ = w_flag := by
  induction fuel with
  | zero => intro spur l l1 h; simp [lock] at h
  | succ n ih =>
    intro spur l l1 h
    rw [lock] at h
    unfold lock_round cas at h
    by_cases hcas : l.lc_ = 0 ∧ spur.headD false = false
    · rw [if_pos hcas] at h
      simp only [Option.some.injEq] at h
      subst h
      exact ⟨hcas.1, rfl⟩
    · rw [if_neg hcas] at h
      exact ih _ _ _ h

theorem lock_of_zero (fuel : Nat) (l : rw_lock) (h : l.lc_ = 0) :
    lock [] (fuel + 1) l = some { lc_ := w_flag } := by
  rw [lock]
  unfold lock_round cas
  rw [if_pos ⟨h, rfl⟩]

theorem lock_shared_some (fuel : Nat) :
    ∀ (spur : List Bool) (l l1 : rw_lock), l.lc_ < 18446744073709551616 →
      lock_shared spur fuel l = some l1 → l.lc_ ≠ w_flag ∧ l1.lc_ = l.lc_ + 1 := by
  induction fuel with
  | zero => intro spur l l1 _ h; simp [lock_shared] at h
  | succ n ih =>
    intro spur l l1 hlt h
    rw [lock_shared] at h
    unfold lock_shared_cas cas load at h
    by_cases h1 : (l.lc_ + 1) % 18446744073709551616 ≠ 0
    · rw [if_pos h1] at h
      by_cases h2 : l.lc_ = l.lc_ ∧ spur.headD false = false
      · rw [if_pos h2] at h
        simp only [Option.some.injEq] at h
        subst h
        dsimp only
        unfold w_flag
        omega
      · rw [if_neg h2] at h
        exact ih _ _ _ hlt h
    · rw [if_neg h1] at h
      exact ih _ _ _ hlt h

theorem lock_shared_of_lt (fuel : Nat) (l : rw_lock) (h : l.lc_ < w_flag) :
    lock_shared [] (fuel + 1) l = some { lc_ := l.lc_ + 1 } := by
  unfold w_flag at h
  rw [lock_shared]
  unfold lock_shared_cas cas load
  rw [if_pos (by omega), if_pos ⟨rfl, rfl⟩]
  dsimp only
  congr 2
  omega

theorem rw_inv_start (n : Nat) : inv (start n) := by
  have h1 : writers (start n) = 0 := by
    simp [writers, start, List.countP_replicate, pc_t.is_writing]
  have h2 : readers (start n) = 0 := by
    simp [readers, start, List.countP_replicate, pc_t.is_reading]
  refine ⟨by simp [start], by omega, fun h => by omega, fun _ => by rw [h2]; rfl⟩

/-- C21 (mutual exclusion of `rw_lock`). Threads start from the unlocked state and step in
any order, each unlock paired with the lock the thread holds. In every state that is reached:
at most one thread holds the lock as the writer; while one does, no thread holds it as a
reader and the counter is `w_flag`, all ones; while none does, the counter is the number of
readers; and with fewer than `2^64 - 2` threads, hence readers, the counter is `w_flag` only
while a writer holds the lock. A thread leaves `lock()` only by a step taken at counter 0,
which sets the counter to `w_flag`; a thread leaves `lock_shared()` only by a step taken at a
counter other than `w_flag`, which adds one to it. The same holds for the methods run on their
own: `lock()` returns exactly from counter 0 and `lock_shared()` exactly from a counter
other than `w_flag`. -/
theorem rw_lock_mutual_exclusion (n : Nat) (sched : List (Nat × Bool × Bool)) (s : system)
    (hs : s = run sched (start n)) :
    (writers s ≤ 1 ∧
      (writers s = 1 → readers s = 0 ∧ s.lk.lc_ = w_flag) ∧
      (writers s = 0 → s.lk.lc_ = readers s) ∧
      (n < 18446744073709551614 → (s.lk.lc_ = w_flag ↔ writers s = 1))) ∧
    (∀ (tid : Nat) (ww sp : Bool), s.threads[tid]? = some .in_lock →
      (step s tid ww sp).threads[tid]? = some .writing →
      s.lk.lc_ = 0 ∧ (step s tid ww sp).lk.lc_ = w_flag) ∧
    (∀ (tid old : Nat) (ww sp : Bool), s.threads[tid]? = some (.in_cas old) →
      (step s tid ww sp).threads[tid]? = some .reading →
      s.lk.lc_ ≠ w_flag ∧ (step s tid ww sp).lk.lc_ = s.lk.lc_ + 1) ∧
    (∀ (spur : List Bool) (fuel : Nat) (l l1 : rw_lock), lock spur fuel l = some l1 →
      l.lc_ = 0 ∧ l1.lc_ = w_flag) ∧
    (∀ (fuel : Nat) (l : rw_lock), l.lc_ = 0 → lock [] (fuel + 1) l = some { lc_ := w_flag }) ∧
    (∀ (spur : List Bool) (fuel : Nat) (l l1 : rw_lock), l.lc_ < 18446744073709551616 →
      lock_shared spur fuel l = some l1 → l.lc_ ≠ w_flag ∧ l1.lc_ = l.lc_ + 1) ∧
    (∀ (fuel : Nat) (l : rw_lock), l.lc_ < w_flag →
      lock_shared [] (fuel + 1) l = some { lc_ := l.lc_ + 1 }) := by
  have hi : inv s := by rw [hs]; exact rw_inv_run sched _ (rw_inv_start n)
  have hlen : s.threads.length = n := by
    rw [hs, rw_run_length]; simp [start]
  obtain ⟨hlt, hw1, hw, hr⟩ := hi
  refine ⟨⟨hw1, hw, hr, fun hn => ⟨fun h => ?_, fun h => (hw h).2⟩⟩,
    fun tid ww sp => step_lock_completes s tid ww sp,
    fun tid old ww sp => step_lock_shared_completes s tid old ww sp hlt,
    fun spur fuel => lock_some fuel spur, lock_of_zero,
    fun spur fuel => lock_shared_some fuel spur, lock_shared_of_lt⟩
  by_contra hne
  have h0 : writers s = 0 := by omega
  have h1 := hr h0
  have h2 : readers s ≤ s.threads.length := List.countP_le_length _
  unfold w_flag at h
  omega

/-- Witness for C21: three threads under the schedule `demo_sched`. At the end thread 1 holds
the lock as the writer, the counter is `w_flag`, and thread 2, which asked for the lock as a
reader, is still inside `lock_shared()`. -/
theorem rw_lock_mutual_exclusion_witness :
    run demo_sched (start 3) =
        { lk := { lc_ := w_flag }, threads := [.idle, .writing, .in_lock_shared] } ∧
      (writers (run demo_sched (start 3)) ≤ 1 ∧
        (writers (run demo_sched (start 3)) = 1 →
          readers (run demo_sched (start 3)) = 0 ∧ (run demo_sched (start 3)).lk.lc_ = w_flag) ∧
        (writers (run demo_sched (start 3)) = 0 →
          (run demo_sched (start 3)).lk.lc_ = readers (run demo_sched (start 3))) ∧
        (3 < 18446744073709551614 →
          ((run demo_sched (start 3)).lk.lc_ = w_flag ↔
            writers (run demo_sched (start 3)) = 1))) :=
  ⟨by decide, (rw_lock_mutual_exclusion 3 demo_sched _ rfl).1⟩

end rw_lock

/-! ## Properties of `send` and `recv`: messages of one fragment -/

/-- A fragment that ends a message (`-data_length ≤ remain ≤ 0`) and is not dropped, popped by
a receiver without an entry for its id: `recv` returns at this fragment, with the cache as it
was, and every copy it makes stays inside the data area. -/
theorem recv_loop_terminator (r : Nat) (oob : Nat → byte_t) (rc : recv_cache_t) (m : msg_t)
    (rest : List msg_t) (hid : m.id_ ≠ 0) (hq : m.que_ ≠ r) (hlo : -16 ≤ m.remain_)
    (hhi : m.remain_ ≤ 0) (hlen : m.data_.length = 16) (hrc : rc_find rc m.id_ = none) :
    recv_loop r oob rc (m :: rest) =
        (some { data := m.data_.take (16 + m.remain_).toNat, size := (16 + m.remain_).toNat },
          rc, rest) ∧
      recv_defined r oob rc (m :: rest) = true := by
  have e1 : to_int ((data_length : Nat) : Int) = 16 := by decide
  have h1 : to_size (to_int (16 + m.remain_)) = (16 + m.remain_).toNat := by
    rw [to_int_eq _ (by omega) (by omega), to_size_eq _ (by omega) (by omega)]
  constructor
  · rw [recv_loop]
    simp only [hid, hq, if_false, hrc, e1, h1]
    rw [if_pos (by simp only [data_length]; omega)]
    simp only [make_cache]
    rw [mem_read_eq_take _ _ _ (by omega)]
  · rw [recv_defined]
    simp only [hid, hq, if_false, hrc, e1, h1]
    rw [if_pos (by simp only [data_length]; omega)]
    simp only [int_ok, hlen, Bool.and_eq_true, decide_eq_true_eq]
    omega


theorem fragments_last (s id : Nat) (d : Nat → byte_t) (size k : Nat) (hk : 16 * k < size)
    (hlast : size ≤ 16 * (k + 1)) :
    (fragments s id d size).drop k = [fragment_at s id d size k] := by
  rw [fragments_drop s id d size k (by omega), fragments_drop_nil s id d size (k + 1) (by omega)]

theorem interleaving_mem {α : Type} (l1 l2 l : List α) (h : Interleaving l1 l2 l) :
    ∀ a ∈ l, a ∈ l1 ∨ a ∈ l2 := by
  induction h with
  | nil => intro a ha; cases ha
  | left x _ ih =>
    intro a ha
    rcases List.mem_cons.mp ha with e | e
    · exact Or.inl (by rw [e]; exact List.mem_cons_self _ _)
    · rcases ih a e with g | g
      · exact Or.inl (List.mem_cons_of_mem _ g)
      · exact Or.inr g
  | right x _ ih =>
    intro a ha
    rcases List.mem_cons.mp ha with e | e
    · exact Or.inr (by rw [e]; exact List.mem_cons_self _ _)
    · rcases ih a e with g | g
      · exact Or.inl g
      · exact Or.inr (List.mem_cons_of_mem _ g)

/-- A receiver with an empty cache that calls `recv` again and again on fragments each of which
ends a message makes no copy outside a data area. -/
theorem recv_all_defined_terminators (r : Nat) (oob : Nat → byte_t) (o : List msg_t) :
    ∀ (L : List msg_t) (fuel : Nat) (c : Bool),
      (∀ m ∈ L, m.id_ ≠ 0 ∧ m.que_ ≠ r ∧ -16 ≤ m.remain_ ∧ m.remain_ ≤ 0 ∧
        m.data_.length = 16) →
      recv_all_defined oob fuel (some { addr := r, connected := c, out := o, inbox := L }) [] =
        true := by
  intro L
  induction L with
  | nil =>
    intro fuel c _
    cases fuel with
    | zero => rfl
    | succ n => simp [recv_all_defined, recv, recv_loop, recv_defined, queue_t.connect]
  | cons m L ih =>
    intro fuel c h
    cases fuel with
    | zero => rfl
    | succ n =>
      obtain ⟨a1, a2, a3, a4, a5⟩ := h m (List.mem_cons_self _ _)
      obtain ⟨hl, hd⟩ := recv_loop_terminator r oob [] m L a1 a2 a3 a4 a5 rfl
      rw [recv_all_defined]
      simp only [hd, Bool.true_and, recv_cons_return r oob [] [] m L c o _ hl]
      exact ih n true (fun x hx => h x (List.mem_cons_of_mem _ hx))

theorem mem_fragments_small (s id : Nat) (d : Nat → byte_t) (size : Nat) (h1 : 1 ≤ size)
    (hs : size ≤ 16) (m : msg_t) (hm : m ∈ fragments s id d size) :
    m.id_ = id ∧ m.que_ = s ∧ -16 ≤ m.remain_ ∧ m.remain_ ≤ 0 ∧ m.data_.length = 16 := by
  have e := fragments_last s id d size 0 (by omega) (by omega)
  rw [List.drop_zero] at e
  rw [e, List.mem_singleton] at hm
  subst hm
  refine ⟨rfl, rfl, ?_, ?_, fill_data_length _ _ _⟩ <;> simp only [fragment_at] <;> omega

/-- C1 (fragment round trip), as amended. For every byte string `B` with
`1 ≤ |B| ≤ data_length`, sent with a drawn message id other than the reserved id 0: `send`
succeeds and emits one fragment, and feeding it to `recv` on a receiver with an empty
reassembly cache and a queue address different from the sender's makes `recv` return a buffer
of size `|B|` whose bytes are `B`; the cache is empty again, the fragment has been popped, and
no copy of `recv` leaves the data area of the fragment. -/
theorem send_recv_round_trip (B : List byte_t) (acc : Nat) (snd rcv : queue_t)
    (oob : Nat → byte_t) (h1 : 1 ≤ B.length) (hmax : B.length ≤ data_length)
    (hid : (acc + 1) % 18446744073709551616 ≠ 0) (haddr : snd.addr ≠ rcv.addr) :
    (send acc (some snd) (some (bytes_at B)) B.length).1 = true ∧
      (emitted (some snd) (send acc (some snd) (some (bytes_at B)) B.length)).length = 1 ∧
      recv (some { rcv with
              inbox := emitted (some snd) (send acc (some snd) (some (bytes_at B)) B.length) })
          oob [] =
        (some { data := B, size := B.length },
          some { rcv with connected := true, inbox := [] }, []) ∧
      recv_defined rcv.addr oob []
          (emitted (some snd) (send acc (some snd) (some (bytes_at B)) B.length)) = true := by
  simp only [data_length] at hmax
  have hI : B.length ≤ INT_MAX := by unfold INT_MAX; omega
  rw [emitted_send acc snd _ _ h1 hI]
  refine ⟨by rw [send_eq acc snd _ _ h1 hI], by rw [fragments_length]; omega, ?_, ?_⟩
  · simp only [recv, queue_t.connect]
    rw [recv_loop_fragments rcv.addr snd.addr _ B oob [] hid haddr h1 hI rfl]
  · have e := fragments_last snd.addr ((acc + 1) % 18446744073709551616) (bytes_at B) B.length 0
      (by omega) (by omega)
    rw [List.drop_zero] at e
    rw [e]
    obtain ⟨a1, a2, a3, a4, a5⟩ := mem_fragments_small snd.addr
      ((acc + 1) % 18446744073709551616) (bytes_at B) B.length h1 hmax _
      (by rw [e]; exact List.mem_singleton_self _)
    exact (recv_loop_terminator rcv.addr oob [] _ [] (by rw [a1]; exact hid)
      (by rw [a2]; exact haddr) a3 a4 a5 (by rw [a1]; rfl)).2

/-- C1, as amended, on a concrete run: the 15 bytes `hello, world!!!` sent from `que_a` are
returned by `recv` on `que_b`. -/
theorem send_recv_round_trip_witness :
    (send 0 (some que_a) (some (bytes_at hello_payload)) hello_payload.length).1 = true ∧
      recv (some { que_b with
              inbox := emitted (some que_a)
                (send 0 (some que_a) (some (bytes_at hello_payload)) hello_payload.length) })
          (fun _ => 0) [] =
        (some { data := hello_payload, size := hello_payload.length },
          some { que_b with connected := true, inbox := [] }, []) :=
  ⟨(send_recv_round_trip hello_payload 0 que_a que_b (fun _ => 0) (by decide) (by decide)
      (by decide) (by decide)).1,
    (send_recv_round_trip hello_payload 0 que_a que_b (fun _ => 0) (by decide) (by decide)
      (by decide) (by decide)).2.2.1⟩

/-- C1 fails as stated: with the message counter at `2^64 - 1` the id `send` draws is the
reserved id 0, and `recv`, which tests the id first, returns the empty buffer for the fragment
of the 5-byte message instead of the 5 bytes. Both calls are ones that C++ defines. -/
theorem send_recv_round_trip_counterexample :
    send_defined five_payload.length = true ∧
      (send 18446744073709551615 (some que_a) (some (bytes_at five_payload))
        five_payload.length).1 = true ∧
      (emitted (some que_a)
        (send 18446744073709551615 (some que_a) (some (bytes_at five_payload))
          five_payload.length)).map (fun m => m.id_) = [0] ∧
      (recv (some { que_b with
              inbox := emitted (some que_a)
                (send 18446744073709551615 (some que_a) (some (bytes_at five_payload))
                  five_payload.length) })
          (fun _ => 0) []).1 = some { data := [], size := 0 } ∧
      recv_defined que_b.addr (fun _ => 0) []
          (emitted (some que_a)
            (send 18446744073709551615 (some que_a) (some (bytes_at five_payload))
              five_payload.length)) = true ∧
      five_payload.length = 5 := by
  decide

/-- C6 (interleaving), as amended. Two messages `B1` and `B2` of `1` to `data_length` bytes
each are sent with distinct msg_ids other than 0 from queues other than the receiver's, and `L`
is any interleaving of the two emitted fragment sequences that keeps the order inside each
message. A receiver with an empty cache that calls `recv` repeatedly on `L` (three calls or
more) obtains exactly two buffers, one equal to `B1` and one equal to `B2`, in the order in
which the terminators stand in `L`; then every fragment has been popped and the cache is
empty, and no copy of `recv` has left the data area of a fragment. -/
theorem recv_interleaved_messages (B1 B2 : List byte_t) (acc1 acc2 : Nat)
    (snd1 snd2 rcv : queue_t) (oob : Nat → byte_t) (F1 F2 L : List msg_t) (fuel : Nat)
    (h1 : 1 ≤ B1.length) (hmax1 : B1.length ≤ data_length)
    (h2 : 1 ≤ B2.length) (hmax2 : B2.length ≤ data_length)
    (hid1 : (acc1 + 1) % 18446744073709551616 ≠ 0)
    (hid2 : (acc2 + 1) % 18446744073709551616 ≠ 0)
    (hne : (acc1 + 1) % 18446744073709551616 ≠ (acc2 + 1) % 18446744073709551616)
    (haddr1 : snd1.addr ≠ rcv.addr) (haddr2 : snd2.addr ≠ rcv.addr)
    (hF1 : F1 = emitted (some snd1) (send acc1 (some snd1) (some (bytes_at B1)) B1.length))
    (hF2 : F2 = emitted (some snd2) (send acc2 (some snd2) (some (bytes_at B2)) B2.length))
    (hL : Interleaving F1 F2 L) (hfuel : 3 ≤ fuel) :
    recv_all oob fuel (some { rcv with inbox := L }) [] =
        (due_buffers ((acc1 + 1) % 18446744073709551616) B1 B2 L,
          some { rcv with connected := true, inbox := [] }, []) ∧
      (due_buffers ((acc1 + 1) % 18446744073709551616) B1 B2 L =
          [{ data := B1, size := B1.length }, { data := B2, size := B2.length }] ∨
        due_buffers ((acc1 + 1) % 18446744073709551616) B1 B2 L =
          [{ data := B2, size := B2.length }, { data := B1, size := B1.length }]) ∧
      recv_all_defined oob fuel (some { rcv with inbox := L }) [] = true := by
  simp only [data_length] at hmax1 hmax2
  have hI1 : B1.length ≤ INT_MAX := by unfold INT_MAX; omega
  have hI2 : B2.length ≤ INT_MAX := by unfold INT_MAX; omega
  rw [emitted_send acc1 snd1 _ _ h1 hI1] at hF1
  rw [emitted_send acc2 snd2 _ _ h2 hI2] at hF2
  subst hF1 hF2
  have hdue : due_buffers ((acc1 + 1) % 18446744073709551616) B1 B2 L =
        [{ data := B1, size := B1.length }, { data := B2, size := B2.length }] ∨
      due_buffers ((acc1 + 1) % 18446744073709551616) B1 B2 L =
        [{ data := B2, size := B2.length }, { data := B1, size := B1.length }] := by
    have hI := interleaving_due_buffers ((acc1 + 1) % 18446744073709551616) B1 B2 _ _ _ hL
    have e1 := due_buffers_fragments ((acc1 + 1) % 18446744073709551616) B1 B2 snd1.addr
      ((acc1 + 1) % 18446744073709551616) (bytes_at B1) B1.length h1
    have e2 := due_buffers_fragments ((acc1 + 1) % 18446744073709551616) B1 B2 snd2.addr
      ((acc2 + 1) % 18446744073709551616) (bytes_at B2) B2.length h2
    rw [if_pos rfl] at e1
    rw [if_neg (Ne.symm hne)] at e2
    rw [e1, e2] at hI
    exact interleaving_singletons _ _ _ hI
  refine ⟨?_, hdue, ?_⟩
  · have hlen : (due_buffers ((acc1 + 1) % 18446744073709551616) B1 B2 L).length < fuel := by
      rcases hdue with e | e <;> rw [e] <;> simp <;> omega
    exact recv_all_interleaved rcv.addr snd1.addr snd2.addr _ _ B1 B2 oob hid1 hid2 hne haddr1
      haddr2 hI1 hI2 rcv.out L 0 0 [] fuel rcv.connected
      (by simpa using hL) (by simp [progress_ok, rc_find]) (by simp [progress_ok, rc_find])
      (fun _ _ _ => rfl) hlen
  · apply recv_all_defined_terminators rcv.addr oob rcv.out L fuel rcv.connected
    intro m hm
    rcases interleaving_mem _ _ _ hL m hm with g | g
    · obtain ⟨a1, a2, a3, a4, a5⟩ := mem_fragments_small _ _ _ _ h1 hmax1 m g
      exact ⟨by rw [a1]; exact hid1, by rw [a2]; exact haddr1, a3, a4, a5⟩
    · obtain ⟨a1, a2, a3, a4, a5⟩ := mem_fragments_small _ _ _ _ h2 hmax2 m g
      exact ⟨by rw [a1]; exact hid2, by rw [a2]; exact haddr2, a3, a4, a5⟩

/-- C6, as amended, on a concrete run: the 15-byte payload (id 1, from `que_a`) and the 5-byte
payload (id 2, from `que_c`), the fragment of the second one popped first. -/
theorem recv_interleaved_messages_witness :
    recv_all (fun _ => 0) 3
        (some { que_b with
          inbox := merge_by [false, true]
            (emitted (some que_a) (send 0 (some que_a) (some (bytes_at hello_payload)) 15))
            (emitted (some que_c) (send 1 (some que_c) (some (bytes_at five_payload)) 5)) })
        [] =
      (due_buffers ((0 + 1) % 18446744073709551616) hello_payload five_payload
          (merge_by [false, true]
            (emitted (some que_a) (send 0 (some que_a) (some (bytes_at hello_payload)) 15))
            (emitted (some que_c) (send 1 (some que_c) (some (bytes_at five_payload)) 5))),
        some { que_b with connected := true, inbox := [] }, []) :=
  (recv_interleaved_messages hello_payload five_payload 0 1 que_a que_c que_b (fun _ => 0) _ _ _ 3
    (by decide) (by decide) (by decide) (by decide) (by decide) (by decide) (by decide)
    (by decide) (by decide) rfl rfl (interleaving_merge_by _ _ _) (by decide)).1

/-- C6 fails as stated, in three runs of two messages with distinct ids on the receiver `que_b`,
all of them calls that C++ defines. (1) A message of `2^35` bytes and a message of 5 bytes:
`send` returns `true` for the first one without emitting a fragment, because
`static_cast<int>(size / data_length)` is negative and `static_cast<int>(size)` is 0; the only
interleaving is the fragment of the second message, and the receiver obtains one buffer, not
two. (2) The 15-byte message sent with the counter at `2^64 - 1` draws the reserved id 0: the
receiver obtains the empty buffer in its place. (3) The 15-byte message sent through the
receiver's own queue is skipped: the receiver obtains the other message only. -/
theorem recv_interleaved_messages_counterexample :
    send_defined 34359738368 = true ∧
      (send 0 (some que_a) (some (fun _ => 0)) 34359738368).1 = true ∧
      emitted (some que_a) (send 0 (some que_a) (some (fun _ => 0)) 34359738368) = [] ∧
      (recv_all (fun _ => 0) 3
          (some { que_b with
            inbox := merge_by []
              (emitted (some que_a) (send 0 (some que_a) (some (fun _ => 0)) 34359738368))
              (emitted (some que_c) (send 1 (some que_c) (some (bytes_at five_payload)) 5)) })
          []).1 = [{ data := five_payload, size := 5 }] ∧
      recv_all_defined (fun _ => 0) 3
          (some { que_b with
            inbox := merge_by []
              (emitted (some que_a) (send 0 (some que_a) (some (fun _ => 0)) 34359738368))
              (emitted (some que_c) (send 1 (some que_c) (some (bytes_at five_payload)) 5)) })
          [] = true ∧
      (recv_all (fun _ => 0) 3
          (some { que_b with
            inbox := merge_by []
              (emitted (some que_a)
                (send 18446744073709551615 (some que_a) (some (bytes_at hello_payload)) 15))
              (emitted (some que_c) (send 0 (some que_c) (some (bytes_at five_payload)) 5)) })
          []).1 = [{ data := [], size := 0 }, { data := five_payload, size := 5 }] ∧
      (recv_all (fun _ => 0) 3
          (some { que_b with
            inbox := merge_by []
              (emitted (some que_b) (send 0 (some que_b) (some (bytes_at hello_payload)) 15))
              (emitted (some que_c) (send 1 (some que_c) (some (bytes_at five_payload)) 5)) })
          []).1 = [{ data := five_payload, size := 5 }] := by
  decide

/-- C20 (joining in mid-message), as amended. A message `B` of at most `INT_MAX` bytes is sent
with a drawn message id other than 0 from a queue other than the receiver's, and a receiver
without a cache entry for that id misses the first `k` fragments, all but the last one, and
pops the last one. Then `recv` returns the buffer of `|B| - 16 * k` bytes, at most
`data_length`, that holds the suffix of `B` from byte offset `16 * k` on, has popped the
fragment, and leaves the cache as it was, without an entry for the id; no copy of `recv`
leaves the data area of the fragment. -/
theorem recv_mid_message_join (B : List byte_t) (acc : Nat) (snd rcv : queue_t)
    (oob : Nat → byte_t) (rc : recv_cache_t) (k : Nat) (hmax : B.length ≤ INT_MAX)
    (hid : (acc + 1) % 18446744073709551616 ≠ 0) (haddr : snd.addr ≠ rcv.addr)
    (hk : k + 1 = (B.length + 15) / 16)
    (hrc : rc_find rc ((acc + 1) % 18446744073709551616) = none) :
    (emitted (some snd) (send acc (some snd) (some (bytes_at B)) B.length)).length = k + 1 ∧
      recv (some { rcv with
              inbox := (emitted (some snd)
                (send acc (some snd) (some (bytes_at B)) B.length)).drop k }) oob rc =
        (some { data := B.drop (16 * k), size := B.length - 16 * k },
          some { rcv with connected := true, inbox := [] }, rc) ∧
      B.length - 16 * k ≤ data_length ∧
      recv_defined rcv.addr oob rc
          ((emitted (some snd) (send acc (some snd) (some (bytes_at B)) B.length)).drop k) =
        true := by
  have h1 : 1 ≤ B.length := by omega
  have hlen : (B.drop (16 * k)).length = B.length - 16 * k := List.length_drop _ _
  rw [emitted_send acc snd _ _ h1 hmax]
  refine ⟨by rw [fragments_length, hk], ?_, by simp only [data_length]; omega, ?_⟩
  · rw [fragments_drop_shift _ _ _ _ _ (by omega), ← bytes_at_drop, ← hlen]
    have h := recv_loop_fragments rcv.addr snd.addr _ (B.drop (16 * k)) oob rc hid haddr
      (by rw [hlen]; omega) (by rw [hlen]; unfold INT_MAX at hmax ⊢; omega) hrc
    simp only [recv, queue_t.connect, h]
  · rw [fragments_last _ _ _ _ k (by omega) (by omega)]
    exact (recv_loop_terminator rcv.addr oob rc _ [] hid haddr
      (by simp only [fragment_at]; omega) (by simp only [fragment_at]; omega)
      (fill_data_length _ _ _) hrc).2

/-- C20, as amended, on a concrete run: the receiver misses the first two fragments of a
40-byte message and obtains its last 8 bytes. -/
theorem recv_mid_message_join_witness :
    recv (some { que_b with
            inbox := (emitted (some que_a)
              (send 0 (some que_a) (some (bytes_at count_payload)) count_payload.length)).drop 2 })
        (fun _ => 0) [] =
      (some { data := count_payload.drop (16 * 2), size := count_payload.length - 16 * 2 },
        some { que_b with connected := true, inbox := [] }, []) :=
  (recv_mid_message_join count_payload 0 que_a que_b (fun _ => 0) [] 2 (by decide) (by decide)
    (by decide) (by decide) rfl).2.1

/-- C20 fails as stated, in three runs on the receiver `que_b`. (1) For a message of
`2^36 + 20` bytes `send` emits the two fragments of a 20-byte message, because
`static_cast<int>(size)` keeps the low 32 bits of the size; a receiver that misses the first
one obtains a buffer of 4 bytes, not of `size - 1 * data_length` bytes. Both calls are ones
that C++ defines: `send` reads the first 20 bytes of the payload, and no copy of `recv` leaves
the data area. (2) A 20-byte message sent with the counter at `2^64 - 1` draws the reserved
id 0: the receiver that misses its first fragment obtains the empty buffer. (3) A 20-byte
message sent through the receiver's own queue is skipped: `recv` does not return. -/
theorem recv_mid_message_join_counterexample :
    send_defined 68719476756 = true ∧
      (emitted (some que_a) (send 0 (some que_a) (some (fun _ => 7)) 68719476756)).length = 2 ∧
      (recv (some { que_b with
              inbox := (emitted (some que_a)
                (send 0 (some que_a) (some (fun _ => 7)) 68719476756)).drop 1 })
          (fun _ => 0) []).1 = some { data := List.replicate 4 7, size := 4 } ∧
      recv_defined que_b.addr (fun _ => 0) []
          ((emitted (some que_a) (send 0 (some que_a) (some (fun _ => 7)) 68719476756)).drop 1) =
        true ∧
      68719476756 - 1 * data_length ≠ 4 ∧
      (recv (some { que_b with
              inbox := (emitted (some que_a)
                (send 18446744073709551615 (some que_a) (some (bytes_at short_payload)) 20)).drop 1 })
          (fun _ => 0) []).1 = some { data := [], size := 0 } ∧
      (recv (some { que_b with
              inbox := (emitted (some que_b)
                (send 0 (some que_b) (some (bytes_at short_payload)) 20)).drop 1 })
          (fun _ => 0) []).1 = none := by
  decide

/-! ## Properties of `send`: the calls that C++ defines -/

theorem send_loop_defined_pos (size n : Nat) (off o : Int)
    (h : send_loop_defined size (n + 1) off = some o) : 0 ≤ off := by
  rw [send_loop_defined] at h
  split at h
  · rename_i hc; exact hc.2.2.1
  · cases h

theorem send_loop_defined_spec (size : Nat) :
    ∀ (n k : Nat) (o : Int), 16 * k < 2147483648 →
      send_loop_defined size n (16 * (k : Int)) = some o →
      o = to_int (16 * ((k + n : Nat) : Int)) ∧
        ∀ t, t < n → 16 * (k + t) < 2147483648 ∧
          -2147483648 ≤ to_int (size : Int) - 16 * ((k + t : Nat) : Int) - 16 ∧
          16 * (k + t) + 16 ≤ size := by
  intro n
  induction n with
  | zero =>
    intro k o hk h
    simp only [send_loop_defined, Option.some.injEq] at h
    refine ⟨?_, fun t ht => absurd ht (Nat.not_lt_zero t)⟩
    rw [Nat.add_zero, to_int_eq _ (by omega) (by omega)]
    exact h.symm
  | succ n ih =>
    intro k o hk h
    have e16 : to_int ((data_length : Nat) : Int) = 16 := by decide
    rw [send_loop_defined] at h
    split at h
    · rename_i hc
      obtain ⟨_, c2, _, c4⟩ := hc
      rw [e16] at c2
      simp only [int_ok, decide_eq_true_eq, data_length] at c2 c4
      have hnext : to_int (16 * (k : Int) + ((data_length : Nat) : Int)) =
          to_int (16 * ((k + 1 : Nat) : Int)) := by
        have e : 16 * (k : Int) + ((data_length : Nat) : Int) = 16 * ((k + 1 : Nat) : Int) := by
          simp only [data_length]; push_cast; ring
        rw [e]
      rw [hnext] at h
      have h0 : 16 * (k + 0) < 2147483648 ∧
          -2147483648 ≤ to_int (size : Int) - 16 * ((k + 0 : Nat) : Int) - 16 ∧
          16 * (k + 0) + 16 ≤ size := by
        refine ⟨by omega, by simp only [Nat.add_zero]; omega, by simp only [Nat.add_zero]; omega⟩
      cases n with
      | zero =>
        simp only [send_loop_defined, Option.some.injEq] at h
        refine ⟨h.symm, fun t ht => ?_⟩
        have : t = 0 := by omega
        subst this
        exact h0
      | succ m =>
        have hpos := send_loop_defined_pos size m _ o h
        have hlt : 16 * (k + 1) < 2147483648 := by
          unfold to_int at hpos; omega
        rw [to_int_eq _ (by omega) (by omega)] at h
        obtain ⟨a, b⟩ := ih (k + 1) o hlt h
        refine ⟨by rw [a, show k + 1 + (m + 1) = k + (m + 1 + 1) by omega], fun t ht => ?_⟩
        cases t with
        | zero => exact h0
        | succ t =>
          have := b t (by omega)
          rw [show k + 1 + t = k + (t + 1) by omega] at this
          exact this
    · cases h

theorem send_defined_spec (size n : Nat)
    (hn : (to_int ((size / data_length : Nat) : Int)).toNat = n)
    (hdef : send_defined size = true) :
    ∃ o, send_loop_defined size n 0 = some o ∧
      (-2147483648 ≤ to_int (size : Int) - o ∧ to_int (size : Int) - o ≤ 2147483647) ∧
      (0 < to_int (to_int (size : Int) - o) →
        to_int (to_int (size : Int) - o) ≤ 16 ∧ 0 ≤ o ∧
          o + to_int (to_int (size : Int) - o) ≤ size) := by
  unfold send_defined at hdef
  rw [hn] at hdef
  cases hloop : send_loop_defined size n 0 with
  | none => rw [hloop] at hdef; cases hdef
  | some o =>
    rw [hloop] at hdef
    simp only [send_tail_defined, Bool.and_eq_true, decide_eq_true_eq, int_ok, data_length] at hdef
    exact ⟨o, rfl, hdef.1, hdef.2⟩

theorem to_int_nat (s : Nat) (hs : s ≤ INT_MAX) : to_int (s : Int) = (s : Int) := by
  unfold INT_MAX at hs
  rw [to_int_eq _ (by omega) (by omega)]

/-- The first fragment of a message of more than `data_length` bytes, popped by a receiver
without an entry for its id, makes `make_cache` read `remain` bytes past the data area: the
call of `recv` is not one that C++ defines. -/
theorem recv_undefined_first_fragment (r : Nat) (oob : Nat → byte_t) (rc : recv_cache_t)
    (m : msg_t) (rest : List msg_t) (hid : m.id_ ≠ 0) (hq : m.que_ ≠ r)
    (hrem : 0 < m.remain_) (hmax : m.remain_ + 16 ≤ 2147483647)
    (hlen : m.data_.length = data_length) (hrc : rc_find rc m.id_ = none) :
    recv_defined r oob rc (m :: rest) = false := by
  have h1 : to_size (to_int (to_int (data_length : Int) + m.remain_)) = 16 + m.remain_.toNat := by
    have e1 : to_int (data_length : Int) = 16 := by decide
    rw [e1, to_int_eq _ (by omega) (by omega), to_size_eq _ (by omega) (by omega)]
    omega
  rw [recv_defined]
  simp only [hid, hq, if_false, hrc, h1, hlen]
  rw [if_neg (by simp only [data_length]; omega)]
  have e2 : decide (16 + m.remain_.toNat ≤ data_length) = false := by
    simp only [data_length, decide_eq_false_iff_not]; omega
  rw [e2, Bool.false_and, Bool.and_false]

/-- The 65-byte message of scenario S3 on its way through `recv`: the first copy reads 49 bytes
past the data area of the first fragment. -/
theorem recv_undefined_S3 :
    recv_defined 8192 (fun _ => 0) []
      (emitted (some que_a) (send 0 (some que_a) (some (bytes_at S3_payload)) 65)) = false := by
  decide

/-! ## Properties of `recv`: reassembly inside the buffer -/

theorem int_ok_of (x : Int) (h1 : -2147483648 ≤ x) (h2 : x ≤ 2147483647) : int_ok x = true := by
  unfold int_ok
  simp only [decide_eq_true_eq]
  exact ⟨h1, h2⟩

theorem send_round_defined (size k : Nat) (hs : size ≤ INT_MAX) (hk : 16 * k + 16 ≤ size) :
    (int_ok (to_int (size : Int) - 16 * (k : Int)) = true ∧
      int_ok (to_int (size : Int) - 16 * (k : Int) - to_int ((data_length : Nat) : Int)) = true ∧
      0 ≤ 16 * (k : Int) ∧ 16 * (k : Int) + ((data_length : Nat) : Int) ≤ (size : Int)) ∧
    to_int (16 * (k : Int) + ((data_length : Nat) : Int)) = 16 * ((k + 1 : Nat) : Int) := by
  have e16 : to_int ((data_length : Nat) : Int) = 16 := by decide
  rw [to_int_nat size hs, e16]
  unfold INT_MAX at hs
  simp only [data_length]
  refine ⟨⟨int_ok_of _ (by omega) (by omega), int_ok_of _ (by omega) (by omega), by omega,
    by omega⟩, ?_⟩
  rw [to_int_eq _ (by omega) (by omega)]
  push_cast
  ring

theorem send_loop_defined_of_le (size : Nat) (hs : size ≤ INT_MAX) :
    ∀ (n k : Nat), 16 * (k + n) ≤ size →
      send_loop_defined size n (16 * (k : Int)) = some (16 * ((k + n : Nat) : Int)) := by
  intro n
  induction n with
  | zero => intro k _; rfl
  | succ n ih =>
    intro k hk
    obtain ⟨hc, hnext⟩ := send_round_defined size k hs (by omega)
    rw [send_loop_defined, if_pos hc, hnext, ih (k + 1) (by omega),
      show k + 1 + n = k + (n + 1) by omega]

theorem send_tail_defined_of_le (size : Nat) (hs : size ≤ INT_MAX) :
    send_tail_defined size (some (16 * ((0 + size / 16 : Nat) : Int))) = true := by
  have hm := Nat.div_add_mod size 16
  have hc := Nat.mod_lt size (show 16 > 0 by decide)
  rw [send_tail_defined, to_int_nat size hs]
  unfold INT_MAX at hs
  have e : to_int ((size : Int) - 16 * ((0 + size / 16 : Nat) : Int)) = ((size % 16 : Nat) : Int) := by
    rw [to_int_eq _ (by omega) (by omega)]
    omega
  rw [e]
  simp only [Bool.and_eq_true, decide_eq_true_eq, data_length]
  refine ⟨int_ok_of _ (by omega) (by omega), fun _ => ⟨by omega, by omega, by omega⟩⟩

theorem rounds_count_of_le (size : Nat) (hs : size ≤ INT_MAX) :
    (to_int ((size / data_length : Nat) : Int)).toNat = size / 16 := by
  unfold INT_MAX at hs
  simp only [data_length]
  rw [to_int_eq _ (by omega) (by omega)]
  exact Int.toNat_ofNat _

/-- Every call of `send` on a payload of at most `INT_MAX` bytes is one that C++ defines. -/
theorem send_defined_of_le (size : Nat) (hs : size ≤ INT_MAX) : send_defined size = true := by
  have h := send_loop_defined_of_le size hs (size / 16) 0
    (by have := Nat.div_add_mod size 16; omega)
  have e0 : (16 : Int) * ((0 : Nat) : Int) = 0 := by simp
  rw [e0] at h
  unfold send_defined
  rw [rounds_count_of_le size hs, h]
  exact send_tail_defined_of_le size hs

/-- The call of `send` on a payload of `2^32` bytes is not one that C++ defines: its loop runs
`2^28` times, and the offset leaves `int` on the way. -/
theorem send_undefined_two_pow_32 : send_defined 4294967296 = false := by
  cases h : send_defined 4294967296 with
  | false => rfl
  | true =>
    obtain ⟨o, hloop, _, _⟩ := send_defined_spec 4294967296 268435456 (by decide) h
    have hloop2 : send_loop_defined 4294967296 268435456 (16 * ((0 : Nat) : Int)) = some o := hloop
    have := (send_loop_defined_spec 4294967296 268435456 0 o (by decide) hloop2).2 268435455
      (by decide)
    omega

end ipc
